import Mathlib

/-! # kustomize-plugins: the `kustomizebuild` generator

A shallow embedding of `kustomizebuild/kustomizebuild.go`: path translation per
directory base, the per-base pattern matchers, the directory walk with its
dispatch to the build runner, and the serialisation of the manifests.

Go strings and byte slices are lists of characters (`Str`); on the ASCII paths
and patterns used here a character is one byte.  A Go call that returns
`(value, error)` returns `Except Fault value`; a run-time panic and a loop that
never ends are faults of their own kind, so that they are never mistaken for a
returned `error`.
-/

namespace kustomizebuild

/-- Go `string` and `[]byte`. -/
abbrev Str := List Char

/-- What ends a call other than a normal value: a returned `error`, a run-time
panic, or a loop that never ends. -/
inductive Fault where
  | error (msg : Str)
  | panic (msg : Str)
  | hang
  deriving DecidableEq, Repr

deriving instance DecidableEq for Except

/-! ## Constants -/

/-- The `yamlSeparator` constant. -/
def yamlSeparator : Str := "---\n".toList

/-- The `kustomizePluginConfigRootEnv` constant. -/
def kustomizePluginConfigRootEnv : Str := "KUSTOMIZE_PLUGIN_CONFIG_ROOT".toList

/-! ## `directoryBase` -/

/-- The `directoryBase` type: a Go `int`. -/
abbrev directoryBase := Int

/-- The `git` constant (`iota` = 0). -/
def git : directoryBase := 0

/-- The `pwd` constant (1). -/
def pwd : directoryBase := 1

/-- The method `directoryBase.string`; it panics on an unknown base. -/
def directoryBase.string (b : directoryBase) : Except Fault Str :=
  if b = git then .ok "git".toList
  else if b = pwd then .ok "pwd".toList
  else .error (.panic "unknown directory base type".toList)

/-! ## Path helpers of the Go standard library (Unix flavour) -/

/-- Modelled from the spec: Go's `strings.Split`, not part of the sources.
The Go `strings.Split(s, string(sep))` for a one-character separator. -/
def splitOn (sep : Char) : Str → List Str
  | [] => [[]]
  | c :: cs =>
    if c = sep then [] :: splitOn sep cs
    else
      match splitOn sep cs with
      | [] => [[c]]
      | h :: t => (c :: h) :: t

/-- Modelled from the spec: Go's `strings.Join`, not part of the sources.
The Go `strings.Join(parts, string(sep))` for a one-character separator. -/
def joinWith (sep : Char) : List Str → Str
  | [] => []
  | [p] => p
  | p :: q :: rest => p ++ sep :: joinWith sep (q :: rest)

/-- Modelled from the spec: a step of `filepath.Clean`, not part of the sources.
One step of the lexical clean-up of a path: the elements kept so far are
held last-first.  Empty and `.` elements go, `..` removes the element before it,
is dropped at the top of a rooted path and kept at the top of a relative one. -/
def cleanStep (rooted : Bool) (kept : List Str) (elem : Str) : List Str :=
  if elem = [] ∨ elem = ".".toList then kept
  else if elem = "..".toList then
    match kept with
    | [] => if rooted then [] else [elem]
    | top :: below => if top = "..".toList then elem :: kept else below
  else elem :: kept

/-- Modelled from the spec: Go's `filepath.Clean` is not part of the sources; this
is the lexical normalisation behind the "generic relative-path resolution" of
§4.1: the shortest equivalent path, `.` for the empty one. -/
def Clean (path : Str) : Str :=
  let rooted := path.head? = some '/'
  let elems := ((splitOn '/' path).foldl (cleanStep rooted) []).reverse
  if rooted then '/' :: joinWith '/' elems
  else if elems = [] then ".".toList
  else joinWith '/' elems

/-- Modelled from the spec: a step of `filepath.Dir`, not part of the sources.
The part of a path up to and including its last separator. -/
def uptoLastSep : Str → Str
  | [] => []
  | c :: cs =>
    match uptoLastSep cs with
    | [] => if c = '/' then [c] else []
    | r => c :: r

/-- Modelled from the spec: Go's `filepath.Dir` is not part of the sources; it is
the parent step of the "upward directory scan" of §6: everything before the last
element of the path, cleaned. -/
def Dir (path : Str) : Str := Clean (uptoLastSep path)

/-- Modelled from the spec: Go's `filepath.Join` of a directory and one
non-empty element, as used to name the version-control marker of §6. -/
def Join (dir elem : Str) : Str :=
  if dir = [] then Clean elem else Clean (dir ++ '/' :: elem)

/-- Modelled from the spec: a step of `filepath.Rel`, not part of the sources.
Drops the longest common run of leading elements of two element lists. -/
def dropCommon : List Str → List Str → List Str × List Str
  | a :: as, b :: bs => if a = b then dropCommon as bs else (a :: as, b :: bs)
  | as, bs => (as, bs)

/-- Modelled from the spec: a step of `filepath.Rel`, not part of the sources.
The elements of a cleaned path (none for `/` and for `.`). -/
def pathElems (cleaned : Str) : List Str :=
  (splitOn '/' cleaned).filter (fun e => e ≠ [] ∧ e ≠ ".".toList)

/-- Modelled from the spec: Go's `filepath.Rel` is not part of the sources; this
is the "generic relative-path resolution" of §4.1.  Both paths are cleaned; the
result climbs with one `..` per element of the base that the target does not
share and then descends along the rest of the target.  It fails when one path is
rooted and the other is not, and when the base would have to be left through a
`..` element of its own. -/
def Rel (basepath targpath : Str) : Except Fault Str :=
  let base := Clean basepath
  let targ := Clean targpath
  if targ = base then .ok ".".toList
  else if (base.head? = some '/') ≠ (targ.head? = some '/') then
    .error (.error ("Rel: can't make ".toList ++ targpath ++ " relative to ".toList ++ basepath))
  else
    let (restBase, restTarg) := dropCommon (pathElems base) (pathElems targ)
    if restBase.head? = some "..".toList then
      .error (.error ("Rel: can't make ".toList ++ targpath ++ " relative to ".toList ++ basepath))
    else
      .ok (joinWith '/' (restBase.map (fun _ => "..".toList) ++ restTarg))

/-! ## `parsePath` -/

/-- The slice expression `s[i:]` of Go: a panic when `i` exceeds the length. -/
def sliceFrom (s : Str) (i : Nat) : Except Fault Str :=
  if i ≤ s.length then .ok (s.drop i)
  else .error (.panic "slice bounds out of range".toList)

/-- The method `directoryBase.parsePath`. -/
def directoryBase.parsePath (b : directoryBase) (gitRootPath kustomizationPath path : Str) :
    Except Fault Str :=
  if b = git then
    if path = gitRootPath then .ok ".".toList
    else sliceFrom path (gitRootPath.length + 1)
  else if b = pwd then Rel kustomizationPath path
  else .error (.error "unknown directory base type".toList)

/-! ## The ignore-file reader and the pattern matcher

`dockerignore.ReadAll` and the `patternmatcher` package are libraries outside
the sources; the definitions of this section follow §3 and §4.2 of the
specification. -/

/-- Modelled from the spec: the white space of `strings.TrimSpace`, not part of the sources.
White space as trimmed by Go's `strings.TrimSpace`. -/
def isSpace (c : Char) : Bool :=
  c = ' ' || c = '\t' || c = '\n' || c = '\r' || c = '\x0b' || c = '\x0c' ||
  c = '\u0085' || c = '\u00a0'

/-- Modelled from the spec: Go's `strings.TrimSpace`, not part of the sources.
Go's `strings.TrimSpace`. -/
def TrimSpace (s : Str) : Str :=
  ((s.dropWhile isSpace).reverse.dropWhile isSpace).reverse

/-- Modelled from the spec: a step of the line scanner of `dockerignore.ReadAll`, not part of the sources.
Removes one trailing carriage return. -/
def dropCR (line : Str) : Str :=
  if line.getLast? = some '\r' then line.dropLast else line

/-- Modelled from the spec: the line scanner of `dockerignore.ReadAll`, not part of the sources.
The lines of a text as a line scanner yields them: split at every newline,
without the end-of-line marker, the text after the last newline being a line
only when it is not empty. -/
def scanLines (text : Str) : List Str :=
  let parts := splitOn '\n' text
  (if parts.getLast? = some [] then parts.dropLast else parts).map dropCR

/-- Modelled from the spec: the handling of one line in `dockerignore.ReadAll`, not part of the sources.
What the ignore-file reader makes of one line: nothing for a comment or a
blank line, otherwise the trimmed pattern, cleaned as a path, without a leading
separator, its negation mark `!` kept in front. -/
def readPattern (line : Str) : Option Str :=
  if line.head? = some '#' then none
  else
    let pattern := TrimSpace line
    if pattern = [] then none
    else
      let invert := pattern.head? = some '!'
      let pattern := if invert then TrimSpace pattern.tail else pattern
      let pattern :=
        if pattern = [] then pattern
        else
          let cleaned := Clean pattern
          if 1 < cleaned.length ∧ cleaned.head? = some '/' then cleaned.tail else cleaned
      some (if invert then '!' :: pattern else pattern)

/-- Modelled from the spec: `dockerignore.ReadAll` is not part of the sources; it
reads the newline-separated text that `makePatternMatcher` builds back into the
ordered pattern list of §3, one pattern per line that is neither blank nor a
comment (a byte-order mark heading the text is dropped). -/
def ReadAll (text : Str) : Except Fault (List Str) :=
  let lines := scanLines text
  let lines :=
    match lines with
    | first :: rest => (if first.head? = some '\ufeff' then first.tail else first) :: rest
    | [] => []
  .ok (lines.filterMap readPattern)

/-- Modelled from the spec: the compiled form of a pattern of `patternmatcher`, not part of the sources.
One element of a compiled glob. -/
inductive GlobTok where
  /-- A literal character. -/
  | lit (c : Char)
  /-- The wildcard `?`: one character other than the separator. -/
  | one
  /-- The wildcard `*`: any run of characters other than the separator. -/
  | star
  /-- A closing `**`: any run of characters. -/
  | deep
  /-- An inner `**` or `**/`: nothing, or any run of characters ending in a separator. -/
  | deepDir
  /-- A character class `[...]`, negated by a leading `^`, holding ranges. -/
  | cls (negated : Bool) (ranges : List (Char × Char))
  deriving DecidableEq, Repr

/-- Modelled from the spec: the character classes of `patternmatcher`, not part of the sources.
The ranges of a character class up to its closing bracket, and the rest of
the pattern; `none` when the class is not closed or a range is malformed. -/
def parseRanges : Nat → Str → Option (List (Char × Char) × Str)
  | 0, _ => none
  | _ + 1, [] => none
  | _ + 1, ']' :: rest => some ([], rest)
  | fuel + 1, s =>
    let lo? : Option (Char × Str) :=
      match s with
      | '\\' :: c :: rest => some (c, rest)
      | '\\' :: [] => none
      | '-' :: _ => none
      | c :: rest => some (c, rest)
      | [] => none
    match lo? with
    | none => none
    | some (lo, rest) =>
      match rest with
      | '-' :: ']' :: _ => none
      | '-' :: '\\' :: hi :: rest2 =>
        (parseRanges fuel rest2).map (fun r => ((lo, hi) :: r.1, r.2))
      | '-' :: hi :: rest2 =>
        (parseRanges fuel rest2).map (fun r => ((lo, hi) :: r.1, r.2))
      | '-' :: [] => none
      | rest1 => (parseRanges fuel rest1).map (fun r => ((lo, lo) :: r.1, r.2))

/-- Modelled from the spec: the pattern compiler of `patternmatcher`, not part of the sources.
Compiles a cleaned pattern into its elements; a malformed pattern (an open or
empty character class, a dangling escape) is an error. -/
def compileGlob : Nat → Str → Except Fault (List GlobTok)
  | 0, _ => .error (.error "syntax error in pattern".toList)
  | _ + 1, [] => .ok []
  | fuel + 1, '*' :: '*' :: rest =>
    let rest := if rest.head? = some '/' then rest.tail else rest
    if rest = [] then .ok [.deep]
    else (compileGlob fuel rest).map (fun ts => .deepDir :: ts)
  | fuel + 1, '*' :: rest => (compileGlob fuel rest).map (fun ts => .star :: ts)
  | fuel + 1, '?' :: rest => (compileGlob fuel rest).map (fun ts => .one :: ts)
  | _ + 1, '\\' :: [] => .error (.error "syntax error in pattern".toList)
  | fuel + 1, '\\' :: c :: rest => (compileGlob fuel rest).map (fun ts => .lit c :: ts)
  | fuel + 1, '[' :: rest =>
    let negated := rest.head? = some '^'
    let body := if negated then rest.tail else rest
    match parseRanges (body.length + 1) body with
    | none => .error (.error "syntax error in pattern".toList)
    | some ([], _) => .error (.error "syntax error in pattern".toList)
    | some (ranges, rest2) => (compileGlob fuel rest2).map (fun ts => .cls negated ranges :: ts)
  | fuel + 1, c :: rest => (compileGlob fuel rest).map (fun ts => .lit c :: ts)

/-- Modelled from the spec: the wildcard `*` of `patternmatcher`, not part of the sources.
The `*` wildcard followed by the rest of the pattern `k`. -/
def starLoop (k : Str → Bool) : Str → Bool
  | [] => k []
  | c :: cs => k (c :: cs) || (c != '/' && starLoop k cs)

/-- Modelled from the spec: the wildcard `**` of `patternmatcher`, not part of the sources.
A closing `**` followed by the rest of the pattern `k`. -/
def deepLoop (k : Str → Bool) : Str → Bool
  | [] => k []
  | c :: cs => k (c :: cs) || deepLoop k cs

/-- Modelled from the spec: the wildcard `**/` of `patternmatcher`, not part of the sources.
The rest of the pattern `k` tried after every separator of the path. -/
def afterSep (k : Str → Bool) : Str → Bool
  | [] => false
  | c :: cs => (c == '/' && k cs) || afterSep k cs

/-- Modelled from the spec: the matching of one pattern element in `patternmatcher`, not part of the sources.
One pattern element followed by the rest of the pattern `k`. -/
def matchTok (t : GlobTok) (k : Str → Bool) (s : Str) : Bool :=
  match t with
  | .lit c =>
    match s with
    | x :: xs => x == c && k xs
    | [] => false
  | .one =>
    match s with
    | x :: xs => x != '/' && k xs
    | [] => false
  | .star => starLoop k s
  | .deep => deepLoop k s
  | .deepDir => k s || afterSep k s
  | .cls negated ranges =>
    match s with
    | x :: xs => (ranges.any (fun r => r.1 ≤ x ∧ x ≤ r.2) != negated) && k xs
    | [] => false

/-- Modelled from the spec: the matching of a compiled pattern in `patternmatcher`, not part of the sources.
Whether the whole path is matched by the compiled pattern. -/
def globMatch : List GlobTok → Str → Bool
  | [] => fun s => s.isEmpty
  | t :: ts => matchTok t (globMatch ts)

/-- Modelled from the spec: the type `patternmatcher.Pattern`, not part of the sources.
One pattern of a matcher: its cleaned text, its directory elements and
whether it is a negation. -/
structure Pattern where
  cleanedPattern : Str
  dirs : List Str
  exclusion : Bool
  deriving DecidableEq, Repr

/-- Modelled from the spec: the method `Pattern.match` of `patternmatcher`, not part of the sources.
Whether the pattern matches the path; a malformed pattern is an error. -/
def Pattern.match (p : Pattern) (path : Str) : Except Fault Bool :=
  (compileGlob (p.cleanedPattern.length + 1) p.cleanedPattern).map (fun ts => globMatch ts path)

/-- Modelled from the spec: the type `patternmatcher.PatternMatcher`, not part of the sources.
The compiled matcher of one base: an ordered rule set. -/
structure PatternMatcher where
  patterns : List Pattern
  deriving DecidableEq, Repr

/-- Modelled from the spec: the loop of `patternmatcher.New`, not part of the sources.
Compiles the patterns one after the other onto `acc`, failing on the first
malformed one. -/
def compilePatterns (acc : List Pattern) : List Str → Except Fault PatternMatcher
  | [] => .ok ⟨acc⟩
  | p :: rest =>
    let p := TrimSpace p
    if p = [] then compilePatterns acc rest
    else
      let p := Clean p
      let exclusion := p.head? = some '!'
      if exclusion ∧ p.length = 1 then .error (.error "illegal exclusion pattern: \"!\"".toList)
      else
        let p := if exclusion then p.tail else p
        match compileGlob (p.length + 1) p with
        | .error e => .error e
        | .ok _ => compilePatterns (acc ++ [⟨p, splitOn '/' p, exclusion⟩]) rest

/-- Modelled from the spec: `patternmatcher.New` is not part of the sources; per
§3 and §4.2 it validates and compiles the ordered pattern list, a malformed
pattern failing the construction. -/
def New (patterns : List Str) : Except Fault PatternMatcher :=
  compilePatterns [] patterns

/-- Modelled from the spec: the loop of `PatternMatcher.Matches`, not part of the sources.
The tentative verdict `matched` carried through the remaining patterns. -/
def matchesFrom (file : Str) (matched : Bool) : List Pattern → Except Fault Bool
  | [] => .ok matched
  | p :: rest =>
    match p.match file with
    | .error e => .error e
    | .ok m => matchesFrom file (if m then !p.exclusion else matched) rest

/-- Modelled from the spec: `PatternMatcher.Matches` is not part of the sources;
per §4.2 every pattern is evaluated in order against the path, each pattern that
matches sets the tentative verdict to true (plain pattern) or false (negated
pattern), and the verdict left at the end is returned, false at the start. -/
def PatternMatcher.Matches (pm : PatternMatcher) (file : Str) : Except Fault Bool :=
  matchesFrom file false pm.patterns

/-! ## The specification document -/

/-- The `Directory` struct. -/
structure Directory where
  Base : Str
  Globs : List Str
  deriving DecidableEq, Repr

/-- The `Spec` struct. -/
structure Spec where
  Directories : List Directory
  deriving DecidableEq, Repr

/-- The `KustomizeBuild` struct; of the embedded type and object metadata only
the kind, the API version and the name are kept, none of which is read. -/
structure KustomizeBuild where
  Kind : Str
  APIVersion : Str
  Name : Str
  Spec : Spec
  deriving DecidableEq, Repr

/-! ## The surroundings of a run -/

/-- The resource map a build returns, seen through its only use: what
`AsYaml` returns for it. -/
structure ResMap where
  AsYaml : Except Fault Str
  deriving DecidableEq, Repr

/-- One call of the walk function: the path, whether it is a directory, and the
error the walk hands over with it. -/
structure WalkEntry where
  path : Str
  isDir : Bool
  err : Option Fault
  deriving DecidableEq, Repr

/-- The map `map[directoryBase]*patternmatcher.PatternMatcher`, by its entries. -/
abbrev MatcherMap := List (directoryBase × PatternMatcher)

/-- Everything outside the program that a run consults. -/
structure World where
  /-- The YAML decoder `yaml.Unmarshal` on the input document. -/
  Unmarshal : Str → Except Fault KustomizeBuild
  /-- The environment, `os.LookupEnv`. -/
  LookupEnv : Str → Option Str
  /-- The file system's `IsDir`. -/
  IsDir : Str → Bool
  /-- The calls that `fileSystem.Walk` makes from a root, in order, for as long as
  the walk function returns nil (it never asks to skip a directory). -/
  Walk : Str → List WalkEntry
  /-- The build, `kustomizer.Run`, on a directory. -/
  Run : Str → Except Fault ResMap
  /-- The order in which the `range` over the matcher map at the n-th call of the
  walk function enumerates the entries. -/
  rangeOrder : Nat → MatcherMap → MatcherMap

/-- A `range` enumerates every entry of the map exactly once. -/
def World.rangeFair (W : World) : Prop :=
  ∀ n m, (W.rangeOrder n m).Perm m

/-- What a run does to the outside, in order. -/
inductive Event where
  | lookupEnv (name : Str)
  | isDir (path : Str)
  | walk (root : Str)
  | translate (base : directoryBase) (path : Str)
  | test (base : directoryBase) (matchPath : Str)
  | run (path : Str)
  deriving DecidableEq, Repr

/-- An `io.Writer` over states `σ`: a write yields the next state and the error
it returns, if any. -/
structure Writer (σ : Type) where
  Write : σ → Str → σ × Option Fault

/-- The in-memory buffer `bytes.Buffer`: every write is appended and succeeds. -/
def bufferWriter : Writer Str := ⟨fun buf b => (buf ++ b, none)⟩

/-! ## The program -/

/-- The loop of `makePatternMatcher`: the text accumulated in its string builder,
every glob of the entries of the base followed by a newline. -/
def patternText (dirBase : directoryBase) : List Directory → Except Fault Str
  | [] => .ok []
  | dir :: rest =>
    match dirBase.string with
    | .error e => .error e
    | .ok base =>
      match patternText dirBase rest with
      | .error e => .error e
      | .ok text =>
        .ok ((if dir.Base = base then dir.Globs.flatMap (fun glob => glob ++ "\n".toList)
          else []) ++ text)

/-- The function `makePatternMatcher`. -/
def makePatternMatcher (dirBase : directoryBase) (kustomizeBuild : KustomizeBuild) :
    Except Fault PatternMatcher :=
  match patternText dirBase kustomizeBuild.Spec.Directories with
  | .error e => .error e
  | .ok text =>
    match ReadAll text with
    | .error e => .error e
    | .ok patterns => New patterns

/-- The function `makePatternMatchers`. -/
def makePatternMatchers (kustomizeBuild : KustomizeBuild) : Except Fault MatcherMap :=
  match makePatternMatcher git kustomizeBuild with
  | .error e => .error e
  | .ok gitPatternMatcher =>
    match makePatternMatcher pwd kustomizeBuild with
    | .error e => .error e
    | .ok pwdPatternMatcher => .ok [(git, gitPatternMatcher), (pwd, pwdPatternMatcher)]

/-- The upward scan of `getGitRootPath`, at most `fuel` turns of its loop. -/
def gitRootLoop (W : World) (kustomizationPath : Str) :
    Nat → Str → List Event → List Event × Except Fault Str
  | 0, _, trace => (trace, .error .hang)
  | fuel + 1, path, trace =>
    if path = "/".toList then
      (trace, .error (.error ("unable to find git root in '".toList ++ kustomizationPath ++
        "' parents".toList)))
    else
      let path := Dir path
      let probe := Join path ".git".toList
      if W.IsDir probe then (trace ++ [.isDir probe], .ok path)
      else gitRootLoop W kustomizationPath fuel path (trace ++ [.isDir probe])

/-- The function `getGitRootPath`.  Each turn of the loop on a rooted path
shortens it, and a relative path reaches `.` within its length, where the loop
stays for ever: the turns allowed here are enough to tell. -/
def getGitRootPath (W : World) (kustomizationPath : Str) : List Event × Except Fault Str :=
  gitRootLoop W kustomizationPath (kustomizationPath.length + 2) kustomizationPath []

/-- The state of the walk: the manifests gathered and what was done so far. -/
structure WalkState where
  manifests : List Str
  trace : List Event
  deriving DecidableEq, Repr

/-- The `range` loop of the walk function over the matcher entries, in the order
given. -/
def rangeMatchers (W : World) (gitRootPath kustomizationPath path : Str) :
    MatcherMap → WalkState → WalkState × Option Fault
  | [], st => (st, none)
  | (dirBase, patternMatcher) :: rest, st =>
    let st := { st with trace := st.trace ++ [.translate dirBase path] }
    match dirBase.parsePath gitRootPath kustomizationPath path with
    | .error e => (st, some e)
    | .ok matchPath =>
      let st := { st with trace := st.trace ++ [.test dirBase matchPath] }
      match patternMatcher.Matches matchPath with
      | .error e => (st, some e)
      | .ok false => rangeMatchers W gitRootPath kustomizationPath path rest st
      | .ok true =>
        let st := { st with trace := st.trace ++ [.run path] }
        match W.Run path with
        | .error e => (st, some e)
        | .ok resMap =>
          match resMap.AsYaml with
          | .error e => (st, some e)
          | .ok b =>
            rangeMatchers W gitRootPath kustomizationPath path rest
              { st with manifests := st.manifests ++ [b] }

/-- The walk function, the closure passed to `fileSystem.Walk`, at its n-th call. -/
def walkFn (W : World) (patternMatchers : MatcherMap) (gitRootPath kustomizationPath : Str)
    (n : Nat) (entry : WalkEntry) (st : WalkState) : WalkState × Option Fault :=
  match entry.err with
  | some e => (st, some e)
  | none =>
    if !entry.isDir then (st, none)
    else
      rangeMatchers W gitRootPath kustomizationPath entry.path
        (W.rangeOrder n patternMatchers) st

/-- The walk: the walk function on every entry in turn, stopped by the first
error it returns. -/
def walkLoop (W : World) (patternMatchers : MatcherMap) (gitRootPath kustomizationPath : Str) :
    Nat → List WalkEntry → WalkState → WalkState × Option Fault
  | _, [], st => (st, none)
  | n, entry :: rest, st =>
    match walkFn W patternMatchers gitRootPath kustomizationPath n entry st with
    | (st, some e) => (st, some e)
    | (st, none) => walkLoop W patternMatchers gitRootPath kustomizationPath (n + 1) rest st

/-- The function `runKustomizations`, with the record of what it did. -/
def runKustomizations (W : World) (patternMatchers : MatcherMap) :
    List Event × Except Fault (List Str) :=
  match W.LookupEnv kustomizePluginConfigRootEnv with
  | none =>
    ([.lookupEnv kustomizePluginConfigRootEnv],
      .error (.error (kustomizePluginConfigRootEnv ++ " is empty".toList)))
  | some kustomizationPath =>
    match getGitRootPath W kustomizationPath with
    | (trace, .error e) => (.lookupEnv kustomizePluginConfigRootEnv :: trace, .error e)
    | (trace, .ok gitRootPath) =>
      match walkLoop W patternMatchers gitRootPath kustomizationPath 0 (W.Walk gitRootPath)
          ⟨[], .lookupEnv kustomizePluginConfigRootEnv :: trace ++ [.walk gitRootPath]⟩ with
      | (st, some e) => (st.trace, .error e)
      | (st, none) => (st.trace, .ok st.manifests)

/-- The function `makeManifests`. -/
def makeManifests (W : World) (kustomizeBuild : KustomizeBuild) :
    List Event × Except Fault (List Str) :=
  match makePatternMatchers kustomizeBuild with
  | .error e => ([], .error e)
  | .ok patternMatchers => runKustomizations W patternMatchers

/-- The output loop of `GenerateManifests`. -/
def writeManifests {σ : Type} (wr : Writer σ) : List Str → σ → σ × Option Fault
  | [], out => (out, none)
  | manifest :: rest, out =>
    match wr.Write out yamlSeparator with
    | (out, some e) => (out, some e)
    | (out, none) =>
      match wr.Write out manifest with
      | (out, some e) => (out, some e)
      | (out, none) => writeManifests wr rest out

/-- The function `GenerateManifests`: the record of what it did, the writer
afterwards and the error returned (`none` for nil). -/
def GenerateManifests {σ : Type} (W : World) (wr : Writer σ) (data : Str) (out : σ) :
    List Event × σ × Option Fault :=
  match W.Unmarshal data with
  | .error e => ([], out, some e)
  | .ok kustomizeBuild =>
    match makeManifests W kustomizeBuild with
    | (trace, .error e) => (trace, out, some e)
    | (trace, .ok manifests) =>
      let (out, err) := writeManifests wr manifests out
      (trace, out, err)

/-! ## Reading a run -/

/-- The directories handed to the build, in order, as recorded. -/
def dispatched (trace : List Event) : List Str :=
  trace.filterMap (fun ev => match ev with
    | .run path => some path
    | _ => none)

/-- The verdict of one base on a directory: its path translated for the base and
tested against the base's matcher. -/
def baseVerdict (gitRootPath kustomizationPath path : Str)
    (bm : directoryBase × PatternMatcher) : Except Fault Bool :=
  match bm.1.parsePath gitRootPath kustomizationPath path with
  | .error e => .error e
  | .ok matchPath => bm.2.Matches matchPath

/-- Whether a base selects a directory. -/
def selects (gitRootPath kustomizationPath path : Str)
    (bm : directoryBase × PatternMatcher) : Bool :=
  baseVerdict gitRootPath kustomizationPath path bm = .ok true

/-- The build of a directory and its serialisation. -/
def buildYaml (W : World) (path : Str) : Except Fault Str :=
  match W.Run path with
  | .error e => .error e
  | .ok resMap => resMap.AsYaml

/-- The documents one dispatch of a directory adds: one when the build and its
serialisation succeed. -/
def built (W : World) (path : Str) : List Str :=
  match buildYaml W path with
  | .ok b => [b]
  | .error _ => []

/-- The failure, if any, of handling a directory for one base: of the path
translation, of the matching, or (for a selected directory) of the build or of
its serialisation. -/
def baseFault (W : World) (gitRootPath kustomizationPath path : Str)
    (bm : directoryBase × PatternMatcher) : Option Fault :=
  match baseVerdict gitRootPath kustomizationPath path bm with
  | .error e => some e
  | .ok false => none
  | .ok true =>
    match buildYaml W path with
    | .error e => some e
    | .ok _ => none

/-- What handling a directory for one base does to the outside. -/
def baseEvents (gitRootPath kustomizationPath path : Str)
    (bm : directoryBase × PatternMatcher) : List Event :=
  .translate bm.1 path ::
    match bm.1.parsePath gitRootPath kustomizationPath path with
    | .error _ => []
    | .ok matchPath =>
      .test bm.1 matchPath ::
        match bm.2.Matches matchPath with
        | .ok true => [.run path]
        | _ => []

/-- A walk entry that brings no error and, when a directory, fails for no base. -/
def entryClean (W : World) (patternMatchers : MatcherMap) (gitRootPath kustomizationPath : Str)
    (entry : WalkEntry) : Bool :=
  entry.err.isNone &&
    (!entry.isDir ||
      patternMatchers.all (fun bm =>
        (baseFault W gitRootPath kustomizationPath entry.path bm).isNone))

/-- Whether the walk function handles the entry: a directory that the walk
reports without error. -/
def handled (entry : WalkEntry) : Bool :=
  entry.err.isNone && entry.isDir

/-- How often a walk entry is handed to the build: once per selecting base for a
handled directory, never for anything else. -/
def hits (patternMatchers : MatcherMap) (gitRootPath kustomizationPath : Str)
    (entry : WalkEntry) : Nat :=
  if handled entry then
    patternMatchers.countP (selects gitRootPath kustomizationPath entry.path)
  else 0

/-- The documents a walk entry contributes: those of its build, once per hit. -/
def entryDocs (W : World) (patternMatchers : MatcherMap) (gitRootPath kustomizationPath : Str)
    (entry : WalkEntry) : List Str :=
  (List.replicate (hits patternMatchers gitRootPath kustomizationPath entry)
    (built W entry.path)).flatten

/-- What a walk without failure does to the outside from its n-th call on: for
every handled directory, the work of every base in the order of the `range`. -/
def walkTrace (W : World) (patternMatchers : MatcherMap) (gitRootPath kustomizationPath : Str) :
    Nat → List WalkEntry → List Event
  | _, [] => []
  | n, entry :: rest =>
    (if handled entry then
      (W.rangeOrder n patternMatchers).flatMap (baseEvents gitRootPath kustomizationPath entry.path)
    else []) ++ walkTrace W patternMatchers gitRootPath kustomizationPath (n + 1) rest

/-! ## The tree of the test suite

The repository root `/R` holds the version-control marker and the buildable
directories `a/api`, `a/app` and `b/api`; the working directory is `/R/k8s`. -/

/-- The walk of the tree from `/R`, in lexical order. -/
def treeWalk : List WalkEntry :=
  [⟨"/R".toList, true, none⟩,
   ⟨"/R/.git".toList, true, none⟩,
   ⟨"/R/a".toList, true, none⟩,
   ⟨"/R/a/api".toList, true, none⟩,
   ⟨"/R/a/api/kustomization.yaml".toList, false, none⟩,
   ⟨"/R/a/app".toList, true, none⟩,
   ⟨"/R/a/app/kustomization.yaml".toList, false, none⟩,
   ⟨"/R/b".toList, true, none⟩,
   ⟨"/R/b/api".toList, true, none⟩,
   ⟨"/R/b/api/kustomization.yaml".toList, false, none⟩]

/-- The build on the tree: a config map named after the directory for the three
buildable directories, an error elsewhere. -/
def treeRun (path : Str) : Except Fault ResMap :=
  if path = "/R/a/api".toList then .ok ⟨.ok "kind: ConfigMap\nmetadata:\n  name: a-api\n".toList⟩
  else if path = "/R/a/app".toList then
    .ok ⟨.ok "kind: ConfigMap\nmetadata:\n  name: a-app\n".toList⟩
  else if path = "/R/b/api".toList then
    .ok ⟨.ok "kind: ConfigMap\nmetadata:\n  name: b-api\n".toList⟩
  else .error (.error "unable to find a kustomization file".toList)

/-- The tree seen by a run that decodes its input to `kustomizeBuild` and ranges
over the matcher map in the given order. -/
def treeWorld (kustomizeBuild : KustomizeBuild) (order : Nat → MatcherMap → MatcherMap) :
    World where
  Unmarshal := fun _ => .ok kustomizeBuild
  LookupEnv := fun name =>
    if name = kustomizePluginConfigRootEnv then some "/R/k8s".toList else none
  IsDir := fun path => treeWalk.any (fun entry => entry.isDir && entry.path = path)
  Walk := fun root =>
    if root = "/R".toList then treeWalk
    else [⟨root, false, some (.error "no such file or directory".toList)⟩]
  Run := treeRun
  rangeOrder := order

/-- The `makeKustomizeBuild` helper of the test suite. -/
def makeKustomizeBuild (directories : List Directory) : KustomizeBuild :=
  ⟨"KustomizeBuild".toList, "incognia.com/v1alpha1".toList, "_".toList, ⟨directories⟩⟩

/-- The test entry "with git base". -/
def gitBaseBuild : KustomizeBuild :=
  makeKustomizeBuild [⟨"git".toList, ["a/**".toList, "!a/app".toList, "b/api".toList]⟩]

/-- The test entry "with pwd base". -/
def pwdBaseBuild : KustomizeBuild :=
  makeKustomizeBuild
    [⟨"pwd".toList, ["../a/**".toList, "!../a/app".toList, "../b/api".toList]⟩]

/-- The test entry "with multiple base directories". -/
def multiBaseBuild : KustomizeBuild :=
  makeKustomizeBuild [⟨"git".toList, ["a/api".toList]⟩, ⟨"pwd".toList, ["../b/api".toList]⟩]

/-- A specification whose two bases both name the directory `a/api`. -/
def overlapBuild : KustomizeBuild :=
  makeKustomizeBuild [⟨"git".toList, ["a/api".toList]⟩, ⟨"pwd".toList, ["../a/api".toList]⟩]

/-- The enumeration of the map in the order of its entries. -/
def inOrder : Nat → MatcherMap → MatcherMap := fun _ m => m

/-- The enumeration of the map against the order of its entries. -/
def reversed : Nat → MatcherMap → MatcherMap := fun _ m => m.reverse

/-- The matcher map built for a specification document, empty when the
construction fails. -/
def matchersOf (kustomizeBuild : KustomizeBuild) : MatcherMap :=
  match makePatternMatchers kustomizeBuild with
  | .ok patternMatchers => patternMatchers
  | .error _ => []

/-- The last pattern of the list that matches the path, if any. -/
def lastMatching (file : Str) : List Pattern → Option Pattern
  | [] => none
  | p :: rest =>
    match lastMatching file rest with
    | some q => some q
    | none => if p.match file = .ok true then some p else none

/-- The verdict that a deciding pattern gives: true for a plain inclusion, false
for a negation, and false when no pattern decides. -/
def verdictOf : Option Pattern → Bool
  | some p => !p.exclusion
  | none => false

/-- A glob that the ignore-file reader takes as one line and leaves as it is: no
line break inside, no carriage return at its end, no byte-order mark at its
head, and unchanged by the reader's handling of a line (so neither blank nor a
comment, trimmed and cleaned). -/
def plainGlob (glob : Str) : Prop :=
  '\n' ∉ glob ∧ dropCR glob = glob ∧ glob.head? ≠ some '\ufeff' ∧ readPattern glob = some glob

instance (glob : Str) : Decidable (plainGlob glob) := by
  unfold plainGlob
  exact inferInstance

/-- The globs of the entries of a base, in specification order. -/
def globsOf (base : Str) (directories : List Directory) : List Str :=
  (directories.filter (fun dir => dir.Base = base)).flatMap (fun dir => dir.Globs)

/-! ## A repository at the root of the file system

The version-control marker is `/.git`, the working directory `/k8s`, and
`/a/api` is buildable. -/

/-- The walk from `/`, in lexical order. -/
def rootWalk : List WalkEntry :=
  [⟨"/".toList, true, none⟩,
   ⟨"/.git".toList, true, none⟩,
   ⟨"/a".toList, true, none⟩,
   ⟨"/a/api".toList, true, none⟩,
   ⟨"/a/api/kustomization.yaml".toList, false, none⟩,
   ⟨"/k8s".toList, true, none⟩]

/-- The repository at the root of the file system, seen by a run that decodes
its input to `kustomizeBuild`. -/
def rootWorld (kustomizeBuild : KustomizeBuild) : World where
  Unmarshal := fun _ => .ok kustomizeBuild
  LookupEnv := fun name =>
    if name = kustomizePluginConfigRootEnv then some "/k8s".toList else none
  IsDir := fun path => rootWalk.any (fun entry => entry.isDir && entry.path = path)
  Walk := fun root =>
    if root = "/".toList then rootWalk
    else [⟨root, false, some (.error "no such file or directory".toList)⟩]
  Run := fun path =>
    if path = "/a/api".toList then .ok ⟨.ok "kind: ConfigMap\nmetadata:\n  name: a-api\n".toList⟩
    else .error (.error "unable to find a kustomization file".toList)
  rangeOrder := inOrder

/-- A specification with the one git-base glob `a/api`. -/
def gitApiBuild : KustomizeBuild :=
  makeKustomizeBuild [⟨"git".toList, ["a/api".toList]⟩]

/-- The ordered pattern list from which the matcher of a base is compiled: the
text of `makePatternMatcher` as the ignore-file reader returns it. -/
def patternList (dirBase : directoryBase) (kustomizeBuild : KustomizeBuild) :
    Except Fault (List Str) :=
  match patternText dirBase kustomizeBuild.Spec.Directories with
  | .error e => .error e
  | .ok text => ReadAll text

/-- A specification whose one git-base glob holds a line break. -/
def lineBreakBuild : KustomizeBuild :=
  makeKustomizeBuild [⟨"git".toList, ["a\nb".toList]⟩]

/-- A specification that selects `a/api` and then the directory `b`, which
holds no kustomization. -/
def failingBuild : KustomizeBuild :=
  makeKustomizeBuild [⟨"git".toList, ["a/api".toList, "b".toList]⟩]

/-- A writer that records every write and refuses none, used to see that
nothing was written. -/
def recordingWriter : Writer (List Str) := ⟨fun log b => (log ++ [b], none)⟩

/-- The matcher of the two patterns `a/**` and `!a/app`. -/
def appMatcher : PatternMatcher :=
  ⟨[⟨"a/**".toList, ["a".toList, "**".toList], false⟩,
    ⟨"a/app".toList, ["a".toList, "app".toList], true⟩]⟩

/-! ## Absolute directories and their ancestors -/

/-- The absolute path with the given elements, `/` for none. -/
def absPath (elems : List Str) : Str := '/' :: joinWith '/' elems

/-- A proper path element: not empty, without separator, neither `.` nor `..`. -/
def goodElem (elem : Str) : Prop :=
  elem ≠ [] ∧ '/' ∉ elem ∧ elem ≠ ".".toList ∧ elem ≠ "..".toList

instance (elem : Str) : Decidable (goodElem elem) := by
  unfold goodElem
  exact inferInstance

/-- The proper ancestors of the absolute directory with the given elements, from
its parent up to `/`: the directories of its first `i` elements for `i` below
the number of elements, the longest first. -/
def ancestorsUp (elems : List Str) : List Str :=
  ((List.range elems.length).map (fun i => absPath (elems.take i))).reverse

/-- The nearest proper ancestor of the absolute directory with the given
elements that holds a version-control marker `.git` which is a directory. -/
def nearestGitRoot (W : World) (elems : List Str) : Option Str :=
  (ancestorsUp elems).find? (fun path => W.IsDir (Join path ".git".toList))

/-- A specification without directory entries. -/
def emptyBuild : KustomizeBuild := makeKustomizeBuild []

/-- A specification whose one entry has a base that is neither `git` nor `pwd`
and a glob with an open character class. -/
def strayBaseBuild : KustomizeBuild :=
  makeKustomizeBuild [⟨"repo".toList, ["[".toList]⟩]

/-- A specification whose git-base entry holds a glob with an open character
class after a well-formed one. -/
def badGlobBuild : KustomizeBuild :=
  makeKustomizeBuild [⟨"git".toList, ["a/api".toList, "[".toList]⟩]

/-- What `patternmatcher.New` makes of one pattern: nothing for a blank one, the
compiled pattern, or the error of a malformed one. -/
def compilePattern (p : Str) : Except Fault (Option Pattern) :=
  let p := TrimSpace p
  if p = [] then .ok none
  else
    let p := Clean p
    let exclusion := p.head? = some '!'
    if exclusion ∧ p.length = 1 then .error (.error "illegal exclusion pattern: \"!\"".toList)
    else
      let p := if exclusion then p.tail else p
      match compileGlob (p.length + 1) p with
      | .error e => .error e
      | .ok _ => .ok (some ⟨p, splitOn '/' p, exclusion⟩)

/-- The test tree seen by a run whose environment lacks the working-directory
setting. -/
def noEnvWorld : World :=
  { treeWorld gitBaseBuild inOrder with LookupEnv := fun _ => none }

/-- A specification whose one git-base glob matches the files of `a/api`. -/
def fileGlobBuild : KustomizeBuild :=
  makeKustomizeBuild [⟨"git".toList, ["a/api/**".toList]⟩]

/-- The specification without the entries whose base string is neither `git`
nor `pwd`. -/
def knownBases (kustomizeBuild : KustomizeBuild) : KustomizeBuild :=
  { kustomizeBuild with
    Spec := ⟨kustomizeBuild.Spec.Directories.filter
      (fun dir => dir.Base = "git".toList ∨ dir.Base = "pwd".toList)⟩ }

/-- A specification whose entries have the base strings `Git`, the empty string
and `repo`, with globs that would select directories of the test tree. -/
def strayBasesBuild : KustomizeBuild :=
  makeKustomizeBuild [⟨"Git".toList, ["a/**".toList]⟩, ⟨[], ["a/api".toList]⟩,
    ⟨"repo".toList, ["b/api".toList]⟩]

/-- The test tree entered with the relative working directory `k8s`. -/
def relativeWorld : World :=
  { treeWorld gitBaseBuild inOrder with
    LookupEnv := fun name =>
      if name = kustomizePluginConfigRootEnv then some "k8s".toList else none }

/-- The test tree with one version-control marker only, inside the working
directory: `/R/k8s/.git`. -/
def markerInsideWorld : World :=
  { treeWorld gitBaseBuild inOrder with
    IsDir := fun path => path = "/R/k8s/.git".toList }

end kustomizebuild

/-! # Kubernetes types shared by the other generators

The types of the Kubernetes libraries are not part of the sources; of each type
the fields that the generators read, write or carry along are kept. -/

namespace k8s

open kustomizebuild (Str Fault)

/-- The type `metav1.TypeMeta`. -/
structure TypeMeta where
  Kind : Str
  APIVersion : Str
  deriving DecidableEq, Repr

/-- The type `metav1.ObjectMeta`: the name, the namespace, the labels and the
annotations. -/
structure ObjectMeta where
  Name : Str
  Namespace : Str
  Labels : List (Str × Str)
  Annotations : List (Str × Str)
  deriving DecidableEq, Repr

/-- The type `metav1.GroupKind`. -/
structure GroupKind where
  Group : Str
  Kind : Str
  deriving DecidableEq, Repr

/-- The type `rbacv1.Subject`. -/
structure Subject where
  Kind : Str
  APIGroup : Str
  Name : Str
  Namespace : Str
  deriving DecidableEq, Repr

/-- The type `rbacv1.RoleRef`. -/
structure RoleRef where
  APIGroup : Str
  Kind : Str
  Name : Str
  deriving DecidableEq, Repr

/-- The type `rbacv1.RoleBinding`; a nil slice of subjects is `none`. -/
structure RoleBinding where
  TypeMeta : TypeMeta
  ObjectMeta : ObjectMeta
  Subjects : Option (List Subject)
  RoleRef : RoleRef
  deriving DecidableEq, Repr

/-- The type `rbacv1.ClusterRoleBinding`; a nil slice of subjects is `none`. -/
structure ClusterRoleBinding where
  TypeMeta : TypeMeta
  ObjectMeta : ObjectMeta
  Subjects : Option (List Subject)
  RoleRef : RoleRef
  deriving DecidableEq, Repr

/-- The constant `rbacv1.GroupName`. -/
def rbacGroupName : Str := "rbac.authorization.k8s.io".toList

/-- The constant `rbacv1.GroupKind`. -/
def rbacGroupKind : Str := "Group".toList

/-- The value of `rbacv1.SchemeGroupVersion.String()`. -/
def rbacGroupVersion : Str := "rbac.authorization.k8s.io/v1".toList

/-- The value of `corev1.SchemeGroupVersion.String()`. -/
def coreGroupVersion : Str := "v1".toList

/-- The empty object metadata. -/
def ObjectMeta.empty : ObjectMeta := ⟨[], [], [], []⟩

end k8s

/-! # The `argocdproject` generator -/

namespace argocdproject

open kustomizebuild (Str Fault)
open k8s (TypeMeta ObjectMeta GroupKind)

/-- The `separatorYaml` constant. -/
def separatorYaml : Str := "---\n".toList

/-- The `stagingEnvironment` constant. -/
def stagingEnvironment : Str := "staging".toList

/-- The `yamlStatusField` constant. -/
def yamlStatusField : Str := "status".toList

/-- The `accessLevel` type: a Go `int`. -/
abbrev accessLevel := Int

/-- The `ReadOnly` constant (`iota` = 0). -/
def ReadOnly : accessLevel := 0

/-- The `ReadSync` constant (1). -/
def ReadSync : accessLevel := 1

/-- The method `accessLevel.String`; it panics on an unknown level. -/
def accessLevel.String (a : accessLevel) : Except Fault Str :=
  if a = ReadOnly then .ok "read-only".toList
  else if a = ReadSync then .ok "read-sync".toList
  else .error (.panic "unknown access level".toList)

/-- One policy line of the form `p, proj:<project>:<level>, <object>, <action>,
<project>/*, allow`. -/
def policyLine (appProjectName level object action : Str) : Str :=
  "p, proj:".toList ++ appProjectName ++ ":".toList ++ level ++ ", ".toList ++ object ++
    ", ".toList ++ action ++ ", ".toList ++ appProjectName ++ "/*, allow".toList

/-- The method `accessLevel.Policies`; it panics on an unknown level. -/
def accessLevel.Policies (a : accessLevel) (appProjectName environment : Str) :
    Except Fault (List Str) :=
  if a = ReadOnly then
    .ok [policyLine appProjectName "read-only".toList "*".toList "get".toList]
  else if a = ReadSync then
    let defaultPolicies :=
      [policyLine appProjectName "read-sync".toList "applications".toList
          "action/apps/Deployment/restart".toList,
        policyLine appProjectName "read-sync".toList "applications".toList
          "action/argoproj.io/Rollout/abort".toList,
        policyLine appProjectName "read-sync".toList "applications".toList
          "action/argoproj.io/Rollout/promote-full".toList,
        policyLine appProjectName "read-sync".toList "applications".toList
          "action/argoproj.io/Rollout/restart".toList,
        policyLine appProjectName "read-sync".toList "applications".toList
          "action/argoproj.io/Rollout/resume".toList,
        policyLine appProjectName "read-sync".toList "applications".toList
          "action/argoproj.io/Rollout/retry".toList,
        policyLine appProjectName "read-sync".toList "applications".toList "sync".toList,
        "g, proj:".toList ++ appProjectName ++ ":".toList ++ "read-sync".toList ++
          ", proj:".toList ++ appProjectName ++ ":".toList ++ "read-only".toList]
    if environment = stagingEnvironment then
      .ok (defaultPolicies ++
        [policyLine appProjectName "read-sync".toList "applications".toList "override".toList])
    else .ok defaultPolicies
  else .error (.panic "unknown access level".toList)

/-- The type `argov1alpha1.ApplicationDestination`. -/
structure ApplicationDestination where
  Server : Str
  Namespace : Str
  Name : Str
  deriving DecidableEq, Repr

/-- The type `argov1alpha1.ApplicationSource`: the repository, the path and the
target revision. -/
structure ApplicationSource where
  RepoURL : Str
  Path : Str
  TargetRevision : Str
  deriving DecidableEq, Repr

/-- The type `argov1alpha1.ApplicationSpec`; the source is a pointer, nil being
`none`. -/
structure ApplicationSpec where
  Source : Option ApplicationSource
  Destination : ApplicationDestination
  Project : Str
  deriving DecidableEq, Repr

/-- The type `argov1alpha1.Application`; the status is kept as its rendering. -/
structure Application where
  TypeMeta : TypeMeta
  ObjectMeta : ObjectMeta
  Spec : ApplicationSpec
  Status : Str
  deriving DecidableEq, Repr

/-- The type `argov1alpha1.ProjectRole`. -/
structure ProjectRole where
  Name : Str
  Policies : List Str
  Groups : List Str
  deriving DecidableEq, Repr

/-- The type `argov1alpha1.AppProjectSpec`; a nil slice of destinations is
`none`. -/
structure AppProjectSpec where
  SourceRepos : List Str
  Destinations : Option (List ApplicationDestination)
  Roles : List ProjectRole
  ClusterResourceWhitelist : List GroupKind
  NamespaceResourceWhitelist : List GroupKind
  deriving DecidableEq, Repr

/-- The type `argov1alpha1.AppProject`; the status is kept as its rendering. -/
structure AppProject where
  TypeMeta : TypeMeta
  ObjectMeta : ObjectMeta
  Spec : AppProjectSpec
  Status : Str
  deriving DecidableEq, Repr

/-- The `AppProjectAccessControl` struct. -/
structure AppProjectAccessControl where
  ReadOnly : List Str
  ReadSync : List Str
  deriving DecidableEq, Repr

/-- The `ProjectSpec` struct. -/
structure ProjectSpec where
  AccessControl : AppProjectAccessControl
  Environment : Str
  AppProject : AppProject
  ApplicationTemplates : List Application
  deriving DecidableEq, Repr

/-- The `ArgoCDProject` struct. -/
structure ArgoCDProject where
  TypeMeta : TypeMeta
  ObjectMeta : ObjectMeta
  Spec : ProjectSpec
  deriving DecidableEq, Repr

/-- The value of `argov1alpha1.SchemeGroupVersion.String()`. -/
def argoGroupVersion : Str := "argoproj.io/v1alpha1".toList

/-- The constant `application.AppProjectKind`. -/
def AppProjectKind : Str := "AppProject".toList

/-- The constant `application.ApplicationKind`. -/
def ApplicationKind : Str := "Application".toList

/-- A decoded JSON object: its top-level keys with the rendering of their
values, every key once. -/
abbrev JSONMap := List (Str × Str)

/-- What the generator takes from its libraries. -/
structure Env where
  /-- The decoder `yaml.Unmarshal` on the input document. -/
  Unmarshal : Str → Except Fault ArgoCDProject
  /-- The method `ApplicationDestination.String` of the argo-cd library. -/
  destinationString : ApplicationDestination → Str
  /-- The order in which the `range` over the destination map enumerates its
  entries. -/
  rangeOrder : List (Str × ApplicationDestination) → List (Str × ApplicationDestination)
  /-- An app project through `json.Marshal` and `json.Unmarshal` into a map. -/
  jsonAppProject : AppProject → Except Fault JSONMap
  /-- An application through `json.Marshal` and `json.Unmarshal` into a map. -/
  jsonApplication : Application → Except Fault JSONMap
  /-- The encoder `yaml.Marshal` on a map. -/
  yamlMarshal : JSONMap → Except Fault Str

/-- A `range` enumerates every entry of the map exactly once. -/
def Env.rangeFair (E : Env) : Prop := ∀ m, (E.rangeOrder m).Perm m

/-- The assignment `m[key] = value` on a Go map held as its entries. -/
def mapSet {V : Type} : List (Str × V) → Str → V → List (Str × V)
  | [], key, value => [(key, value)]
  | (k, v) :: rest, key, value =>
    if k = key then (k, value) :: rest else (k, v) :: mapSet rest key value

/-- The statement `delete(m, key)` on a Go map held as its entries. -/
def mapDelete {V : Type} (m : List (Str × V)) (key : Str) : List (Str × V) :=
  m.filter (fun entry => entry.1 ≠ key)

/-- The values handed to `marshalYAMLWithoutStatusField`. -/
inductive Manifest where
  | appProject (v : AppProject)
  | application (v : Application)
  deriving DecidableEq, Repr

/-- The function `marshalYAMLWithoutStatusField`. -/
def marshalYAMLWithoutStatusField (E : Env) (v : Manifest) : Except Fault Str :=
  let decoded :=
    match v with
    | .appProject p => E.jsonAppProject p
    | .application a => E.jsonApplication a
  match decoded with
  | .error e => .error e
  | .ok vm => E.yamlMarshal (mapDelete vm yamlStatusField)

/-- The function `makeProjectRole`. -/
def makeProjectRole (level : accessLevel) (argocdProject : ArgoCDProject)
    (appProject : AppProject) : Except Fault ProjectRole :=
  let groups :=
    if level = ReadOnly then argocdProject.Spec.AccessControl.ReadOnly
    else if level = ReadSync then argocdProject.Spec.AccessControl.ReadSync
    else []
  match level.String with
  | .error e => .error e
  | .ok name =>
    match level.Policies appProject.ObjectMeta.Name argocdProject.Spec.Environment with
    | .error e => .error e
    | .ok policies => .ok ⟨name, policies, groups⟩

/-- The destination map of `makeAppProject`: one entry per key, the destination
of the last template with that key. -/
def destinationMap (E : Env) (apps : List Application) :
    List (Str × ApplicationDestination) :=
  apps.foldl (fun m app => mapSet m (E.destinationString app.Spec.Destination)
    app.Spec.Destination) []

/-- The app project that `makeAppProject` hands to the encoder; the project
template of the input is updated in place, so the updated input is returned
with it. -/
def prepareAppProject (E : Env) (argocdProject : ArgoCDProject) :
    Except Fault (ArgoCDProject × AppProject) :=
  let appProject := argocdProject.Spec.AppProject
  let appProject := { appProject with TypeMeta := ⟨AppProjectKind, argoGroupVersion⟩ }
  let appProject :=
    { appProject with ObjectMeta := { appProject.ObjectMeta with Name := argocdProject.ObjectMeta.Name } }
  let appProject :=
    { appProject with Spec := { appProject.Spec with
        NamespaceResourceWhitelist := [⟨"*".toList, "*".toList⟩] } }
  let appProject :=
    { appProject with Spec := { appProject.Spec with SourceRepos := ["*".toList] } }
  let appProject :=
    match appProject.Spec.Destinations with
    | some _ => appProject
    | none =>
      let destinations :=
        (E.rangeOrder (destinationMap E argocdProject.Spec.ApplicationTemplates)).map
          (fun entry => entry.2)
      { appProject with Spec := { appProject.Spec with Destinations := some destinations } }
  let argocdProject :=
    { argocdProject with Spec := { argocdProject.Spec with AppProject := appProject } }
  match makeProjectRole ReadOnly argocdProject appProject with
  | .error e => .error e
  | .ok readOnlyProjectRole =>
    let appProject :=
      { appProject with Spec := { appProject.Spec with
          Roles := appProject.Spec.Roles ++ [readOnlyProjectRole] } }
    let argocdProject :=
      { argocdProject with Spec := { argocdProject.Spec with AppProject := appProject } }
    match makeProjectRole ReadSync argocdProject appProject with
    | .error e => .error e
    | .ok readSyncProjectRole =>
      let appProject :=
        { appProject with Spec := { appProject.Spec with
            Roles := appProject.Spec.Roles ++ [readSyncProjectRole] } }
      let argocdProject :=
        { argocdProject with Spec := { argocdProject.Spec with AppProject := appProject } }
      .ok (argocdProject, appProject)

/-- The function `makeAppProject`: the updated input and the manifest. -/
def makeAppProject (E : Env) (argocdProject : ArgoCDProject) :
    Except Fault (ArgoCDProject × Str) :=
  match prepareAppProject E argocdProject with
  | .error e => .error e
  | .ok (argocdProject, appProject) =>
    match marshalYAMLWithoutStatusField E (.appProject appProject) with
    | .error e => .error e
    | .ok b => .ok (argocdProject, b)

/-- The body of the loop of `makeApplications` before the encoding: the
application that is handed to the encoder.  Reading the path of a nil source is
a nil dereference. -/
def prepareApplication (argocdProject : ArgoCDProject) (app : Application) :
    Except Fault Application :=
  let app := { app with TypeMeta := ⟨ApplicationKind, argoGroupVersion⟩ }
  let app := { app with Spec := { app.Spec with Project := argocdProject.ObjectMeta.Name } }
  if argocdProject.Spec.Environment ≠ [] then
    match app.Spec.Source with
    | none => .error (.panic "invalid memory address or nil pointer dereference".toList)
    | some source =>
      let source :=
        if source.Path = [] then
          { source with Path := "./k8s/overlays/".toList ++ argocdProject.Spec.Environment }
        else source
      let source :=
        { source with TargetRevision := "env-".toList ++ argocdProject.Spec.Environment }
      .ok { app with Spec := { app.Spec with Source := some source } }
  else .ok app

/-- The loop of `makeApplications` over the templates left, with the manifests
made so far. -/
def makeApplicationsLoop (E : Env) (argocdProject : ArgoCDProject) :
    List Application → List Str → Except Fault (List Str)
  | [], manifests => .ok manifests
  | app :: rest, manifests =>
    match prepareApplication argocdProject app with
    | .error e => .error e
    | .ok app =>
      match marshalYAMLWithoutStatusField E (.application app) with
      | .error e => .error e
      | .ok b => makeApplicationsLoop E argocdProject rest (manifests ++ [b])

/-- The function `makeApplications`; its update of the templates in place is
read by nobody afterwards. -/
def makeApplications (E : Env) (argocdProject : ArgoCDProject) : Except Fault (List Str) :=
  makeApplicationsLoop E argocdProject argocdProject.Spec.ApplicationTemplates []

/-- The function `makeManifests`. -/
def makeManifests (E : Env) (argocdProject : ArgoCDProject) : Except Fault (List Str) :=
  match makeAppProject E argocdProject with
  | .error e => .error e
  | .ok (argocdProject, b) =>
    match makeApplications E argocdProject with
    | .error e => .error e
    | .ok bs => .ok ([b] ++ bs)

/-- The output loop of `GenerateManifests`. -/
def writeManifests {σ : Type} (wr : kustomizebuild.Writer σ) : List Str → σ → σ × Option Fault
  | [], out => (out, none)
  | manifest :: rest, out =>
    match wr.Write out separatorYaml with
    | (out, some e) => (out, some e)
    | (out, none) =>
      match wr.Write out manifest with
      | (out, some e) => (out, some e)
      | (out, none) => writeManifests wr rest out

/-- The function `GenerateManifests`: the writer afterwards and the error
returned (`none` for nil). -/
def GenerateManifests {σ : Type} (E : Env) (wr : kustomizebuild.Writer σ) (data : Str)
    (out : σ) : σ × Option Fault :=
  match E.Unmarshal data with
  | .error e => (out, some e)
  | .ok argocdProject =>
    match makeManifests E argocdProject with
    | .error e => (out, some e)
    | .ok manifests => writeManifests wr manifests out

/-- An application template as in the test suite. -/
def checkerApp (name repo path revision cluster ns : Str) : Application :=
  { TypeMeta := ⟨[], []⟩
    ObjectMeta := { k8s.ObjectMeta.empty with Name := name }
    Spec := ⟨some ⟨repo, path, revision⟩, ⟨[], ns, cluster⟩, []⟩
    Status := [] }

/-- The project of the test suite with the given environment and templates, the
project template declaring no destinations. -/
def checkerProject (environment : Str) (apps : List Application) : ArgoCDProject :=
  { TypeMeta := ⟨"ArgoCDProject".toList, "incognia.com/v1alpha1".toList⟩
    ObjectMeta := { k8s.ObjectMeta.empty with Name := "github-checker".toList }
    Spec :=
      { AccessControl := ⟨["sre:eng-2".toList], ["sre:eng-0".toList, "sre:eng-1".toList]⟩
        Environment := environment
        AppProject := ⟨⟨[], []⟩, k8s.ObjectMeta.empty, ⟨[], none, [], [], []⟩, []⟩
        ApplicationTemplates := apps } }

/-- The template "github-checker-app" of the test suite without a path. -/
def plainApp : Application :=
  checkerApp "github-checker-app".toList "https://github.com/inloco/github-checker.git".toList
    [] [] "Global-SRE".toList "github-checker".toList

/-- The template "github-checker-app" of the test suite with its own path and
revision. -/
def customPathApp : Application :=
  checkerApp "github-checker-app".toList "https://github.com/inloco/github-checker.git".toList
    "namespaces/example".toList "HEAD".toList "Global-SRE".toList "github-checker".toList

/-- The template "another-checker-app" of the test suite. -/
def anotherApp : Application :=
  checkerApp "another-checker-app".toList "https://github.com/inloco/another-checker.git".toList
    "namespaces/example".toList "HEAD".toList "Global-Product".toList "another-checker".toList

/-- Libraries that render a destination by its three fields, enumerate a map
in the order of its entries and encode an object by a few of its fields. -/
def plainEnv : Env where
  Unmarshal := fun _ => .ok (checkerProject "staging".toList [plainApp])
  destinationString := fun d => d.Server ++ '/' :: d.Namespace ++ '/' :: d.Name
  rangeOrder := fun m => m
  jsonAppProject := fun p =>
    .ok [("kind".toList, p.TypeMeta.Kind), ("metadata".toList, p.ObjectMeta.Name),
      ("status".toList, p.Status)]
  jsonApplication := fun a =>
    .ok [("kind".toList, a.TypeMeta.Kind), ("metadata".toList, a.ObjectMeta.Name),
      ("path".toList, (a.Spec.Source.map (fun source => source.Path)).getD []),
      ("status".toList, a.Status)]
  yamlMarshal := fun m => .ok (m.flatMap (fun entry => entry.1 ++ ": ".toList ++ entry.2 ++ ['\n']))

/-- A template without a source block: its `Source` pointer is nil. -/
def sourcelessApp : Application :=
  { TypeMeta := ⟨[], []⟩
    ObjectMeta := { k8s.ObjectMeta.empty with Name := "github-checker-app".toList }
    Spec := ⟨none, ⟨[], "github-checker".toList, "Global-SRE".toList⟩, []⟩
    Status := [] }

/-- The template "github-checker-app" of the test suite carrying a status. -/
def syncedApp : Application :=
  { plainApp with Status := "sync: Synced".toList }

/-- The eight policies that `accessLevel.Policies` gives `ReadSync` in every
environment, in order. -/
def defaultSyncPolicies (appProjectName : Str) : List Str :=
  [policyLine appProjectName "read-sync".toList "applications".toList
      "action/apps/Deployment/restart".toList,
    policyLine appProjectName "read-sync".toList "applications".toList
      "action/argoproj.io/Rollout/abort".toList,
    policyLine appProjectName "read-sync".toList "applications".toList
      "action/argoproj.io/Rollout/promote-full".toList,
    policyLine appProjectName "read-sync".toList "applications".toList
      "action/argoproj.io/Rollout/restart".toList,
    policyLine appProjectName "read-sync".toList "applications".toList
      "action/argoproj.io/Rollout/resume".toList,
    policyLine appProjectName "read-sync".toList "applications".toList
      "action/argoproj.io/Rollout/retry".toList,
    policyLine appProjectName "read-sync".toList "applications".toList "sync".toList,
    "g, proj:".toList ++ appProjectName ++ ":".toList ++ "read-sync".toList ++
      ", proj:".toList ++ appProjectName ++ ":".toList ++ "read-only".toList]

/-- The policy that lets `ReadSync` override. -/
def overridePolicy (appProjectName : Str) : Str :=
  policyLine appProjectName "read-sync".toList "applications".toList "override".toList

/-- The method `String` that the protobuf generator of the argo-cd library
writes for `ApplicationDestination` (the library is not part of the sources):
the three fields in order behind their labels. -/
def generatedString (d : ApplicationDestination) : Str :=
  "&ApplicationDestination\x7bServer:".toList ++ d.Server ++ ",Namespace:".toList ++ d.Namespace ++
    ",Name:".toList ++ d.Name ++ ",\x7d".toList

/-- The libraries of `plainEnv` with the generated method `String`. -/
def generatedEnv : Env :=
  { plainEnv with destinationString := generatedString }

/-- A template whose destination has the namespace `checker,Name:Global-SRE` and
no cluster name. -/
def labelledApp : Application :=
  checkerApp "labelled-app".toList "https://github.com/inloco/github-checker.git".toList
    [] [] [] "checker,Name:Global-SRE".toList

/-- A template whose destination has the namespace `checker` and the cluster
name `Global-SRE,Name:`. -/
def namedApp : Application :=
  checkerApp "named-app".toList "https://github.com/inloco/github-checker.git".toList
    [] [] "Global-SRE,Name:".toList "checker".toList

end argocdproject

/-! # The `namespace` generator -/

namespace namespacegen

open kustomizebuild (Str Fault)
open k8s (TypeMeta ObjectMeta Subject RoleRef RoleBinding)

/-- The `yamlSeparator` constant. -/
def yamlSeparator : Str := "---\n".toList

/-- The `AccessLevel` type: a Go `int`. -/
abbrev AccessLevel := Int

/-- The `ReadOnly` constant (`iota` = 0). -/
def ReadOnly : AccessLevel := 0

/-- The `ReadWrite` constant (1). -/
def ReadWrite : AccessLevel := 1

/-- The method `AccessLevel.LongName`; it panics on an unknown level. -/
def AccessLevel.LongName (a : AccessLevel) : Except Fault Str :=
  if a = ReadOnly then .ok "namespaced-ro".toList
  else if a = ReadWrite then .ok "namespaced-rw".toList
  else .error (.panic "unknown access level".toList)

/-- The method `AccessLevel.ShortName`; it panics on an unknown level. -/
def AccessLevel.ShortName (a : AccessLevel) : Except Fault Str :=
  if a = ReadOnly then .ok "ro".toList
  else if a = ReadWrite then .ok "rw".toList
  else .error (.panic "unknown access level".toList)

/-- The function `AccessLevelFromLongName`; it panics on an unknown name. -/
def AccessLevelFromLongName (s : Str) : Except Fault AccessLevel :=
  if .ok s = ReadOnly.LongName then .ok ReadOnly
  else if .ok s = ReadWrite.LongName then .ok ReadWrite
  else .error (.panic ("unknown access level ".toList ++ s))

/-- The type `corev1.NamespaceSpec`. -/
structure NamespaceSpec where
  Finalizers : List Str
  deriving DecidableEq, Repr

/-- The type `corev1.NamespaceStatus`. -/
structure NamespaceStatus where
  Phase : Str
  deriving DecidableEq, Repr

/-- The type `corev1.Namespace`. -/
structure CoreNamespace where
  TypeMeta : TypeMeta
  ObjectMeta : ObjectMeta
  Spec : NamespaceSpec
  Status : NamespaceStatus
  deriving DecidableEq, Repr

/-- The `NamespaceAccessControl` struct. -/
structure NamespaceAccessControl where
  ReadOnly : List Str
  ReadWrite : List Str
  deriving DecidableEq, Repr

/-- The `Namespace` struct. -/
structure Namespace where
  TypeMeta : TypeMeta
  ObjectMeta : ObjectMeta
  AccessControl : NamespaceAccessControl
  Spec : NamespaceSpec
  Status : NamespaceStatus
  deriving DecidableEq, Repr

/-- What the generator takes from its libraries. -/
structure Env where
  /-- The decoder `yaml.Unmarshal` on the input document. -/
  Unmarshal : Str → Except Fault Namespace
  /-- The encoder `yaml.Marshal` on a namespace. -/
  marshalNamespace : CoreNamespace → Except Fault Str
  /-- The encoder `yaml.Marshal` on a role binding. -/
  marshalRoleBinding : RoleBinding → Except Fault Str

/-- The function `makeNamespace`. -/
def makeNamespace (E : Env) (ns : Namespace) : Except Fault Str :=
  E.marshalNamespace
    ⟨⟨"Namespace".toList, k8s.coreGroupVersion⟩, ns.ObjectMeta, ns.Spec, ns.Status⟩

/-- The subject that `makeSubjects` makes of a name. -/
def groupSubject (name : Str) : Subject :=
  ⟨k8s.rbacGroupKind, k8s.rbacGroupName, name, []⟩

/-- The function `makeSubjects`: the slice starts nil and grows by one subject
per name. -/
def makeSubjects (names : List Str) : Option (List Subject) :=
  names.foldl (fun subjects name => some (subjects.getD [] ++ [groupSubject name])) none

/-- The role binding that `makeRoleBinding` hands to the encoder. -/
def roleBindingOf (level : AccessLevel) (ns : Namespace) : Except Fault RoleBinding :=
  let names :=
    if level = ReadOnly then ns.AccessControl.ReadOnly
    else if level = ReadWrite then ns.AccessControl.ReadWrite
    else []
  match level.ShortName with
  | .error e => .error e
  | .ok shortName =>
    let names := names ++ [ns.ObjectMeta.Name ++ ":".toList ++ shortName]
    match level.LongName with
    | .error e => .error e
    | .ok longName =>
      .ok
        { TypeMeta := ⟨"RoleBinding".toList, k8s.rbacGroupVersion⟩
          ObjectMeta := { k8s.ObjectMeta.empty with
            Namespace := ns.ObjectMeta.Name, Name := longName }
          RoleRef := ⟨k8s.rbacGroupName, "ClusterRole".toList, longName⟩
          Subjects := makeSubjects names }

/-- The function `makeRoleBinding`. -/
def makeRoleBinding (E : Env) (level : AccessLevel) (ns : Namespace) : Except Fault Str :=
  match roleBindingOf level ns with
  | .error e => .error e
  | .ok roleBinding => E.marshalRoleBinding roleBinding

/-- The function `makeManifests`. -/
def makeManifests (E : Env) (ns : Namespace) : Except Fault (List Str) :=
  match makeNamespace E ns with
  | .error e => .error e
  | .ok nsManifest =>
    match makeRoleBinding E ReadOnly ns with
    | .error e => .error e
    | .ok readOnlyRoleBinding =>
      match makeRoleBinding E ReadWrite ns with
      | .error e => .error e
      | .ok readWriteRoleBinding => .ok [nsManifest, readOnlyRoleBinding, readWriteRoleBinding]

/-- The output loop of `GenerateManifests`. -/
def writeManifests {σ : Type} (wr : kustomizebuild.Writer σ) : List Str → σ → σ × Option Fault
  | [], out => (out, none)
  | manifest :: rest, out =>
    match wr.Write out yamlSeparator with
    | (out, some e) => (out, some e)
    | (out, none) =>
      match wr.Write out manifest with
      | (out, some e) => (out, some e)
      | (out, none) => writeManifests wr rest out

/-- The function `GenerateManifests`: the writer afterwards and the error
returned (`none` for nil). -/
def GenerateManifests {σ : Type} (E : Env) (wr : kustomizebuild.Writer σ) (data : Str)
    (out : σ) : σ × Option Fault :=
  match E.Unmarshal data with
  | .error e => (out, some e)
  | .ok ns =>
    match makeManifests E ns with
    | .error e => (out, some e)
    | .ok manifests => writeManifests wr manifests out

/-- The input of the test suite: the namespace `example` with one read-only and
two read-write names. -/
def exampleNamespace : Namespace :=
  { TypeMeta := ⟨"Namespace".toList, "incognia.com/v1alpha1".toList⟩
    ObjectMeta := { k8s.ObjectMeta.empty with Name := "example".toList }
    AccessControl := ⟨["sre:eng-2".toList], ["sre:eng-0".toList, "sre:eng-1".toList]⟩
    Spec := ⟨["finalizer".toList]⟩
    Status := ⟨[]⟩ }

end namespacegen

/-! # The `unnamespaced` generator -/

namespace unnamespaced

open kustomizebuild (Str Fault)
open k8s (TypeMeta ObjectMeta Subject RoleRef ClusterRoleBinding)

/-- The `yamlSeparator` constant. -/
def yamlSeparator : Str := "---\n".toList

/-- The `AccessLevel` type: a Go `int`. -/
abbrev AccessLevel := Int

/-- The `ReadOnly` constant (`iota` = 0). -/
def ReadOnly : AccessLevel := 0

/-- The `ReadWrite` constant (1). -/
def ReadWrite : AccessLevel := 1

/-- The method `AccessLevel.LongName`; it panics on an unknown level. -/
def AccessLevel.LongName (a : AccessLevel) : Except Fault Str :=
  if a = ReadOnly then .ok "unnamespaced-ro".toList
  else if a = ReadWrite then .ok "unnamespaced-rw".toList
  else .error (.panic "unknown access level".toList)

/-- The method `AccessLevel.ShortName`; it panics on an unknown level. -/
def AccessLevel.ShortName (a : AccessLevel) : Except Fault Str :=
  if a = ReadOnly then .ok "ro".toList
  else if a = ReadWrite then .ok "rw".toList
  else .error (.panic "unknown access level".toList)

/-- The function `AccessLevelFromLongName`; it panics on an unknown name. -/
def AccessLevelFromLongName (s : Str) : Except Fault AccessLevel :=
  if .ok s = ReadOnly.LongName then .ok ReadOnly
  else if .ok s = ReadWrite.LongName then .ok ReadWrite
  else .error (.panic ("unknown access level ".toList ++ s))

/-- The `UnnamespacedAccessControl` struct. -/
structure UnnamespacedAccessControl where
  ReadOnly : List Str
  ReadWrite : List Str
  deriving DecidableEq, Repr

/-- The `Unnamespaced` struct. -/
structure Unnamespaced where
  TypeMeta : TypeMeta
  ObjectMeta : ObjectMeta
  AccessControl : UnnamespacedAccessControl
  deriving DecidableEq, Repr

/-- What the generator takes from its libraries. -/
structure Env where
  /-- The decoder `yaml.Unmarshal` on the input document. -/
  Unmarshal : Str → Except Fault Unnamespaced
  /-- The encoder `yaml.Marshal` on a cluster role binding. -/
  marshalClusterRoleBinding : ClusterRoleBinding → Except Fault Str

/-- The subject that `makeSubjects` makes of a name. -/
def groupSubject (name : Str) : Subject :=
  ⟨k8s.rbacGroupKind, k8s.rbacGroupName, name, []⟩

/-- The function `makeSubjects`: the slice starts nil and grows by one subject
per name. -/
def makeSubjects (names : List Str) : Option (List Subject) :=
  names.foldl (fun subjects name => some (subjects.getD [] ++ [groupSubject name])) none

/-- The cluster role binding that `makeClusterRoleBinding` hands to the
encoder. -/
def clusterRoleBindingOf (level : AccessLevel) (u : Unnamespaced) :
    Except Fault ClusterRoleBinding :=
  let names :=
    if level = ReadOnly then u.AccessControl.ReadOnly
    else if level = ReadWrite then u.AccessControl.ReadWrite
    else []
  match level.LongName with
  | .error e => .error e
  | .ok longName =>
    let objectMeta := { u.ObjectMeta with Name := longName }
    .ok
      { TypeMeta := ⟨"ClusterRoleBinding".toList, k8s.rbacGroupVersion⟩
        ObjectMeta := objectMeta
        RoleRef := ⟨k8s.rbacGroupName, "ClusterRole".toList, longName⟩
        Subjects := makeSubjects names }

/-- The function `makeClusterRoleBinding`. -/
def makeClusterRoleBinding (E : Env) (level : AccessLevel) (u : Unnamespaced) :
    Except Fault Str :=
  match clusterRoleBindingOf level u with
  | .error e => .error e
  | .ok clusterRoleBinding => E.marshalClusterRoleBinding clusterRoleBinding

/-- The function `makeManifests`. -/
def makeManifests (E : Env) (u : Unnamespaced) : Except Fault (List Str) :=
  match makeClusterRoleBinding E ReadOnly u with
  | .error e => .error e
  | .ok readOnlyClusterRoleBinding =>
    match makeClusterRoleBinding E ReadWrite u with
    | .error e => .error e
    | .ok readWriteClusterRoleBinding =>
      .ok [readOnlyClusterRoleBinding, readWriteClusterRoleBinding]

/-- The output loop of `GenerateManifests`. -/
def writeManifests {σ : Type} (wr : kustomizebuild.Writer σ) : List Str → σ → σ × Option Fault
  | [], out => (out, none)
  | y :: rest, out =>
    match wr.Write out yamlSeparator with
    | (out, some e) => (out, some e)
    | (out, none) =>
      match wr.Write out y with
      | (out, some e) => (out, some e)
      | (out, none) => writeManifests wr rest out

/-- The function `GenerateManifests`: the writer afterwards and the error
returned (`none` for nil). -/
def GenerateManifests {σ : Type} (E : Env) (wr : kustomizebuild.Writer σ) (data : Str)
    (out : σ) : σ × Option Fault :=
  match E.Unmarshal data with
  | .error e => (out, some e)
  | .ok u =>
    match makeManifests E u with
    | .error e => (out, some e)
    | .ok manifests => writeManifests wr manifests out

/-- The input "with partial access control" of the test suite: no read-only
name and two read-write names. -/
def partialUnnamespaced : Unnamespaced :=
  { TypeMeta := ⟨"Unnamespace".toList, "incognia.com/v1alpha1".toList⟩
    ObjectMeta := { k8s.ObjectMeta.empty with Name := "_".toList }
    AccessControl := ⟨[], ["sre:eng-0".toList, "sre:eng-1".toList]⟩ }

/-- An encoder that writes the name of the binding and the names of its
subjects, and never fails. -/
def nameEncoder : Env where
  Unmarshal := fun _ => .ok partialUnnamespaced
  marshalClusterRoleBinding := fun crb =>
    .ok (crb.ObjectMeta.Name ++ (crb.Subjects.getD []).flatMap
      (fun subject => ' ' :: subject.Name) ++ ['\n'])

end unnamespaced

/-! # The cluster-role generator (`clusterroles`)

The discovery client, the YAML encoder and `sort.Slice` are libraries outside
the sources.  The index that `buildIndex` returns is the input here; a Go map is
held as the list of its entries, and every `range` over a map enumerates them in
an order of its own. -/

namespace clusterroles

open kustomizebuild (Str Fault)
open k8s (TypeMeta ObjectMeta)

/-- The `verbGet` constant. -/
def verbGet : Str := "get".toList

/-- The `verbList` constant. -/
def verbList : Str := "list".toList

/-- The `verbWatch` constant. -/
def verbWatch : Str := "watch".toList

/-- The `coreGroupName` constant: the empty string. -/
def coreGroupName : Str := []

/-- The `secretResourceName` constant. -/
def secretResourceName : Str := "secrets".toList

/-- The `namespacedReadOnlyRoleName` constant. -/
def namespacedReadOnlyRoleName : Str := "namespaced-ro".toList

/-- The `namespacedReadWriteRoleName` constant. -/
def namespacedReadWriteRoleName : Str := "namespaced-rw".toList

/-- The `unnamespacedReadOnlyRoleName` constant. -/
def unnamespacedReadOnlyRoleName : Str := "unnamespaced-ro".toList

/-- The `unnamespacedReadWriteRoleName` constant. -/
def unnamespacedReadWriteRoleName : Str := "unnamespaced-rw".toList

/-- The constant `rbacv1.VerbAll`. -/
def VerbAll : Str := "*".toList

/-- The constant `rbacv1.ResourceAll`. -/
def ResourceAll : Str := "*".toList

/-- The constant `rbacv1.APIGroupAll`. -/
def APIGroupAll : Str := "*".toList

/-- The `readOnlyVerbs` variable. -/
def readOnlyVerbs : List Str := [verbGet, verbList, verbWatch]

/-- The `readWriteVerbs` variable. -/
def readWriteVerbs : List Str := [VerbAll]

/-- The type `rbacv1.PolicyRule`: the three fields the generator fills.  A nil
slice and an empty one are both the empty list; the generator never tells them
apart. -/
structure PolicyRule where
  Verbs : List Str
  APIGroups : List Str
  Resources : List Str
  deriving DecidableEq, Repr

/-- The type `rbacv1.ClusterRole`. -/
structure ClusterRole where
  TypeMeta : TypeMeta
  ObjectMeta : ObjectMeta
  Rules : List PolicyRule
  deriving DecidableEq, Repr

/-- The `Namespaced` type. -/
abbrev Namespaced := Bool

/-- The `ResourceIndex` type: a map from resource names, held as its entries. -/
abbrev ResourceIndex := List (Str × Namespaced)

/-- The `GroupIndex` type: a map from group names, held as its entries. -/
abbrev GroupIndex := List (Str × ResourceIndex)

/-- The orders in which the four `range` statements over maps enumerate the
entries: the groups and the resources of a group in
`makeNamespacedClusterRoles`, and the same in `makeUnnamespacedClusterRoles`. -/
structure Ranges where
  namespacedGroups : GroupIndex → GroupIndex
  namespacedResources : Str → ResourceIndex → ResourceIndex
  unnamespacedGroups : GroupIndex → GroupIndex
  unnamespacedResources : Str → ResourceIndex → ResourceIndex

/-- Every `range` enumerates every entry of its map exactly once. -/
def Ranges.fair (R : Ranges) : Prop :=
  (∀ m, (R.namespacedGroups m).Perm m) ∧ (∀ g m, (R.namespacedResources g m).Perm m) ∧
    (∀ m, (R.unnamespacedGroups m).Perm m) ∧ (∀ g m, (R.unnamespacedResources g m).Perm m)

/-- The type meta of every role: the kind is the name of the Go type. -/
def typeMeta : TypeMeta := ⟨"ClusterRole".toList, k8s.rbacGroupVersion⟩

/-- The inner loop of `makeNamespacedClusterRoles` over the resources of the
core group, from the resources gathered so far. -/
def coreResourcesLoop : List (Str × Namespaced) → List Str → List Str
  | [], gathered => gathered
  | (resource, namespaced) :: rest, gathered =>
    if resource ≠ secretResourceName ∧ namespaced = true then
      coreResourcesLoop rest (gathered ++ [resource])
    else coreResourcesLoop rest gathered

/-- The outer loop of `makeNamespacedClusterRoles` over the groups, on the core
rule and the rule of the other groups. -/
def namespacedLoop (R : Ranges) :
    List (Str × ResourceIndex) → PolicyRule × PolicyRule → PolicyRule × PolicyRule
  | [], rules => rules
  | (group, resources) :: rest, (coreRule, othersRule) =>
    if group ≠ coreGroupName then
      namespacedLoop R rest
        (coreRule, { othersRule with APIGroups := othersRule.APIGroups ++ [group] })
    else
      namespacedLoop R rest
        ({ coreRule with Resources :=
            coreResourcesLoop (R.namespacedResources group resources) coreRule.Resources },
          othersRule)

/-- The function `makeNamespacedClusterRoles`. -/
def makeNamespacedClusterRoles (R : Ranges) (index : GroupIndex) :
    Except Fault (List ClusterRole) :=
  let coreRule : PolicyRule := { APIGroups := [coreGroupName], Resources := [], Verbs := readOnlyVerbs }
  let othersRule : PolicyRule := { APIGroups := [], Resources := [ResourceAll], Verbs := readOnlyVerbs }
  let (coreRule, othersRule) := namespacedLoop R (R.namespacedGroups index) (coreRule, othersRule)
  .ok [{ TypeMeta := typeMeta
         ObjectMeta := { k8s.ObjectMeta.empty with Name := namespacedReadOnlyRoleName }
         Rules := [coreRule, othersRule] },
       { TypeMeta := typeMeta
         ObjectMeta := { k8s.ObjectMeta.empty with Name := namespacedReadWriteRoleName }
         Rules := [{ APIGroups := [APIGroupAll], Resources := [ResourceAll],
                     Verbs := readWriteVerbs }] }]

/-- The inner loop of `makeUnnamespacedClusterRoles` over the resources of a
group, from the resources gathered so far. -/
def unnamespacedResourcesLoop : List (Str × Namespaced) → List Str → List Str
  | [], gathered => gathered
  | (resource, namespaced) :: rest, gathered =>
    if namespaced = false then unnamespacedResourcesLoop rest (gathered ++ [resource])
    else unnamespacedResourcesLoop rest gathered

/-- The outer loop of `makeUnnamespacedClusterRoles` over the groups, on the
read-only rules and the read-write rules. -/
def unnamespacedLoop (R : Ranges) :
    List (Str × ResourceIndex) → List PolicyRule × List PolicyRule →
      List PolicyRule × List PolicyRule
  | [], rules => rules
  | (group, resources) :: rest, (readOnlyRules, readWriteRules) =>
    let unnamespacedResources :=
      unnamespacedResourcesLoop (R.unnamespacedResources group resources) []
    if unnamespacedResources.length = 0 then
      unnamespacedLoop R rest (readOnlyRules, readWriteRules)
    else
      let groups := [group]
      unnamespacedLoop R rest
        (readOnlyRules ++ [{ APIGroups := groups, Resources := unnamespacedResources,
                             Verbs := readOnlyVerbs }],
          readWriteRules ++ [{ APIGroups := groups, Resources := unnamespacedResources,
                               Verbs := readWriteVerbs }])

/-- The function `makeUnnamespacedClusterRoles`. -/
def makeUnnamespacedClusterRoles (R : Ranges) (index : GroupIndex) :
    Except Fault (List ClusterRole) :=
  let (readOnlyRules, readWriteRules) := unnamespacedLoop R (R.unnamespacedGroups index) ([], [])
  .ok [{ TypeMeta := typeMeta
         ObjectMeta := { k8s.ObjectMeta.empty with Name := unnamespacedReadOnlyRoleName }
         Rules := readOnlyRules },
       { TypeMeta := typeMeta
         ObjectMeta := { k8s.ObjectMeta.empty with Name := unnamespacedReadWriteRoleName }
         Rules := readWriteRules }]

/-- The function `makeClusterRoles`. -/
def makeClusterRoles (R : Ranges) (index : GroupIndex) : Except Fault (List ClusterRole) :=
  match makeNamespacedClusterRoles R index with
  | .error e => .error e
  | .ok namespacedRoles =>
    match makeUnnamespacedClusterRoles R index with
    | .error e => .error e
    | .ok unnamespacedRoles => .ok (namespacedRoles ++ unnamespacedRoles)

/-- The resources that the inner loop of `makeNamespacedClusterRoles` gathers
from the enumerated resources of the core group. -/
def coreResourcesOf (resources : List (Str × Namespaced)) : List Str :=
  (resources.filter (fun entry => entry.1 ≠ secretResourceName ∧ entry.2 = true)).map
    (fun entry => entry.1)

/-- The resources that the inner loop of `makeUnnamespacedClusterRoles` gathers
from the enumerated resources of a group. -/
def unnamespacedResourcesOf (resources : List (Str × Namespaced)) : List Str :=
  (resources.filter (fun entry => entry.2 = false)).map (fun entry => entry.1)

/-- The rule that `makeUnnamespacedClusterRoles` makes of a group for the given
verbs: none when the group has no cluster-wide resource. -/
def unnamespacedRule (R : Ranges) (verbs : List Str) (entry : Str × ResourceIndex) :
    Option PolicyRule :=
  let unnamespacedResources := unnamespacedResourcesOf (R.unnamespacedResources entry.1 entry.2)
  if unnamespacedResources.length = 0 then none
  else some { APIGroups := [entry.1], Resources := unnamespacedResources, Verbs := verbs }

/-- The core rule of the role `namespaced-ro`. -/
def coreRuleOf (R : Ranges) (index : GroupIndex) : PolicyRule :=
  { APIGroups := [coreGroupName]
    Resources := ((R.namespacedGroups index).filter (fun entry => entry.1 = coreGroupName)).flatMap
      (fun entry => coreResourcesOf (R.namespacedResources entry.1 entry.2))
    Verbs := readOnlyVerbs }

/-- The rule of the other groups of the role `namespaced-ro`. -/
def othersRuleOf (R : Ranges) (index : GroupIndex) : PolicyRule :=
  { APIGroups := ((R.namespacedGroups index).filter (fun entry => entry.1 ≠ coreGroupName)).map
      (fun entry => entry.1)
    Resources := [ResourceAll]
    Verbs := readOnlyVerbs }

/-- The role of the given name and rules. -/
def roleOf (name : Str) (rules : List PolicyRule) : ClusterRole :=
  { TypeMeta := typeMeta
    ObjectMeta := { k8s.ObjectMeta.empty with Name := name }
    Rules := rules }

/-- The operator `<` of Go on strings: the first character that differs decides,
and a proper beginning of a string is smaller than the string. -/
def strLess : Str → Str → Bool
  | [], [] => false
  | [], _ :: _ => true
  | _ :: _, [] => false
  | a :: as, b :: bs =>
    if a.toNat < b.toNat then true
    else if a = b then strLess as bs
    else false

/-- The rendering of a slice of strings by the verb `%v` of `fmt`: the elements
between brackets, a blank between two of them. -/
def sprintSlice : List Str → Str
  | [] => "[]".toList
  | first :: rest => '[' :: first ++ rest.flatMap (fun s => ' ' :: s) ++ [']']

/-- The string by which `canonicalizeClusterRoles` compares two rules:
`fmt.Sprintf("%v%v%v", rule.APIGroups, rule.Resources, rule.Verbs)`. -/
def ruleString (rule : PolicyRule) : Str :=
  sprintSlice rule.APIGroups ++ sprintSlice rule.Resources ++ sprintSlice rule.Verbs

/-- The library function `sort.Slice`, taken as a parameter: from the comparison
and the slice to the slice afterwards. -/
abbrev SortSlice := (α : Type) → (α → α → Bool) → List α → List α

/-- What `sort.Slice` promises for a comparison of keys by `<`: the slice
afterwards holds the same elements, and no element has a smaller key than an
element before it. -/
def SortSlice.sortsByKey (sortSlice : SortSlice) : Prop :=
  ∀ (α : Type) (key : α → Str) (l : List α),
    (sortSlice α (fun a b => strLess (key a) (key b)) l).Perm l ∧
      (sortSlice α (fun a b => strLess (key a) (key b)) l).Pairwise
        (fun a b => strLess (key b) (key a) = false)

/-- One element of the insertion sort that `sort.Slice` runs on a short slice:
the element moves towards the front for as long as it is less than its
neighbour.  The sorted part is held nearest neighbour first. -/
def sink {α : Type} (less : α → α → Bool) (x : α) : List α → List α
  | [] => [x]
  | y :: ys => if less x y then y :: sink less x ys else x :: y :: ys

/-- The insertion sort of `sort.Slice` on short slices. -/
def insertionSort : SortSlice :=
  fun _ less l => (l.foldl (fun sorted x => sink less x sorted) []).reverse

/-- The three sorts that `canonicalizeClusterRoles` runs on a rule.  The rule of
the loop is a copy, but its slices share their elements with the rule of the
role, which is therefore sorted. -/
def canonicalizeRule (sortSlice : SortSlice) (rule : PolicyRule) : PolicyRule :=
  { APIGroups := sortSlice Str strLess rule.APIGroups
    Resources := sortSlice Str strLess rule.Resources
    Verbs := sortSlice Str strLess rule.Verbs }

/-- The body of the loop of `canonicalizeClusterRoles` on one role. -/
def canonicalizeClusterRole (sortSlice : SortSlice) (clusterRole : ClusterRole) : ClusterRole :=
  { clusterRole with
    Rules := sortSlice PolicyRule (fun a b => strLess (ruleString a) (ruleString b))
      (clusterRole.Rules.map (canonicalizeRule sortSlice)) }

/-- The function `canonicalizeClusterRoles`: the slice afterwards. -/
def canonicalizeClusterRoles (sortSlice : SortSlice) (clusterRoles : List ClusterRole) :
    List ClusterRole :=
  sortSlice ClusterRole (fun a b => strLess a.ObjectMeta.Name b.ObjectMeta.Name)
    (clusterRoles.map (canonicalizeClusterRole sortSlice))

/-- The roles that `main` encodes: those of `makeClusterRoles`, canonicalised. -/
def canonicalClusterRoles (sortSlice : SortSlice) (R : Ranges) (index : GroupIndex) :
    Except Fault (List ClusterRole) :=
  match makeClusterRoles R index with
  | .error e => .error e
  | .ok clusterRoles => .ok (canonicalizeClusterRoles sortSlice clusterRoles)

/-- Different rules of a role keep different comparison strings once their
fields are sorted. -/
def distinctForms (sortSlice : SortSlice) (roles : List ClusterRole) : Prop :=
  ∀ role ∈ roles, ∀ a ∈ role.Rules, ∀ b ∈ role.Rules,
    ruleString (canonicalizeRule sortSlice a) = ruleString (canonicalizeRule sortSlice b) →
      canonicalizeRule sortSlice a = canonicalizeRule sortSlice b

/-- The name of a role. -/
def roleName (role : ClusterRole) : Str := role.ObjectMeta.Name

/-- Whether a rule applies to a resource of an API group, as the RBAC authorizer
of Kubernetes reads a rule (the authorizer is not part of the sources): the
group is listed or the rule lists `rbacv1.APIGroupAll`, and the resource is
listed or the rule lists `rbacv1.ResourceAll`. -/
def covers (rule : PolicyRule) (group resource : Str) : Bool :=
  (decide (group ∈ rule.APIGroups) || decide (APIGroupAll ∈ rule.APIGroups)) &&
    (decide (resource ∈ rule.Resources) || decide (ResourceAll ∈ rule.Resources))

/-- The ranges that enumerate every map in the order of its entries. -/
def entryOrder : Ranges where
  namespacedGroups := fun m => m
  namespacedResources := fun _ m => m
  unnamespacedGroups := fun m => m
  unnamespacedResources := fun _ m => m

/-- The ranges that enumerate every map in the reverse order of its entries. -/
def reverseOrder : Ranges where
  namespacedGroups := fun m => m.reverse
  namespacedResources := fun _ m => m.reverse
  unnamespacedGroups := fun m => m.reverse
  unnamespacedResources := fun _ m => m.reverse

/-- A small index: the core group with pods, secrets, config maps and the
cluster-wide nodes and namespaces, the group `apps`, and the RBAC group with
cluster-wide and namespaced resources. -/
def sampleIndex : GroupIndex :=
  [([], [("pods".toList, true), ("secrets".toList, true), ("nodes".toList, false),
      ("configmaps".toList, true), ("namespaces".toList, false)]),
   ("apps".toList, [("deployments".toList, true)]),
   ("rbac.authorization.k8s.io".toList,
     [("roles".toList, true), ("clusterroles".toList, false),
      ("clusterrolebindings".toList, false)])]

/-- An index with a group named like `rbacv1.APIGroupAll`. -/
def wildcardGroupIndex : GroupIndex :=
  [([], [("pods".toList, true), ("secrets".toList, true)]), ("*".toList, [])]

/-- An index whose core group has a namespaced resource named like
`rbacv1.ResourceAll`. -/
def wildcardResourceIndex : GroupIndex :=
  [([], [("*".toList, true), ("secrets".toList, true)])]

/-- An index of two groups whose cluster-wide rules differ and print alike:
`[a][b][c][get list watch]`. -/
def bracketIndex : GroupIndex :=
  [("a".toList, [("b][c".toList, false)]), ("a][b".toList, [("c".toList, false)])]

end clusterroles

/-! # Theorems -/

namespace kustomizebuild

/-! ## The `range` loop over the matcher map -/

theorem rangeMatchers_cons (W : World) (root k path : Str) (bm : directoryBase × PatternMatcher)
    (rest : MatcherMap) (st : WalkState) :
    rangeMatchers W root k path (bm :: rest) st =
      match baseFault W root k path bm with
      | some e => (⟨st.manifests, st.trace ++ baseEvents root k path bm⟩, some e)
      | none =>
        rangeMatchers W root k path rest
          ⟨st.manifests ++ (if selects root k path bm then built W path else []),
            st.trace ++ baseEvents root k path bm⟩ := by
  obtain ⟨b, pm⟩ := bm
  match hp : b.parsePath root k path with
  | .error e =>
    simp [rangeMatchers, baseFault, baseVerdict, baseEvents, selects, built, buildYaml, hp]
  | .ok mp =>
    match hm : pm.Matches mp with
    | .error e =>
      simp [rangeMatchers, baseFault, baseVerdict, baseEvents, selects, built, buildYaml, hp, hm]
    | .ok false =>
      simp [rangeMatchers, baseFault, baseVerdict, baseEvents, selects, built, buildYaml, hp, hm]
    | .ok true =>
      match hr : W.Run path with
      | .error e =>
        simp [rangeMatchers, baseFault, baseVerdict, baseEvents, selects, built, buildYaml, hp,
          hm, hr]
      | .ok r =>
        match hy : r.AsYaml with
        | .error e =>
          simp [rangeMatchers, baseFault, baseVerdict, baseEvents, selects, built, buildYaml, hp,
            hm, hr, hy]
        | .ok y =>
          simp [rangeMatchers, baseFault, baseVerdict, baseEvents, selects, built, buildYaml, hp,
            hm, hr, hy]

/-- When no base fails on a directory, the loop ends without error, having added
one document per selecting base and done the work of every base in turn. -/
theorem rangeMatchers_clean (W : World) (root k path : Str) :
    ∀ (l : MatcherMap) (st : WalkState),
      (∀ bm ∈ l, baseFault W root k path bm = none) →
      rangeMatchers W root k path l st =
        (⟨st.manifests ++ (l.filter (selects root k path)).flatMap (fun _ => built W path),
          st.trace ++ l.flatMap (baseEvents root k path)⟩, none) := by
  intro l
  induction l with
  | nil => intro st _; simp [rangeMatchers]
  | cons bm rest ih =>
    intro st h
    have hbm : baseFault W root k path bm = none := h bm (List.mem_cons_self _ _)
    rw [rangeMatchers_cons, hbm]
    simp only
    rw [ih _ (fun x hx => h x (List.mem_cons_of_mem _ hx))]
    by_cases hs : selects root k path bm = true
    · simp [hs, List.filter_cons]
    · simp [hs, List.filter_cons]

/-- The loop stops at the first base that fails on the directory and returns
that failure: the bases before it have been handled, none after it. -/
theorem rangeMatchers_fault (W : World) (root k path : Str) :
    ∀ (l1 : MatcherMap) (bm : directoryBase × PatternMatcher) (l2 : MatcherMap)
      (st : WalkState) (e : Fault),
      (∀ x ∈ l1, baseFault W root k path x = none) →
      baseFault W root k path bm = some e →
      rangeMatchers W root k path (l1 ++ bm :: l2) st =
        (⟨st.manifests ++ (l1.filter (selects root k path)).flatMap (fun _ => built W path),
          st.trace ++ (l1 ++ [bm]).flatMap (baseEvents root k path)⟩, some e) := by
  intro l1
  induction l1 with
  | nil =>
    intro bm l2 st e _ hbm
    simp [rangeMatchers_cons, hbm]
  | cons x rest ih =>
    intro bm l2 st e h hbm
    have hx : baseFault W root k path x = none := h x (List.mem_cons_self _ _)
    rw [List.cons_append, rangeMatchers_cons, hx]
    simp only
    rw [ih bm l2 _ e (fun y hy => h y (List.mem_cons_of_mem _ hy)) hbm]
    by_cases hs : selects root k path x = true
    · simp [hs, List.filter_cons]
    · simp [hs, List.filter_cons]

/-! ## The walk -/

theorem filter_flatMap_const {α β : Type} (p : α → Bool) (c : List β) (l : List α) :
    (l.filter p).flatMap (fun _ => c) = (List.replicate (l.countP p) c).flatten := by
  induction l with
  | nil => simp
  | cons a rest ih =>
    by_cases h : p a = true
    · simp [List.filter_cons, List.countP_cons, h, ih, List.replicate_succ]
    · simp [List.filter_cons, List.countP_cons, h, ih]

theorem dispatched_append (t1 t2 : List Event) :
    dispatched (t1 ++ t2) = dispatched t1 ++ dispatched t2 := by
  simp [dispatched, List.filterMap_append]

theorem dispatched_baseEvents (root k path : Str) (bm : directoryBase × PatternMatcher) :
    dispatched (baseEvents root k path bm) = if selects root k path bm then [path] else [] := by
  obtain ⟨b, pm⟩ := bm
  match hp : b.parsePath root k path with
  | .error e => simp [dispatched, baseEvents, selects, baseVerdict, hp]
  | .ok mp =>
    match hm : pm.Matches mp with
    | .error e => simp [dispatched, baseEvents, selects, baseVerdict, hp, hm]
    | .ok false => simp [dispatched, baseEvents, selects, baseVerdict, hp, hm]
    | .ok true => simp [dispatched, baseEvents, selects, baseVerdict, hp, hm]

theorem dispatched_flatMap_baseEvents (root k path : Str) (l : MatcherMap) :
    dispatched (l.flatMap (baseEvents root k path)) =
      List.replicate (l.countP (selects root k path)) path := by
  induction l with
  | nil => simp [dispatched]
  | cons bm rest ih =>
    rw [List.flatMap_cons, dispatched_append, ih, dispatched_baseEvents]
    by_cases h : selects root k path bm = true
    · simp [List.countP_cons, h, List.replicate_succ]
    · simp [List.countP_cons, h]

theorem entryClean_fault (W : World) (m : MatcherMap) (root k : Str) (entry : WalkEntry)
    (hc : entryClean W m root k entry = true) (hh : handled entry = true)
    (l : MatcherMap) (hl : l.Perm m) :
    ∀ bm ∈ l, baseFault W root k entry.path bm = none := by
  intro bm hbm
  have hmem : bm ∈ m := hl.mem_iff.mp hbm
  simp only [handled, Bool.and_eq_true] at hh
  simp only [entryClean, Bool.and_eq_true, Bool.or_eq_true, List.all_eq_true] at hc
  rcases hc.2 with h | h
  · simp [hh.2] at h
  · simpa using h bm hmem

/-- The walk function on an entry that brings no failure: no error, one
document per selecting base for a handled directory. -/
theorem walkFn_clean (W : World) (m : MatcherMap) (root k : Str) (n : Nat) (entry : WalkEntry)
    (st : WalkState) (hfair : W.rangeFair) (hc : entryClean W m root k entry = true) :
    walkFn W m root k n entry st =
      (⟨st.manifests ++ entryDocs W m root k entry,
        st.trace ++ walkTrace W m root k n [entry]⟩, none) := by
  have herr : entry.err = none := by
    simp only [entryClean, Bool.and_eq_true, Option.isNone_iff_eq_none] at hc
    exact hc.1
  by_cases hd : entry.isDir = true
  · have hh : handled entry = true := by simp [handled, herr, hd]
    have hp := hfair n m
    simp only [walkFn, herr, hd, walkTrace, hh, entryDocs, hits]
    rw [rangeMatchers_clean W root k entry.path _ st
      (entryClean_fault W m root k entry hc hh _ hp), filter_flatMap_const, hp.countP_eq]
    simp
  · have hh : handled entry = false := by simp [handled, hd]
    simp [walkFn, herr, hd, walkTrace, hh, entryDocs, hits]

/-- A walk over entries that bring no failure ends without error; it has added
the documents of every entry in walk order and done the work of every handled
directory in walk order. -/
theorem walkLoop_clean (W : World) (m : MatcherMap) (root k : Str) (hfair : W.rangeFair) :
    ∀ (entries : List WalkEntry) (n : Nat) (st : WalkState),
      (∀ entry ∈ entries, entryClean W m root k entry = true) →
      walkLoop W m root k n entries st =
        (⟨st.manifests ++ entries.flatMap (entryDocs W m root k),
          st.trace ++ walkTrace W m root k n entries⟩, none) := by
  intro entries
  induction entries with
  | nil => intro n st _; simp [walkLoop, walkTrace]
  | cons entry rest ih =>
    intro n st h
    have hc := h entry (List.mem_cons_self _ _)
    simp only [walkLoop]
    rw [walkFn_clean W m root k n entry st hfair hc]
    simp only
    rw [ih (n + 1) _ (fun x hx => h x (List.mem_cons_of_mem _ hx))]
    simp [walkTrace, List.append_assoc]

theorem dispatched_walkTrace (W : World) (m : MatcherMap) (root k : Str) (hfair : W.rangeFair) :
    ∀ (entries : List WalkEntry) (n : Nat),
      dispatched (walkTrace W m root k n entries) =
        entries.flatMap (fun entry => List.replicate (hits m root k entry) entry.path) := by
  intro entries
  induction entries with
  | nil => intro n; simp [walkTrace, dispatched]
  | cons entry rest ih =>
    intro n
    rw [walkTrace, dispatched_append, ih (n + 1), List.flatMap_cons]
    congr 1
    by_cases hh : handled entry = true
    · simp only [hh, if_true, hits]
      rw [dispatched_flatMap_baseEvents, (hfair n m).countP_eq]
    · simp [hh, hits, dispatched]

/-! ## The whole run -/

theorem dispatched_gitRootLoop (W : World) (k : Str) :
    ∀ (fuel : Nat) (path : Str) (trace : List Event),
      dispatched (gitRootLoop W k fuel path trace).1 = dispatched trace := by
  intro fuel
  induction fuel with
  | zero => intro path trace; simp [gitRootLoop]
  | succ fuel ih =>
    intro path trace
    simp only [gitRootLoop]
    split
    · rfl
    · split
      · simp [dispatched_append, dispatched]
      · rw [ih]; simp [dispatched_append, dispatched]

theorem dispatched_getGitRootPath (W : World) (k : Str) :
    dispatched (getGitRootPath W k).1 = [] := by
  rw [getGitRootPath, dispatched_gitRootLoop]
  rfl

/-- A run whose walk brings no failure returns the documents of every walk
entry in walk order. -/
theorem runKustomizations_clean (W : World) (m : MatcherMap) (k root : Str)
    (hE : W.LookupEnv kustomizePluginConfigRootEnv = some k)
    (hG : (getGitRootPath W k).2 = .ok root) (hfair : W.rangeFair)
    (hclean : ∀ entry ∈ W.Walk root, entryClean W m root k entry = true) :
    runKustomizations W m =
      (.lookupEnv kustomizePluginConfigRootEnv :: (getGitRootPath W k).1 ++ [.walk root] ++
          walkTrace W m root k 0 (W.Walk root),
        .ok ((W.Walk root).flatMap (entryDocs W m root k))) := by
  have hG2 : getGitRootPath W k = ((getGitRootPath W k).1, .ok root) := by
    rw [← hG]
  simp only [runKustomizations, hE]
  rw [hG2]
  simp only
  rw [walkLoop_clean W m root k hfair _ 0 _ hclean]
  simp

theorem dispatched_runKustomizations_clean (W : World) (m : MatcherMap) (k root : Str)
    (hE : W.LookupEnv kustomizePluginConfigRootEnv = some k)
    (hG : (getGitRootPath W k).2 = .ok root) (hfair : W.rangeFair)
    (hclean : ∀ entry ∈ W.Walk root, entryClean W m root k entry = true) :
    dispatched (runKustomizations W m).1 =
      (W.Walk root).flatMap (fun entry => List.replicate (hits m root k entry) entry.path) := by
  rw [runKustomizations_clean W m k root hE hG hfair hclean]
  show dispatched (([Event.lookupEnv kustomizePluginConfigRootEnv] ++ (getGitRootPath W k).1 ++
    [Event.walk root]) ++ walkTrace W m root k 0 (W.Walk root)) = _
  rw [dispatched_append, dispatched_append, dispatched_append, dispatched_walkTrace W m root k hfair,
    dispatched_getGitRootPath]
  rfl

theorem writeManifests_buffer :
    ∀ (manifests : List Str) (out : Str),
      writeManifests bufferWriter manifests out =
        (out ++ manifests.flatMap (fun manifest => yamlSeparator ++ manifest), none) := by
  intro manifests
  induction manifests with
  | nil => intro out; simp [writeManifests]
  | cons manifest rest ih =>
    intro out
    simp only [writeManifests, bufferWriter]
    have := ih ((out ++ yamlSeparator) ++ manifest)
    simp only [bufferWriter] at this
    rw [this]
    simp [List.append_assoc]

/-- A generation whose walk brings no failure hands to the build every walk
entry once per hit and writes the documents of the entries in walk order, each
behind a separator. -/
theorem GenerateManifests_clean (W : World) (data out : Str) (kb : KustomizeBuild)
    (m : MatcherMap) (k root : Str)
    (hU : W.Unmarshal data = .ok kb) (hM : makePatternMatchers kb = .ok m)
    (hE : W.LookupEnv kustomizePluginConfigRootEnv = some k)
    (hG : (getGitRootPath W k).2 = .ok root) (hfair : W.rangeFair)
    (hclean : ∀ entry ∈ W.Walk root, entryClean W m root k entry = true) :
    dispatched (GenerateManifests W bufferWriter data out).1 =
        (W.Walk root).flatMap (fun entry => List.replicate (hits m root k entry) entry.path) ∧
      (GenerateManifests W bufferWriter data out).2 =
        (out ++ ((W.Walk root).flatMap (entryDocs W m root k)).flatMap
          (fun manifest => yamlSeparator ++ manifest), none) := by
  have hd := dispatched_runKustomizations_clean W m k root hE hG hfair hclean
  have hr := runKustomizations_clean W m k root hE hG hfair hclean
  have hg : GenerateManifests W bufferWriter data out =
      ((runKustomizations W m).1, out ++ ((W.Walk root).flatMap (entryDocs W m root k)).flatMap
          (fun manifest => yamlSeparator ++ manifest), none) := by
    simp only [GenerateManifests, hU, makeManifests, hM]
    rw [hr]
    simp only [writeManifests_buffer]
  rw [hg]
  exact ⟨hd, rfl⟩

/-! ## The matcher -/

/-- When every pattern can be evaluated on the path, the verdict carried
through the list is that of the last matching pattern, the incoming verdict if
none matches. -/
theorem matchesFrom_eq (file : Str) :
    ∀ (ps : List Pattern) (matched : Bool),
      (∀ p ∈ ps, ∃ b, p.match file = .ok b) →
      matchesFrom file matched ps =
        .ok (match lastMatching file ps with
          | some p => !p.exclusion
          | none => matched) := by
  intro ps
  induction ps with
  | nil => intro matched _; simp [matchesFrom, lastMatching]
  | cons p rest ih =>
    intro matched h
    obtain ⟨b, hb⟩ := h p (List.mem_cons_self _ _)
    have hrest := fun q hq => h q (List.mem_cons_of_mem _ hq)
    simp only [matchesFrom, hb, lastMatching]
    rw [ih _ hrest]
    cases hl : lastMatching file rest with
    | some q => simp
    | none => cases b <;> simp

theorem matchesFrom_ok (file : Str) :
    ∀ (ps : List Pattern) (matched v : Bool),
      matchesFrom file matched ps = .ok v → ∀ p ∈ ps, ∃ b, p.match file = .ok b := by
  intro ps
  induction ps with
  | nil => intro _ _ _ p hp; simp at hp
  | cons q rest ih =>
    intro matched v h p hp
    simp only [matchesFrom] at h
    match hq : q.match file with
    | .error e => simp [hq] at h
    | .ok b =>
      simp only [hq] at h
      rcases List.mem_cons.mp hp with rfl | hmem
      · exact ⟨b, hq⟩
      · exact ih _ v h p hmem

theorem Matches_ok_eq (pm : PatternMatcher) (file : Str) (v : Bool)
    (h : pm.Matches file = .ok v) : v = verdictOf (lastMatching file pm.patterns) := by
  have hall := matchesFrom_ok file pm.patterns false v h
  have := matchesFrom_eq file pm.patterns false hall
  simp only [PatternMatcher.Matches] at h
  rw [h] at this
  cases hl : lastMatching file pm.patterns with
  | some q => simp [hl, verdictOf] at this ⊢; exact this
  | none => simp [hl, verdictOf] at this ⊢; exact this

theorem compilePatterns_compiles :
    ∀ (globs : List Str) (acc : List Pattern) (pm : PatternMatcher),
      (∀ p ∈ acc, ∃ ts, compileGlob (p.cleanedPattern.length + 1) p.cleanedPattern = .ok ts) →
      compilePatterns acc globs = .ok pm →
      ∀ p ∈ pm.patterns,
        ∃ ts, compileGlob (p.cleanedPattern.length + 1) p.cleanedPattern = .ok ts := by
  intro globs
  induction globs with
  | nil =>
    intro acc pm hacc h
    simp only [compilePatterns, Except.ok.injEq] at h
    subst h
    exact hacc
  | cons g rest ih =>
    intro acc pm hacc h
    simp only [compilePatterns] at h
    split at h
    · exact ih acc pm hacc h
    · split at h
      · simp at h
      · split at h
        · simp at h
        · rename_i ts hts
          refine ih _ pm ?_ h
          intro p hp
          rcases List.mem_append.mp hp with hmem | hmem
          · exact hacc p hmem
          · simp only [List.mem_singleton] at hmem
            subst hmem
            exact ⟨ts, hts⟩

theorem New_match_total (globs : List Str) (pm : PatternMatcher) (h : New globs = .ok pm)
    (file : Str) : ∀ p ∈ pm.patterns, ∃ b, p.match file = .ok b := by
  intro p hp
  obtain ⟨ts, hts⟩ := compilePatterns_compiles globs [] pm (by simp) h p hp
  exact ⟨globMatch ts file, by simp [Pattern.match, hts, Except.map]⟩

/-! ## Failure and success of the walk -/

theorem rangeMatchers_none (W : World) (root k path : Str) :
    ∀ (l : MatcherMap) (st st2 : WalkState),
      rangeMatchers W root k path l st = (st2, none) →
      ∀ bm ∈ l, baseFault W root k path bm = none := by
  intro l
  induction l with
  | nil => intro _ _ _ bm hbm; simp at hbm
  | cons x rest ih =>
    intro st st2 h bm hbm
    rw [rangeMatchers_cons] at h
    match hx : baseFault W root k path x with
    | some e => simp [hx] at h
    | none =>
      simp only [hx] at h
      rcases List.mem_cons.mp hbm with rfl | hmem
      · exact hx
      · exact ih _ st2 h bm hmem

theorem walkFn_none (W : World) (m : MatcherMap) (root k : Str) (n : Nat) (entry : WalkEntry)
    (st st2 : WalkState) (hfair : W.rangeFair)
    (h : walkFn W m root k n entry st = (st2, none)) : entryClean W m root k entry = true := by
  simp only [walkFn] at h
  match herr : entry.err with
  | some e => simp [herr] at h
  | none =>
    simp only [herr] at h
    by_cases hd : entry.isDir = true
    · simp only [hd, Bool.not_true, Bool.false_eq_true, if_false] at h
      have hall := rangeMatchers_none W root k entry.path _ st st2 h
      simp only [entryClean, herr, Option.isNone_none, Bool.true_and, Bool.or_eq_true,
        List.all_eq_true]
      right
      intro bm hbm
      simp [hall bm ((hfair n m).mem_iff.mpr hbm)]
    · simp [entryClean, herr, hd]

theorem walkLoop_none (W : World) (m : MatcherMap) (root k : Str) (hfair : W.rangeFair) :
    ∀ (entries : List WalkEntry) (n : Nat) (st st2 : WalkState),
      walkLoop W m root k n entries st = (st2, none) →
      ∀ entry ∈ entries, entryClean W m root k entry = true := by
  intro entries
  induction entries with
  | nil => intro _ _ _ _ entry he; simp at he
  | cons x rest ih =>
    intro n st st2 h entry he
    simp only [walkLoop] at h
    match hx : walkFn W m root k n x st with
    | (st1, some e) => simp [hx] at h
    | (st1, none) =>
      simp only [hx] at h
      rcases List.mem_cons.mp he with rfl | hmem
      · exact walkFn_none W m root k n _ st st1 hfair hx
      · exact ih (n + 1) st1 st2 h entry hmem

theorem walkLoop_append (W : World) (m : MatcherMap) (root k : Str) :
    ∀ (es1 es2 : List WalkEntry) (n : Nat) (st : WalkState),
      walkLoop W m root k n (es1 ++ es2) st =
        match walkLoop W m root k n es1 st with
        | (st1, some e) => (st1, some e)
        | (st1, none) => walkLoop W m root k (n + es1.length) es2 st1 := by
  intro es1
  induction es1 with
  | nil => intro es2 n st; simp [walkLoop]
  | cons x rest ih =>
    intro es2 n st
    simp only [List.cons_append, walkLoop]
    match hx : walkFn W m root k n x st with
    | (st1, some e) => simp
    | (st1, none) =>
      simp only
      have := ih es2 (n + 1) st1
      rw [show rest.append es2 = rest ++ es2 from rfl, this]
      simp [Nat.add_assoc, Nat.add_comm 1]

theorem first_fault {α : Type} (p : α → Prop) [DecidablePred p] :
    ∀ (l : List α), (∃ x ∈ l, p x) →
      ∃ l1 x l2, l = l1 ++ x :: l2 ∧ p x ∧ ∀ y ∈ l1, ¬ p y := by
  intro l
  induction l with
  | nil => intro ⟨x, hx, _⟩; simp at hx
  | cons a rest ih =>
    intro ⟨x, hx, hpx⟩
    by_cases ha : p a
    · exact ⟨[], a, rest, rfl, ha, by simp⟩
    · have hrest : ∃ y ∈ rest, p y := by
        rcases List.mem_cons.mp hx with rfl | hmem
        · exact absurd hpx ha
        · exact ⟨x, hmem, hpx⟩
      obtain ⟨l1, y, l2, hl, hy, hl1⟩ := ih hrest
      refine ⟨a :: l1, y, l2, by simp [hl], hy, ?_⟩
      intro z hz
      rcases List.mem_cons.mp hz with rfl | hmem
      · exact ha
      · exact hl1 z hmem

/-! ## Path translation -/

/-- Under a root that does not itself end the path, the git base returns what
follows the root and one more character: the path relative to the root when
that character is the separator after the root. -/
theorem parsePath_git_beneath (root k rest : Str) :
    git.parsePath root k root = .ok ".".toList ∧
      git.parsePath root k (root ++ '/' :: rest) = .ok rest := by
  constructor
  · simp [directoryBase.parsePath]
  · have hne : root ++ '/' :: rest ≠ root := by
      intro h
      have := congrArg List.length h
      simp at this
    have hd : List.drop (root.length + 1) (root ++ '/' :: rest) = rest := by
      rw [show root ++ '/' :: rest = (root ++ ['/']) ++ rest by simp]
      exact List.drop_left' (by simp)
    simp only [directoryBase.parsePath, if_true, hne, if_false, sliceFrom, hd]
    simp

/-! ## Double dispatch, the root of the file system, and the last matching pattern -/

/-- Claim C1, at an input where it fails.  With one git-base entry `a/api` and
one pwd-base entry `../a/api`, both matchers accept the directory `/R/a/api`
of the test tree: the build is run on it twice and its document is written
twice, whichever base the `range` over the matcher map takes first. -/
theorem overlap_dispatched_twice :
    dispatched (GenerateManifests (treeWorld overlapBuild inOrder) bufferWriter [] []).1 =
        ["/R/a/api".toList, "/R/a/api".toList] ∧
      (GenerateManifests (treeWorld overlapBuild inOrder) bufferWriter [] []).2 =
        ("---\nkind: ConfigMap\nmetadata:\n  name: a-api\n---\nkind: ConfigMap\nmetadata:\n  name: a-api\n".toList,
          none) ∧
      dispatched (GenerateManifests (treeWorld overlapBuild reversed) bufferWriter [] []).1 =
        ["/R/a/api".toList, "/R/a/api".toList] ∧
      (GenerateManifests (treeWorld overlapBuild reversed) bufferWriter [] []).2 =
        ("---\nkind: ConfigMap\nmetadata:\n  name: a-api\n---\nkind: ConfigMap\nmetadata:\n  name: a-api\n".toList,
          none) := by
  decide

/-- Claim C2, at an input where it fails.  For a repository at the root of the
file system the scan for the repository root returns `/`, and the git base then
translates `/a/api` to `/api` instead of `a/api` (and `/a` to the empty string):
the separator is skipped a second time.  A git-base glob `a/api` therefore
selects nothing there, while it selects `/R/a/api` under the root `/R`. -/
theorem parsePath_git_at_filesystem_root :
    (getGitRootPath (rootWorld gitApiBuild) "/k8s".toList).2 = .ok "/".toList ∧
      git.parsePath "/".toList "/k8s".toList "/a/api".toList = .ok "/api".toList ∧
      git.parsePath "/".toList "/k8s".toList "/a".toList = .ok [] ∧
      dispatched (GenerateManifests (rootWorld gitApiBuild) bufferWriter [] []).1 = [] ∧
      git.parsePath "/R".toList "/R/k8s".toList "/R/a/api".toList = .ok "a/api".toList ∧
      dispatched (GenerateManifests (treeWorld gitApiBuild inOrder) bufferWriter [] []).1 =
        ["/R/a/api".toList] := by
  decide

/-- Claim C3.  For every pattern list from which a matcher is built and every
path, the matcher returns a verdict, and the verdict is decided by the last
pattern of the list that matches the path: true when that pattern is a plain
inclusion, false when it is a negation, false when no pattern matches.  Hence
when a plain pattern X and a negation Y both match a path, the list X, Y gives
false and the list Y, X gives true. -/
theorem Matches_last_matching_pattern_decides (globs : List Str) (pm : PatternMatcher)
    (file : Str) (h : New globs = .ok pm) :
    pm.Matches file = .ok (verdictOf (lastMatching file pm.patterns)) ∧
      (∀ p, lastMatching file pm.patterns = some p →
        pm.Matches file = .ok (!p.exclusion)) ∧
      (∀ X Y : Pattern, X.exclusion = false → Y.exclusion = true →
        X.match file = .ok true → Y.match file = .ok true →
        (pm.patterns = [X, Y] → pm.Matches file = .ok false) ∧
        (pm.patterns = [Y, X] → pm.Matches file = .ok true)) := by
  have hall := New_match_total globs pm h file
  have hm := matchesFrom_eq file pm.patterns false hall
  have h1 : pm.Matches file = .ok (verdictOf (lastMatching file pm.patterns)) := by
    rw [PatternMatcher.Matches, hm]
    cases lastMatching file pm.patterns <;> rfl
  refine ⟨h1, ?_, ?_⟩
  · intro p hp
    rw [h1, hp]
    rfl
  · intro X Y hX hY hmX hmY
    constructor
    · intro hps
      rw [h1, hps]
      simp [lastMatching, hmX, hmY, verdictOf, hY]
    · intro hps
      rw [h1, hps]
      simp [lastMatching, hmX, hmY, verdictOf, hX]

theorem mem_dispatched (path : Str) (trace : List Event) :
    path ∈ dispatched trace ↔ Event.run path ∈ trace := by
  simp only [dispatched, List.mem_filterMap]
  constructor
  · rintro ⟨ev, hev, h⟩
    cases ev <;> simp at h
    subst h
    exact hev
  · intro h
    exact ⟨_, h, rfl⟩

theorem mem_walkTrace (W : World) (m : MatcherMap) (root k : Str) (hfair : W.rangeFair) :
    ∀ (entries : List WalkEntry) (n : Nat) (entry : WalkEntry),
      entry ∈ entries → handled entry = true → ∀ bm ∈ m,
      ∀ ev ∈ baseEvents root k entry.path bm, ev ∈ walkTrace W m root k n entries := by
  intro entries
  induction entries with
  | nil => intro _ entry he; simp at he
  | cons x rest ih =>
    intro n entry he hh bm hbm ev hev
    simp only [walkTrace, List.mem_append]
    rcases List.mem_cons.mp he with rfl | hmem
    · left
      simp only [hh, if_true, List.mem_flatMap]
      exact ⟨bm, (hfair n m).mem_iff.mpr hbm, hev⟩
    · right
      exact ih (n + 1) entry hmem hh bm hbm ev hev

theorem hits_pos_iff (m : MatcherMap) (root k : Str) (entry : WalkEntry) :
    hits m root k entry ≠ 0 ↔
      handled entry = true ∧ ∃ bm ∈ m, selects root k entry.path bm = true := by
  unfold hits
  by_cases hh : handled entry = true
  · simp only [hh, if_true, true_and]
    rw [← Nat.pos_iff_ne_zero, List.countP_pos_iff]
  · simp [hh]

/-- A generation on the test tree, whatever the order of the `range`: what is
handed to the build and what is written follow from the hits of the entries. -/
theorem tree_generate (kb : KustomizeBuild) (order : Nat → MatcherMap → MatcherMap)
    (hfair : ∀ n m, (order n m).Perm m) (data out : Str)
    (hM : makePatternMatchers kb = .ok (matchersOf kb))
    (hclean : (treeWalk.all fun entry =>
      entryClean (treeWorld kb inOrder) (matchersOf kb) "/R".toList "/R/k8s".toList entry) = true) :
    dispatched (GenerateManifests (treeWorld kb order) bufferWriter data out).1 =
        treeWalk.flatMap (fun entry =>
          List.replicate (hits (matchersOf kb) "/R".toList "/R/k8s".toList entry) entry.path) ∧
      (GenerateManifests (treeWorld kb order) bufferWriter data out).2 =
        (out ++ (treeWalk.flatMap (entryDocs (treeWorld kb inOrder) (matchersOf kb)
          "/R".toList "/R/k8s".toList)).flatMap (fun manifest => yamlSeparator ++ manifest),
          none) := by
  exact GenerateManifests_clean (treeWorld kb order) data out kb (matchersOf kb)
    "/R/k8s".toList "/R".toList rfl hM rfl rfl hfair
      (fun entry he => List.all_eq_true.mp hclean entry he)

/-- Claim C4.  In a run whose walk meets no failure, every directory of the
walk is translated and tested for every base, whatever became of the directories
above it, and its verdict comes from its own translated path and the pattern
list alone: whenever the last pattern of some base that matches the
directory's own translated path is an inclusion, the directory is handed to the
build.  Nothing is assumed about its parent, which may be excluded. -/
theorem directory_judged_on_its_own_path (W : World) (m : MatcherMap) (k root : Str)
    (hE : W.LookupEnv kustomizePluginConfigRootEnv = some k)
    (hG : (getGitRootPath W k).2 = .ok root) (hfair : W.rangeFair)
    (hclean : ∀ entry ∈ W.Walk root, entryClean W m root k entry = true) :
    ∀ entry ∈ W.Walk root, handled entry = true → ∀ bm ∈ m,
      ∃ matchPath, bm.1.parsePath root k entry.path = .ok matchPath ∧
        Event.test bm.1 matchPath ∈ (runKustomizations W m).1 ∧
        bm.2.Matches matchPath = .ok (verdictOf (lastMatching matchPath bm.2.patterns)) ∧
        (∀ p, lastMatching matchPath bm.2.patterns = some p → p.exclusion = false →
          entry.path ∈ dispatched (runKustomizations W m).1) := by
  intro entry he hh bm hbm
  have hrun := runKustomizations_clean W m k root hE hG hfair hclean
  have hnf := entryClean_fault W m root k entry (hclean entry he) hh m (List.Perm.refl m) bm hbm
  have htr : ∀ ev ∈ baseEvents root k entry.path bm, ev ∈ (runKustomizations W m).1 := by
    intro ev hev
    rw [hrun]
    exact List.mem_append_right _ (mem_walkTrace W m root k hfair _ 0 entry he hh bm hbm ev hev)
  match hp : bm.1.parsePath root k entry.path with
  | .error e => simp [baseFault, baseVerdict, hp] at hnf
  | .ok mp =>
    match hm : bm.2.Matches mp with
    | .error e => simp [baseFault, baseVerdict, hp, hm] at hnf
    | .ok v =>
      have hv := Matches_ok_eq bm.2 mp v hm
      refine ⟨mp, rfl, htr _ (by simp [baseEvents, hp]), by rw [← hv]; exact hm, ?_⟩
      intro p hl hex
      rw [hl] at hv
      simp only [verdictOf, hex, Bool.not_false] at hv
      subst hv
      rw [mem_dispatched]
      exact htr _ (by simp [baseEvents, hp, hm])

/-- Claim C6.  In a run whose walk meets no failure, a path is handed to the
build if and only if it is a directory of the walk that at least one base
selects: the bases compose by union.  On the test tree, with working directory
`/R/k8s`, a git entry `a/api` together with a pwd entry `../b/api` hands exactly
`/R/a/api` and `/R/b/api` to the build, whatever the order of the `range`. -/
theorem dispatch_is_union_of_bases :
    (∀ (W : World) (m : MatcherMap) (k root : Str),
      W.LookupEnv kustomizePluginConfigRootEnv = some k →
      (getGitRootPath W k).2 = .ok root → W.rangeFair →
      (∀ entry ∈ W.Walk root, entryClean W m root k entry = true) →
      ∀ path, path ∈ dispatched (runKustomizations W m).1 ↔
        ∃ entry ∈ W.Walk root, handled entry = true ∧ entry.path = path ∧
          ∃ bm ∈ m, selects root k path bm = true) ∧
    (∀ (order : Nat → MatcherMap → MatcherMap), (∀ n m, (order n m).Perm m) →
      ∀ data out : Str,
        dispatched (GenerateManifests (treeWorld multiBaseBuild order) bufferWriter data out).1 =
          ["/R/a/api".toList, "/R/b/api".toList]) := by
  constructor
  · intro W m k root hE hG hfair hclean path
    rw [dispatched_runKustomizations_clean W m k root hE hG hfair hclean]
    simp only [List.mem_flatMap, List.mem_replicate]
    constructor
    · rintro ⟨entry, he, hn, rfl⟩
      obtain ⟨hh, hs⟩ := (hits_pos_iff m root k entry).mp hn
      exact ⟨entry, he, hh, rfl, hs⟩
    · rintro ⟨entry, he, hh, rfl, hs⟩
      exact ⟨entry, he, (hits_pos_iff m root k entry).mpr ⟨hh, hs⟩, rfl⟩
  · intro order hfair data out
    rw [(tree_generate multiBaseBuild order hfair data out (by decide) (by decide)).1]
    decide

/-- Claim C7.  On the test tree (directories `/R`, `/R/a`, `/R/a/api`,
`/R/a/app`, `/R/b`, `/R/b/api` and the version-control marker, working directory
`/R/k8s`), whatever the order of the `range`: the one git-base entry `a/**`,
`!a/app`, `b/api` hands exactly `/R/a/api` and `/R/b/api` to the build, and so
does the one pwd-base entry `../a/**`, `!../a/app`, `../b/api`; in both cases the
two documents are written in that order and no error is returned. -/
theorem test_tree_single_base (order : Nat → MatcherMap → MatcherMap)
    (hfair : ∀ n m, (order n m).Perm m) (data : Str) :
    dispatched (GenerateManifests (treeWorld gitBaseBuild order) bufferWriter data []).1 =
        ["/R/a/api".toList, "/R/b/api".toList] ∧
      (GenerateManifests (treeWorld gitBaseBuild order) bufferWriter data []).2 =
        ("---\nkind: ConfigMap\nmetadata:\n  name: a-api\n---\nkind: ConfigMap\nmetadata:\n  name: b-api\n".toList,
          none) ∧
      dispatched (GenerateManifests (treeWorld pwdBaseBuild order) bufferWriter data []).1 =
        ["/R/a/api".toList, "/R/b/api".toList] ∧
      (GenerateManifests (treeWorld pwdBaseBuild order) bufferWriter data []).2 =
        ("---\nkind: ConfigMap\nmetadata:\n  name: a-api\n---\nkind: ConfigMap\nmetadata:\n  name: b-api\n".toList,
          none) := by
  have hg := tree_generate gitBaseBuild order hfair data [] (by decide) (by decide)
  have hp := tree_generate pwdBaseBuild order hfair data [] (by decide) (by decide)
  refine ⟨?_, ?_, ?_, ?_⟩
  · rw [hg.1]; decide
  · rw [hg.2]; decide
  · rw [hp.1]; decide
  · rw [hp.2]; decide

/-! ## The pattern text -/

theorem splitOn_append_sep (sep : Char) :
    ∀ (g rest : Str), sep ∉ g → splitOn sep (g ++ sep :: rest) = g :: splitOn sep rest := by
  intro g
  induction g with
  | nil => intro rest _; simp [splitOn]
  | cons c cs ih =>
    intro rest h
    have hc : c ≠ sep := fun hc => h (by simp [hc])
    have hcs : sep ∉ cs := fun hm => h (List.mem_cons_of_mem _ hm)
    have hi := ih rest hcs
    simp only [List.cons_append, splitOn, hc, if_false]
    rw [show cs.append (sep :: rest) = cs ++ sep :: rest from rfl, hi]

theorem splitOn_lines (gs : List Str) (h : ∀ g ∈ gs, '\n' ∉ g) :
    splitOn '\n' (gs.flatMap (fun glob => glob ++ "\n".toList)) = gs ++ [[]] := by
  induction gs with
  | nil => simp [splitOn]
  | cons g rest ih =>
    rw [List.flatMap_cons]
    have : g ++ "\n".toList ++ rest.flatMap (fun glob => glob ++ "\n".toList) =
        g ++ '\n' :: rest.flatMap (fun glob => glob ++ "\n".toList) := by
      simp
    rw [this, splitOn_append_sep '\n' g _ (h g (List.mem_cons_self _ _)),
      ih (fun x hx => h x (List.mem_cons_of_mem _ hx))]
    rfl

theorem scanLines_lines (gs : List Str) (h : ∀ g ∈ gs, plainGlob g) :
    scanLines (gs.flatMap (fun glob => glob ++ "\n".toList)) = gs := by
  simp only [scanLines]
  rw [splitOn_lines gs (fun g hg => (h g hg).1)]
  have hl : (gs ++ [([] : Str)]).getLast? = some [] := by simp
  simp only [hl, if_true, List.dropLast_concat]
  conv_rhs => rw [← List.map_id gs]
  exact List.map_congr_left (fun g hg => (h g hg).2.1)

theorem filterMap_readPattern (gs : List Str) (h : ∀ g ∈ gs, plainGlob g) :
    gs.filterMap readPattern = gs := by
  induction gs with
  | nil => rfl
  | cons g rest ih =>
    rw [List.filterMap_cons, (h g (List.mem_cons_self _ _)).2.2.2]
    simp only
    rw [ih (fun x hx => h x (List.mem_cons_of_mem _ hx))]

theorem ReadAll_lines (gs : List Str) (h : ∀ g ∈ gs, plainGlob g) :
    ReadAll (gs.flatMap (fun glob => glob ++ "\n".toList)) = .ok gs := by
  simp only [ReadAll]
  rw [scanLines_lines gs h]
  cases gs with
  | nil => rfl
  | cons g rest =>
    have hg := (h g (List.mem_cons_self _ _)).2.2.1
    simp only [hg, if_false]
    rw [filterMap_readPattern _ h]

theorem patternText_ok (b : directoryBase) (base : Str) (hb : b.string = .ok base) :
    ∀ (dirs : List Directory),
      patternText b dirs = .ok ((globsOf base dirs).flatMap (fun glob => glob ++ "\n".toList)) := by
  intro dirs
  induction dirs with
  | nil => rfl
  | cons d rest ih =>
    simp only [patternText, hb, ih]
    by_cases hd : d.Base = base
    · simp [globsOf, List.filter_cons, hd]
    · simp [globsOf, List.filter_cons, hd]

theorem handled_iff (entry : WalkEntry) :
    handled entry = true ↔ entry.err = none ∧ entry.isDir = true := by
  simp [handled]

/-- The walk function on a handled directory for which some base fails: it
stops at the first such base of the `range` and returns its failure. -/
theorem walkFn_fault (W : World) (m : MatcherMap) (root k : Str) (n : Nat) (entry : WalkEntry)
    (st : WalkState) (hfair : W.rangeFair) (hh : handled entry = true)
    (hf : ∃ bm ∈ m, baseFault W root k entry.path bm ≠ none) :
    ∃ l1 bm l2 e, W.rangeOrder n m = l1 ++ bm :: l2 ∧
      (∀ x ∈ l1, baseFault W root k entry.path x = none) ∧
      baseFault W root k entry.path bm = some e ∧
      walkFn W m root k n entry st =
        (⟨st.manifests ++ (l1.filter (selects root k entry.path)).flatMap
            (fun _ => built W entry.path),
          st.trace ++ (l1 ++ [bm]).flatMap (baseEvents root k entry.path)⟩, some e) := by
  obtain ⟨herr, hd⟩ := (handled_iff entry).mp hh
  have hex : ∃ bm ∈ W.rangeOrder n m, baseFault W root k entry.path bm ≠ none := by
    obtain ⟨bm, hbm, hne⟩ := hf
    exact ⟨bm, (hfair n m).mem_iff.mpr hbm, hne⟩
  obtain ⟨l1, bm, l2, hl, hbm, hl1⟩ :=
    first_fault (fun bm => baseFault W root k entry.path bm ≠ none) _ hex
  obtain ⟨e, he⟩ := Option.ne_none_iff_exists'.mp hbm
  have hclean1 : ∀ x ∈ l1, baseFault W root k entry.path x = none := by
    intro x hx
    exact not_not.mp (hl1 x hx)
  refine ⟨l1, bm, l2, e, hl, hclean1, he, ?_⟩
  simp only [walkFn, herr, hd, Bool.not_true, Bool.false_eq_true, if_false]
  rw [hl, rangeMatchers_fault W root k entry.path l1 bm l2 st e hclean1 he]

/-- Claim C5, at an input where it fails.  A glob that holds a line break is
read back as two patterns: the pattern list of the git base for the one glob
`a`, line break, `b` is `a`, `b`, which is not the list of the globs. -/
theorem glob_with_line_break_is_split :
    globsOf "git".toList lineBreakBuild.Spec.Directories = ["a\nb".toList] ∧
      patternList git lineBreakBuild = .ok ["a".toList, "b".toList] ∧
      patternList git lineBreakBuild ≠
        .ok (globsOf "git".toList lineBreakBuild.Spec.Directories) := by
  decide

/-- Claim C5, amended.  For each base, the text from which its matcher is
compiled is the concatenation, in specification order, of every glob of the
entries of that base followed by a newline; and when each of these globs is one
plain line (no line break inside, no carriage return at the end, no byte-order
mark at the head, left unchanged by the reader's handling of a line), the
pattern list is exactly the concatenation of the glob lists of those entries, in
order and unchanged, and it is the list the matcher is built from. -/
theorem pattern_list_is_concatenation (b : directoryBase) (base : Str) (kb : KustomizeBuild)
    (hb : b.string = .ok base) :
    patternText b kb.Spec.Directories =
        .ok ((globsOf base kb.Spec.Directories).flatMap (fun glob => glob ++ "\n".toList)) ∧
      ((∀ g ∈ globsOf base kb.Spec.Directories, plainGlob g) →
        patternList b kb = .ok (globsOf base kb.Spec.Directories) ∧
          makePatternMatcher b kb = New (globsOf base kb.Spec.Directories)) := by
  have ht := patternText_ok b base hb kb.Spec.Directories
  refine ⟨ht, ?_⟩
  intro hplain
  have hr := ReadAll_lines _ hplain
  refine ⟨?_, ?_⟩
  · simp only [patternList, ht, hr]
  · simp only [makePatternMatcher, ht, hr]

theorem pattern_list_is_concatenation_witness :
    patternList git gitBaseBuild = .ok ["a/**".toList, "!a/app".toList, "b/api".toList] :=
  ((pattern_list_is_concatenation git "git".toList gitBaseBuild (by decide)).2 (by decide)).1

/-- Claim C8.  When, for a directory of the walk, the path translation, the
matching, the build or its serialisation fails for some base, and nothing failed
before it, the walk stops there: the record of the run ends with the work of the
bases of that directory up to the first failing one, whatever the walk would
have visited next; `runKustomizations` returns that failure and no manifests,
and `GenerateManifests` returns it with the writer untouched, also when
directories before it were built. -/
theorem failure_stops_the_walk {σ : Type} (W : World) (wr : Writer σ) (data : Str) (out : σ)
    (kb : KustomizeBuild) (m : MatcherMap) (k root : Str)
    (pre : List WalkEntry) (entry : WalkEntry) (post : List WalkEntry)
    (hU : W.Unmarshal data = .ok kb) (hM : makePatternMatchers kb = .ok m)
    (hE : W.LookupEnv kustomizePluginConfigRootEnv = some k)
    (hG : (getGitRootPath W k).2 = .ok root) (hfair : W.rangeFair)
    (hW : W.Walk root = pre ++ entry :: post)
    (hpre : ∀ e ∈ pre, entryClean W m root k e = true)
    (hh : handled entry = true)
    (hf : ∃ bm ∈ m, baseFault W root k entry.path bm ≠ none) :
    ∃ l1 bm l2 e, W.rangeOrder pre.length m = l1 ++ bm :: l2 ∧
      (∀ x ∈ l1, baseFault W root k entry.path x = none) ∧
      baseFault W root k entry.path bm = some e ∧
      runKustomizations W m =
        (.lookupEnv kustomizePluginConfigRootEnv :: (getGitRootPath W k).1 ++ [.walk root] ++
            walkTrace W m root k 0 pre ++ (l1 ++ [bm]).flatMap (baseEvents root k entry.path),
          .error e) ∧
      GenerateManifests W wr data out =
        (.lookupEnv kustomizePluginConfigRootEnv :: (getGitRootPath W k).1 ++ [.walk root] ++
            walkTrace W m root k 0 pre ++ (l1 ++ [bm]).flatMap (baseEvents root k entry.path),
          out, some e) := by
  have hG2 : getGitRootPath W k = ((getGitRootPath W k).1, .ok root) := by
    rw [← hG]
  have hrun : ∀ st0 : WalkState, ∃ l1 bm l2 e, W.rangeOrder pre.length m = l1 ++ bm :: l2 ∧
      (∀ x ∈ l1, baseFault W root k entry.path x = none) ∧
      baseFault W root k entry.path bm = some e ∧
      ((walkLoop W m root k 0 (W.Walk root) st0).1.trace =
        st0.trace ++ walkTrace W m root k 0 pre ++
          (l1 ++ [bm]).flatMap (baseEvents root k entry.path)) ∧
      (walkLoop W m root k 0 (W.Walk root) st0).2 = some e := by
    intro st0
    obtain ⟨l1, bm, l2, e, hl, hl1, he, hfn⟩ :=
      walkFn_fault W m root k pre.length entry
        ⟨st0.manifests ++ pre.flatMap (entryDocs W m root k),
          st0.trace ++ walkTrace W m root k 0 pre⟩ hfair hh hf
    refine ⟨l1, bm, l2, e, hl, hl1, he, ?_⟩
    rw [hW, walkLoop_append, walkLoop_clean W m root k hfair pre 0 st0 hpre]
    simp [walkLoop, hfn]
  obtain ⟨l1, bm, l2, e, hl, hl1, he, htrace, herr⟩ :=
    hrun ⟨[], .lookupEnv kustomizePluginConfigRootEnv :: (getGitRootPath W k).1 ++ [.walk root]⟩
  have hres : runKustomizations W m =
      (.lookupEnv kustomizePluginConfigRootEnv :: (getGitRootPath W k).1 ++ [.walk root] ++
          walkTrace W m root k 0 pre ++ (l1 ++ [bm]).flatMap (baseEvents root k entry.path),
        .error e) := by
    simp only [runKustomizations, hE]
    rw [hG2]
    simp only
    generalize hwl : walkLoop W m root k 0 (W.Walk root)
      ⟨[], .lookupEnv kustomizePluginConfigRootEnv :: (getGitRootPath W k).1 ++ [.walk root]⟩ = r
        at htrace herr
    obtain ⟨st, err⟩ := r
    simp only at htrace herr
    subst herr
    simp only [htrace]
  refine ⟨l1, bm, l2, e, hl, hl1, he, hres, ?_⟩
  simp only [GenerateManifests, hU, makeManifests, hM, hres]

/-- Claim C9.  The manifests that `runKustomizations` returns are the documents
of the walk entries in walk order: those of an earlier entry all come before
those of a later one, so that for every cut of the walk in two the list is the
documents of the first part followed by the documents of the second. -/
theorem manifests_in_walk_order (W : World) (m : MatcherMap) (k root : Str) (ms : List Str)
    (hE : W.LookupEnv kustomizePluginConfigRootEnv = some k)
    (hG : (getGitRootPath W k).2 = .ok root) (hfair : W.rangeFair)
    (hok : (runKustomizations W m).2 = .ok ms) :
    ms = (W.Walk root).flatMap (entryDocs W m root k) ∧
      ∀ es1 es2, W.Walk root = es1 ++ es2 →
        ms = es1.flatMap (entryDocs W m root k) ++ es2.flatMap (entryDocs W m root k) := by
  have hG2 : getGitRootPath W k = ((getGitRootPath W k).1, .ok root) := by
    rw [← hG]
  have hclean : ∀ entry ∈ W.Walk root, entryClean W m root k entry = true := by
    simp only [runKustomizations, hE] at hok
    rw [hG2] at hok
    simp only at hok
    generalize hwl : walkLoop W m root k 0 (W.Walk root)
      ⟨[], .lookupEnv kustomizePluginConfigRootEnv :: (getGitRootPath W k).1 ++ [.walk root]⟩ = r
        at hok
    obtain ⟨st, err⟩ := r
    cases err with
    | some e => simp at hok
    | none => exact walkLoop_none W m root k hfair _ 0 _ st hwl
  have hrun := runKustomizations_clean W m k root hE hG hfair hclean
  rw [hrun] at hok
  simp only [Except.ok.injEq] at hok
  refine ⟨hok.symm, ?_⟩
  intro es1 es2 hsplit
  rw [← hok, hsplit, List.flatMap_append]

theorem writeManifests_view {σ : Type} (wr : Writer σ) (view : σ → Str)
    (hview : ∀ s b s2, wr.Write s b = (s2, none) → view s2 = view s ++ b) :
    ∀ (manifests : List Str) (o o2 : σ),
      writeManifests wr manifests o = (o2, none) →
      view o2 = view o ++ manifests.flatMap (fun manifest => yamlSeparator ++ manifest) := by
  intro manifests
  induction manifests with
  | nil =>
    intro o o2 h
    simp only [writeManifests, Prod.mk.injEq, and_true] at h
    simp [h]
  | cons manifest rest ih =>
    intro o o2 h
    simp only [writeManifests] at h
    match h1 : wr.Write o yamlSeparator with
    | (s1, some e) => simp [h1] at h
    | (s1, none) =>
      simp only [h1] at h
      match h2 : wr.Write s1 manifest with
      | (s2, some e) => simp [h2] at h
      | (s2, none) =>
        simp only [h2] at h
        rw [ih s2 o2 h, hview _ _ _ h2, hview _ _ _ h1]
        simp [List.append_assoc]

/-- Claim C10.  With the manifests of a run at hand, `GenerateManifests` writes
to a buffer exactly the concatenation, in list order, of the separator line
followed by each manifest, and returns nil: one separator right before each
document and none after the last.  For an empty list no writer is written to
and nil is returned.  For any writer whose accepted writes append to what it
holds, a generation that returns nil has appended exactly that concatenation. -/
theorem GenerateManifests_writes_separated_documents (W : World) (data out : Str)
    (kb : KustomizeBuild) (trace : List Event) (ms : List Str)
    (hU : W.Unmarshal data = .ok kb) (hM : makeManifests W kb = (trace, .ok ms)) :
    GenerateManifests W bufferWriter data out =
        (trace, out ++ ms.flatMap (fun manifest => yamlSeparator ++ manifest), none) ∧
      (ms = [] → ∀ (σ : Type) (wr : Writer σ) (o : σ),
        GenerateManifests W wr data o = (trace, o, none)) ∧
      (∀ (σ : Type) (wr : Writer σ) (view : σ → Str),
        (∀ s b s2, wr.Write s b = (s2, none) → view s2 = view s ++ b) →
        ∀ o o2 tr, GenerateManifests W wr data o = (tr, o2, none) →
          view o2 = view o ++ ms.flatMap (fun manifest => yamlSeparator ++ manifest)) := by
  refine ⟨?_, ?_, ?_⟩
  · simp only [GenerateManifests, hU, hM, writeManifests_buffer]
  · intro hms σ wr o
    subst hms
    simp only [GenerateManifests, hU, hM, writeManifests]
  · intro σ wr view hview o o2 tr h
    simp only [GenerateManifests, hU, hM] at h
    generalize hw : writeManifests wr ms o = r at h
    obtain ⟨o3, err⟩ := r
    simp only [Prod.mk.injEq] at h
    obtain ⟨_, ho, herr⟩ := h
    subst ho herr
    exact writeManifests_view wr view hview ms o o3 hw

theorem GenerateManifests_writes_separated_documents_witness :
    GenerateManifests (treeWorld gitBaseBuild inOrder) bufferWriter [] [] =
      ((makeManifests (treeWorld gitBaseBuild inOrder) gitBaseBuild).1,
        "---\nkind: ConfigMap\nmetadata:\n  name: a-api\n---\nkind: ConfigMap\nmetadata:\n  name: b-api\n".toList,
        none) :=
  (GenerateManifests_writes_separated_documents (treeWorld gitBaseBuild inOrder) [] []
    gitBaseBuild (makeManifests (treeWorld gitBaseBuild inOrder) gitBaseBuild).1
    ["kind: ConfigMap\nmetadata:\n  name: a-api\n".toList,
      "kind: ConfigMap\nmetadata:\n  name: b-api\n".toList] rfl (by decide)).1

theorem Matches_last_matching_pattern_decides_witness :
    New ["a/**".toList, "!a/app".toList] = .ok appMatcher ∧
      appMatcher.Matches "a/app".toList = .ok false ∧
      appMatcher.Matches "a/api".toList = .ok true := by
  have h : New ["a/**".toList, "!a/app".toList] = .ok appMatcher := by decide
  have h1 := (Matches_last_matching_pattern_decides _ appMatcher "a/app".toList h).1
  have h2 := (Matches_last_matching_pattern_decides _ appMatcher "a/api".toList h).1
  exact ⟨h, h1.trans (by decide), h2.trans (by decide)⟩

theorem directory_judged_on_its_own_path_witness :
    "/R/a/api".toList ∈
      dispatched (runKustomizations (treeWorld gitBaseBuild inOrder)
        (matchersOf gitBaseBuild)).1 := by
  obtain ⟨mp, hp, _, _, hd⟩ :=
    directory_judged_on_its_own_path (treeWorld gitBaseBuild inOrder) (matchersOf gitBaseBuild)
      "/R/k8s".toList "/R".toList rfl rfl (fun _ _ => List.Perm.refl _) (by decide)
      ⟨"/R/a/api".toList, true, none⟩ (by decide) rfl
      (git, ⟨[⟨"a/**".toList, ["a".toList, "**".toList], false⟩,
        ⟨"a/app".toList, ["a".toList, "app".toList], true⟩,
        ⟨"b/api".toList, ["b".toList, "api".toList], false⟩]⟩) (by decide)
  have hmp : mp = "a/api".toList := by
    have : git.parsePath "/R".toList "/R/k8s".toList "/R/a/api".toList = .ok "a/api".toList := by
      decide
    rw [this] at hp
    exact (Except.ok.inj hp).symm
  subst hmp
  exact hd ⟨"a/**".toList, ["a".toList, "**".toList], false⟩ (by decide) rfl

theorem dispatch_is_union_of_bases_witness :
    ("/R/b/api".toList ∈ dispatched (runKustomizations (treeWorld multiBaseBuild inOrder)
        (matchersOf multiBaseBuild)).1) ∧
      dispatched (GenerateManifests (treeWorld multiBaseBuild reversed) bufferWriter [] []).1 =
        ["/R/a/api".toList, "/R/b/api".toList] := by
  refine ⟨?_, dispatch_is_union_of_bases.2 reversed (fun _ m => List.reverse_perm m) [] []⟩
  refine (dispatch_is_union_of_bases.1 (treeWorld multiBaseBuild inOrder)
    (matchersOf multiBaseBuild) "/R/k8s".toList "/R".toList rfl rfl
    (fun _ _ => List.Perm.refl _) (by decide) "/R/b/api".toList).mpr ?_
  exact ⟨⟨"/R/b/api".toList, true, none⟩, by decide, rfl, rfl,
    (pwd, ⟨[⟨"../b/api".toList, ["..".toList, "b".toList, "api".toList], false⟩]⟩),
    by decide, by decide⟩

theorem test_tree_single_base_witness :
    dispatched (GenerateManifests (treeWorld gitBaseBuild reversed) bufferWriter [] []).1 =
        ["/R/a/api".toList, "/R/b/api".toList] ∧
      dispatched (GenerateManifests (treeWorld pwdBaseBuild reversed) bufferWriter [] []).1 =
        ["/R/a/api".toList, "/R/b/api".toList] :=
  ⟨(test_tree_single_base reversed (fun _ m => List.reverse_perm m) []).1,
    (test_tree_single_base reversed (fun _ m => List.reverse_perm m) []).2.2.1⟩

theorem failure_stops_the_walk_witness :
    ∃ e, GenerateManifests (treeWorld failingBuild inOrder) recordingWriter [] [] =
      ((runKustomizations (treeWorld failingBuild inOrder) (matchersOf failingBuild)).1,
        [], some e) ∧
      dispatched (runKustomizations (treeWorld failingBuild inOrder)
        (matchersOf failingBuild)).1 = ["/R/a/api".toList, "/R/b".toList] := by
  obtain ⟨l1, bm, l2, e, _, _, _, hres, hgen⟩ :=
    failure_stops_the_walk (treeWorld failingBuild inOrder) recordingWriter [] []
      failingBuild (matchersOf failingBuild) "/R/k8s".toList "/R".toList
      (treeWalk.take 7) ⟨"/R/b".toList, true, none⟩ (treeWalk.drop 8)
      rfl (by decide) rfl rfl (fun _ _ => List.Perm.refl _) (by decide) (by decide) rfl
      ⟨(git, ⟨[⟨"a/api".toList, ["a".toList, "api".toList], false⟩,
        ⟨"b".toList, ["b".toList], false⟩]⟩), by decide, by decide⟩
  refine ⟨e, ?_, by decide⟩
  rw [hgen, hres]

theorem manifests_in_walk_order_witness :
    ["kind: ConfigMap\nmetadata:\n  name: a-api\n".toList,
      "kind: ConfigMap\nmetadata:\n  name: b-api\n".toList] =
      treeWalk.flatMap (entryDocs (treeWorld gitBaseBuild inOrder) (matchersOf gitBaseBuild)
        "/R".toList "/R/k8s".toList) :=
  (manifests_in_walk_order (treeWorld gitBaseBuild inOrder) (matchersOf gitBaseBuild)
    "/R/k8s".toList "/R".toList _ rfl rfl (fun _ _ => List.Perm.refl _) (by decide)).1

/-! ## The scan for the repository root -/

theorem splitOn_no_sep (sep : Char) : ∀ (g : Str), sep ∉ g → splitOn sep g = [g] := by
  intro g
  induction g with
  | nil => intro _; rfl
  | cons c cs ih =>
    intro h
    have hc : c ≠ sep := fun hc => h (by simp [hc])
    have hcs : sep ∉ cs := fun hm => h (List.mem_cons_of_mem _ hm)
    simp [splitOn, hc, ih hcs]

theorem splitOn_joinWith (sep : Char) :
    ∀ (es : List Str), es ≠ [] → (∀ e ∈ es, sep ∉ e) →
      splitOn sep (joinWith sep es) = es := by
  intro es
  induction es with
  | nil => intro h; exact absurd rfl h
  | cons e rest ih =>
    intro _ h
    cases rest with
    | nil => simpa [joinWith] using splitOn_no_sep sep e (h e (List.mem_cons_self _ _))
    | cons e2 rest2 =>
      rw [joinWith, splitOn_append_sep sep e _ (h e (List.mem_cons_self _ _)),
        ih (by simp) (fun x hx => h x (List.mem_cons_of_mem _ hx))]

theorem splitOn_joinWith_sep (sep : Char) (t : Str) :
    ∀ (es : List Str), es ≠ [] → (∀ e ∈ es, sep ∉ e) →
      splitOn sep (joinWith sep es ++ sep :: t) = es ++ splitOn sep t := by
  intro es
  induction es with
  | nil => intro h; exact absurd rfl h
  | cons e rest ih =>
    intro _ h
    cases rest with
    | nil =>
      simpa [joinWith] using splitOn_append_sep sep e t (h e (List.mem_cons_self _ _))
    | cons e2 rest2 =>
      have hj : joinWith sep (e :: e2 :: rest2) ++ sep :: t =
          e ++ sep :: (joinWith sep (e2 :: rest2) ++ sep :: t) := by
        simp [joinWith]
      rw [hj, splitOn_append_sep sep e _ (h e (List.mem_cons_self _ _)),
        ih (by simp) (fun x hx => h x (List.mem_cons_of_mem _ hx))]
      rfl

theorem joinWith_append_singleton (sep : Char) (e : Str) :
    ∀ (es : List Str), es ≠ [] → joinWith sep (es ++ [e]) = joinWith sep es ++ sep :: e := by
  intro es
  induction es with
  | nil => intro h; exact absurd rfl h
  | cons a rest ih =>
    intro _
    cases rest with
    | nil => simp [joinWith]
    | cons b rest2 =>
      have hi : joinWith sep (b :: (rest2 ++ [e])) = joinWith sep (b :: rest2) ++ sep :: e :=
        ih (by simp)
      show joinWith sep (a :: b :: (rest2 ++ [e])) = joinWith sep (a :: b :: rest2) ++ sep :: e
      rw [joinWith, hi, joinWith]
      simp

theorem foldl_cleanStep_good (rooted : Bool) :
    ∀ (es kept : List Str), (∀ e ∈ es, goodElem e) →
      es.foldl (cleanStep rooted) kept = es.reverse ++ kept := by
  intro es
  induction es with
  | nil => intro kept _; rfl
  | cons e rest ih =>
    intro kept h
    obtain ⟨h1, _, h3, h4⟩ := h e (List.mem_cons_self _ _)
    have h3b : e ≠ ['.'] := h3
    have h4b : e ≠ ['.', '.'] := h4
    have hstep : cleanStep rooted kept e = e :: kept := by
      simp [cleanStep, h1, h3b, h4b]
    rw [List.foldl_cons, hstep, ih _ (fun x hx => h x (List.mem_cons_of_mem _ hx))]
    simp

theorem cleanStep_empty (rooted : Bool) (kept : List Str) : cleanStep rooted kept [] = kept := by
  simp [cleanStep]

theorem Clean_rooted (s : Str) :
    Clean ('/' :: s) =
      '/' :: joinWith '/' ((splitOn '/' ('/' :: s)).foldl (cleanStep true) []).reverse := by
  simp [Clean]

/-- Cleaning an absolute path of proper elements, with or without separators at
its end, gives the path itself. -/
theorem Clean_absPath (es : List Str) (h : ∀ e ∈ es, goodElem e) :
    Clean (absPath es) = absPath es ∧ Clean (absPath es ++ ['/']) = absPath es := by
  have hsep : ∀ e ∈ es, '/' ∉ e := fun e he => (h e he).2.1
  by_cases hes : es = []
  · subst hes
    constructor <;> decide
  · constructor
    · rw [absPath, Clean_rooted]
      simp only [splitOn, if_true]
      rw [splitOn_joinWith '/' es hes hsep, List.foldl_cons, cleanStep_empty,
        foldl_cleanStep_good true es [] h]
      simp
    · have : absPath es ++ ['/'] = '/' :: (joinWith '/' es ++ '/' :: []) := by
        simp [absPath]
      rw [this, Clean_rooted]
      simp only [splitOn, if_true]
      rw [splitOn_joinWith_sep '/' [] es hes hsep, List.foldl_cons, cleanStep_empty,
        List.foldl_append, foldl_cleanStep_good true es [] h]
      simp [splitOn, cleanStep, absPath]

theorem uptoLastSep_no_sep : ∀ (e : Str), '/' ∉ e → uptoLastSep e = [] := by
  intro e
  induction e with
  | nil => intro _; rfl
  | cons c cs ih =>
    intro h
    have hc : c ≠ '/' := fun hc => h (by simp [hc])
    have hcs : '/' ∉ cs := fun hm => h (List.mem_cons_of_mem _ hm)
    simp [uptoLastSep, ih hcs, hc]

theorem uptoLastSep_append (e : Str) (he : '/' ∉ e) :
    ∀ (s : Str), uptoLastSep (s ++ '/' :: e) = s ++ ['/'] := by
  intro s
  induction s with
  | nil => simp [uptoLastSep, uptoLastSep_no_sep e he]
  | cons c cs ih =>
    rw [List.cons_append, uptoLastSep, ih]
    cases cs <;> simp

theorem Dir_absPath (es : List Str) (e : Str) (h : ∀ x ∈ es, goodElem x) (he : goodElem e) :
    Dir (absPath (es ++ [e])) = absPath es := by
  by_cases hes : es = []
  · subst hes
    have : absPath ([] ++ [e]) = [] ++ '/' :: e := by simp [absPath, joinWith]
    rw [Dir, this, uptoLastSep_append e he.2.1]
    decide
  · have : absPath (es ++ [e]) = absPath es ++ '/' :: e := by
      simp [absPath, joinWith_append_singleton '/' e es hes]
    rw [Dir, this, uptoLastSep_append e he.2.1]
    exact (Clean_absPath es h).2

theorem Join_absPath (es : List Str) (e : Str) (h : ∀ x ∈ es, goodElem x) (he : goodElem e) :
    Join (absPath es) e = absPath (es ++ [e]) := by
  have hne : absPath es ≠ [] := by simp [absPath]
  have hall : ∀ x ∈ es ++ [e], goodElem x := by
    intro x hx
    rcases List.mem_append.mp hx with hx | hx
    · exact h x hx
    · simp only [List.mem_singleton] at hx
      subst hx
      exact he
  simp only [Join, hne, if_false]
  by_cases hes : es = []
  · subst hes
    have heq : absPath [] ++ '/' :: e = '/' :: ([] ++ '/' :: e) := by simp [absPath, joinWith]
    rw [heq, Clean_rooted]
    simp only [splitOn, if_true, List.nil_append]
    rw [splitOn_no_sep '/' e he.2.1]
    obtain ⟨h1, _, h3, h4⟩ := he
    have h3b : e ≠ ['.'] := h3
    have h4b : e ≠ ['.', '.'] := h4
    simp [cleanStep, h1, h3b, h4b, absPath, joinWith]
  · have : absPath es ++ '/' :: e = absPath (es ++ [e]) := by
      simp [absPath, joinWith_append_singleton '/' e es hes]
    rw [this]
    exact (Clean_absPath _ hall).1

theorem ancestorsUp_append (es : List Str) (e : Str) :
    ancestorsUp (es ++ [e]) = absPath es :: ancestorsUp es := by
  simp only [ancestorsUp, List.length_append, List.length_singleton, List.range_succ,
    List.map_append, List.map_singleton, List.reverse_append, List.reverse_singleton,
    List.singleton_append, List.take_left']
  congr 2
  apply List.map_congr_left
  intro i hi
  rw [List.take_append_of_le_length (Nat.le_of_lt (List.mem_range.mp hi))]

theorem nearestGitRoot_append (W : World) (es : List Str) (e : Str) :
    nearestGitRoot W (es ++ [e]) =
      if W.IsDir (Join (absPath es) ".git".toList) = true then some (absPath es)
      else nearestGitRoot W es := by
  simp only [nearestGitRoot, ancestorsUp_append, List.find?_cons]
  cases W.IsDir (Join (absPath es) ".git".toList) <;> simp

theorem absPath_append_ne_root (es : List Str) (e : Str) (he : goodElem e) :
    absPath (es ++ [e]) ≠ "/".toList := by
  intro h
  have hl := congrArg List.length h
  by_cases hes : es = []
  · subst hes
    have hne : e ≠ [] := he.1
    cases e with
    | nil => exact hne rfl
    | cons c cs => simp [absPath, joinWith] at hl
  · rw [absPath, joinWith_append_singleton '/' e es hes] at hl
    simp at hl

/-- The scan from an absolute directory of proper elements, with turns enough
for its elements: the nearest proper ancestor with a marker, or the error. -/
theorem gitRootLoop_absPath (W : World) (k : Str) :
    ∀ (es : List Str), (∀ e ∈ es, goodElem e) →
      ∀ (fuel : Nat) (trace : List Event), es.length < fuel →
      (gitRootLoop W k fuel (absPath es) trace).2 =
        match nearestGitRoot W es with
        | some root => .ok root
        | none => .error (.error ("unable to find git root in '".toList ++ k ++
            "' parents".toList)) := by
  intro es
  induction es using List.reverseRecOn with
  | nil =>
    intro _ fuel trace hf
    obtain ⟨f, rfl⟩ : ∃ f, fuel = f + 1 := ⟨fuel - 1, by omega⟩
    simp [gitRootLoop, absPath, joinWith, nearestGitRoot, ancestorsUp]
  | append_singleton es e ih =>
    intro h fuel trace hf
    have hes : ∀ x ∈ es, goodElem x := fun x hx => h x (List.mem_append_left _ hx)
    have he : goodElem e := h e (by simp)
    obtain ⟨f, rfl⟩ : ∃ f, fuel = f + 1 := ⟨fuel - 1, by omega⟩
    have hf2 : es.length < f := by simp at hf; omega
    rw [nearestGitRoot_append]
    simp only [gitRootLoop, absPath_append_ne_root es e he, if_false, Dir_absPath es e hes he]
    by_cases hd : W.IsDir (Join (absPath es) ".git".toList) = true
    · rw [if_pos hd, if_pos hd]
    · rw [if_neg hd, if_neg hd]
      exact ih hes f _ hf2

theorem absPath_length (es : List Str) (h : ∀ e ∈ es, goodElem e) :
    es.length < (absPath es).length + 2 := by
  have : ∀ (l : List Str), (∀ e ∈ l, goodElem e) → l.length ≤ (joinWith '/' l).length := by
    intro l
    induction l with
    | nil => intro _; simp [joinWith]
    | cons a rest ih =>
      intro hl
      have ha : a ≠ [] := (hl a (List.mem_cons_self _ _)).1
      have hpos : 0 < a.length := List.length_pos.mpr ha
      cases rest with
      | nil => simp [joinWith]; omega
      | cons b rest2 =>
        have := ih (fun x hx => hl x (List.mem_cons_of_mem _ hx))
        simp only [joinWith, List.length_append, List.length_cons] at this ⊢
        omega
  have := this es h
  simp only [absPath, List.length_cons]
  omega

/-- Claim C11, at an input where it fails.  The working directory `/R/k8s/` is
written with a trailing separator, and only the working directory itself holds
a marker.  No proper ancestor (`/R`, `/`) has one, yet the first step of the
loop, `filepath.Dir`, only drops the separator, and the working directory is
returned as the root instead of the error.  Written `/R/k8s`, the same
directory gives the error. -/
theorem trailing_separator_returns_working_directory :
    markerInsideWorld.IsDir "/R/.git".toList = false ∧
      markerInsideWorld.IsDir "/.git".toList = false ∧
      (getGitRootPath markerInsideWorld "/R/k8s/".toList).2 = .ok "/R/k8s".toList ∧
      (getGitRootPath markerInsideWorld "/R/k8s".toList).2 =
        .error (.error "unable to find git root in '/R/k8s' parents".toList) := by
  decide

/-- Claim C11, amended.  For the absolute working directory in canonical form,
as `filepath.Clean` leaves it, with the given proper elements,
`getGitRootPath` returns the nearest proper ancestor whose `.git` is a
directory, scanning from the parent up to `/`; it returns the error exactly when
no proper ancestor has one; and a root it returns is a proper ancestor with a
marker such that no ancestor nearer to the working directory has one. -/
theorem getGitRootPath_nearest_ancestor (W : World) (elems : List Str)
    (h : ∀ e ∈ elems, goodElem e) :
    (getGitRootPath W (absPath elems)).2 =
        (match nearestGitRoot W elems with
        | some root => .ok root
        | none => .error (.error ("unable to find git root in '".toList ++ absPath elems ++
            "' parents".toList))) ∧
      ((∃ e, (getGitRootPath W (absPath elems)).2 = .error e) ↔
        ∀ a ∈ ancestorsUp elems, W.IsDir (Join a ".git".toList) = false) ∧
      (∀ root, (getGitRootPath W (absPath elems)).2 = .ok root →
        W.IsDir (Join root ".git".toList) = true ∧
        ∃ nearer farther, ancestorsUp elems = nearer ++ root :: farther ∧
          ∀ a ∈ nearer, W.IsDir (Join a ".git".toList) = false) := by
  have hmain := gitRootLoop_absPath W (absPath elems) elems h _ [] (absPath_length elems h)
  have hg : (getGitRootPath W (absPath elems)).2 =
      (match nearestGitRoot W elems with
        | some root => .ok root
        | none => .error (.error ("unable to find git root in '".toList ++ absPath elems ++
            "' parents".toList))) := hmain
  refine ⟨hg, ?_, ?_⟩
  · rw [hg]
    cases hn : nearestGitRoot W elems with
    | none =>
      simp only [nearestGitRoot, List.find?_eq_none] at hn
      simp only [Except.error.injEq, exists_eq', true_iff]
      intro a ha
      simpa using hn a ha
    | some root =>
      have hp := List.find?_some hn
      have hmem := List.mem_of_find?_eq_some hn
      constructor
      · rintro ⟨e, he⟩
        cases he
      · intro hall
        rw [hall root hmem] at hp
        cases hp
  · intro root hr
    rw [hg] at hr
    cases hn : nearestGitRoot W elems with
    | none => simp [hn] at hr
    | some r =>
      simp only [hn, Except.ok.injEq] at hr
      subst hr
      obtain ⟨hp, as, bs, hsplit, hall⟩ := List.find?_eq_some.mp hn
      exact ⟨hp, as, bs, hsplit, fun a ha => by simpa using hall a ha⟩

theorem getGitRootPath_nearest_ancestor_witness :
    (getGitRootPath (treeWorld gitBaseBuild inOrder) "/R/k8s".toList).2 = .ok "/R".toList :=
  (getGitRootPath_nearest_ancestor (treeWorld gitBaseBuild inOrder)
    ["R".toList, "k8s".toList] (by decide)).1

/-! ## What a walk can do, whatever its outcome -/

theorem rangeMatchers_trace (W : World) (root k path : Str) :
    ∀ (l : MatcherMap) (st : WalkState),
      ∀ ev ∈ (rangeMatchers W root k path l st).1.trace,
        ev ∈ st.trace ∨ ∃ bm ∈ l, ev ∈ baseEvents root k path bm := by
  intro l
  induction l with
  | nil => intro st ev hev; left; simpa [rangeMatchers] using hev
  | cons x rest ih =>
    intro st ev hev
    rw [rangeMatchers_cons] at hev
    match hx : baseFault W root k path x with
    | some e =>
      simp only [hx, List.mem_append] at hev
      rcases hev with h | h
      · exact Or.inl h
      · exact Or.inr ⟨x, List.mem_cons_self _ _, h⟩
    | none =>
      simp only [hx] at hev
      rcases ih _ ev hev with h | ⟨bm, hbm, h⟩
      · simp only [List.mem_append] at h
        rcases h with h | h
        · exact Or.inl h
        · exact Or.inr ⟨x, List.mem_cons_self _ _, h⟩
      · exact Or.inr ⟨bm, List.mem_cons_of_mem _ hbm, h⟩

theorem rangeMatchers_manifests (W : World) (root k path : Str) :
    ∀ (l : MatcherMap) (st : WalkState),
      (∀ bm ∈ l, selects root k path bm = false) →
      (rangeMatchers W root k path l st).1.manifests = st.manifests := by
  intro l
  induction l with
  | nil => intro st _; simp [rangeMatchers]
  | cons x rest ih =>
    intro st h
    rw [rangeMatchers_cons]
    have hx := h x (List.mem_cons_self _ _)
    match hf : baseFault W root k path x with
    | some e => simp
    | none =>
      simp only
      rw [ih _ (fun bm hbm => h bm (List.mem_cons_of_mem _ hbm))]
      simp [hx]

theorem walkFn_trace (W : World) (m : MatcherMap) (root k : Str) (n : Nat) (entry : WalkEntry)
    (st : WalkState) :
    ∀ ev ∈ (walkFn W m root k n entry st).1.trace,
      ev ∈ st.trace ∨
        (handled entry = true ∧ ∃ bm ∈ W.rangeOrder n m, ev ∈ baseEvents root k entry.path bm) := by
  intro ev hev
  simp only [walkFn] at hev
  match herr : entry.err with
  | some e => left; simpa [herr] using hev
  | none =>
    simp only [herr] at hev
    by_cases hd : entry.isDir = true
    · simp only [hd, Bool.not_true, Bool.false_eq_true, if_false] at hev
      rcases rangeMatchers_trace W root k entry.path _ st ev hev with h | h
      · exact Or.inl h
      · exact Or.inr ⟨by simp [handled, herr, hd], h⟩
    · left
      simpa [hd] using hev

theorem walkLoop_trace (W : World) (m : MatcherMap) (root k : Str) :
    ∀ (entries : List WalkEntry) (n : Nat) (st : WalkState),
      ∀ ev ∈ (walkLoop W m root k n entries st).1.trace,
        ev ∈ st.trace ∨ ∃ entry ∈ entries, handled entry = true ∧
          ∃ i, ∃ bm ∈ W.rangeOrder i m, ev ∈ baseEvents root k entry.path bm := by
  intro entries
  induction entries with
  | nil => intro n st ev hev; left; simpa [walkLoop] using hev
  | cons x rest ih =>
    intro n st ev hev
    simp only [walkLoop] at hev
    have hfn := walkFn_trace W m root k n x st
    match hx : walkFn W m root k n x st with
    | (st1, some e) =>
      rw [hx] at hfn
      simp only [hx] at hev
      rcases hfn ev hev with h | ⟨hh, bm, hbm, h⟩
      · exact Or.inl h
      · exact Or.inr ⟨x, List.mem_cons_self _ _, hh, n, bm, hbm, h⟩
    | (st1, none) =>
      rw [hx] at hfn
      simp only [hx] at hev
      rcases ih (n + 1) st1 ev hev with h | ⟨entry, he, hh, i, bm, hbm, h⟩
      · rcases hfn ev h with h | ⟨hh, bm, hbm, h⟩
        · exact Or.inl h
        · exact Or.inr ⟨x, List.mem_cons_self _ _, hh, n, bm, hbm, h⟩
      · exact Or.inr ⟨entry, List.mem_cons_of_mem _ he, hh, i, bm, hbm, h⟩

theorem walkFn_manifests (W : World) (m : MatcherMap) (root k : Str) (n : Nat)
    (entry : WalkEntry) (st : WalkState)
    (h : ∀ bm ∈ W.rangeOrder n m, ∀ path, selects root k path bm = false) :
    (walkFn W m root k n entry st).1.manifests = st.manifests := by
  simp only [walkFn]
  match herr : entry.err with
  | some e => simp
  | none =>
    by_cases hd : entry.isDir = true
    · simp only [hd, Bool.not_true, Bool.false_eq_true, if_false]
      exact rangeMatchers_manifests W root k entry.path _ st (fun bm hbm => h bm hbm _)
    · simp [hd]

theorem walkLoop_manifests (W : World) (m : MatcherMap) (root k : Str)
    (h : ∀ i, ∀ bm ∈ W.rangeOrder i m, ∀ path, selects root k path bm = false) :
    ∀ (entries : List WalkEntry) (n : Nat) (st : WalkState),
      (walkLoop W m root k n entries st).1.manifests = st.manifests := by
  intro entries
  induction entries with
  | nil => intro n st; simp [walkLoop]
  | cons x rest ih =>
    intro n st
    simp only [walkLoop]
    have hfn := walkFn_manifests W m root k n x st (h n)
    match hx : walkFn W m root k n x st with
    | (st1, some e) => rw [hx] at hfn; simpa using hfn
    | (st1, none) =>
      rw [hx] at hfn
      simp only
      rw [ih (n + 1) st1]
      exact hfn

theorem gitRootLoop_trace (W : World) (k : Str) :
    ∀ (fuel : Nat) (path : Str) (trace : List Event),
      ∀ ev ∈ (gitRootLoop W k fuel path trace).1, ev ∈ trace ∨ ∃ p, ev = .isDir p := by
  intro fuel
  induction fuel with
  | zero => intro path trace ev hev; left; simpa [gitRootLoop] using hev
  | succ fuel ih =>
    intro path trace ev hev
    simp only [gitRootLoop] at hev
    split at hev
    · exact Or.inl hev
    · split at hev
      · simp only [List.mem_append, List.mem_singleton] at hev
        rcases hev with h | h
        · exact Or.inl h
        · exact Or.inr ⟨_, h⟩
      · rcases ih _ _ ev hev with h | h
        · simp only [List.mem_append, List.mem_singleton] at h
          rcases h with h | h
          · exact Or.inl h
          · exact Or.inr ⟨_, h⟩
        · exact Or.inr h

/-- Every event of a run is the lookup of the environment, a probe of the scan
for the root, the start of the walk, or the work of a base on a handled
directory of the walk. -/
theorem runKustomizations_trace (W : World) (m : MatcherMap) :
    ∀ ev ∈ (runKustomizations W m).1,
      ev = .lookupEnv kustomizePluginConfigRootEnv ∨ (∃ p, ev = .isDir p) ∨
        ∃ k root, W.LookupEnv kustomizePluginConfigRootEnv = some k ∧
          (getGitRootPath W k).2 = .ok root ∧
          (ev = .walk root ∨ ∃ entry ∈ W.Walk root, handled entry = true ∧
            ∃ i, ∃ bm ∈ W.rangeOrder i m, ev ∈ baseEvents root k entry.path bm) := by
  intro ev hev
  simp only [runKustomizations] at hev
  match hE : W.LookupEnv kustomizePluginConfigRootEnv with
  | none =>
    simp only [hE, List.mem_singleton] at hev
    exact Or.inl hev
  | some k =>
    simp only [hE] at hev
    have hgt := gitRootLoop_trace W k (k.length + 2) k []
    match hG : getGitRootPath W k with
    | (tr, .error e) =>
      simp only [hG, List.mem_cons] at hev
      rcases hev with h | h
      · exact Or.inl h
      · have := hgt ev (by rw [getGitRootPath] at hG; rw [hG]; exact h)
        rcases this with h2 | h2
        · simp at h2
        · exact Or.inr (Or.inl h2)
    | (tr, .ok root) =>
      simp only [hG] at hev
      have hwl := walkLoop_trace W m root k (W.Walk root) 0
        ⟨[], .lookupEnv kustomizePluginConfigRootEnv :: tr ++ [.walk root]⟩
      match hw : walkLoop W m root k 0 (W.Walk root)
          ⟨[], .lookupEnv kustomizePluginConfigRootEnv :: tr ++ [.walk root]⟩ with
      | (st, err) =>
        rw [hw] at hwl
        rw [hw] at hev
        have hev2 : ev ∈ st.trace := by
          cases err <;> exact hev
        rcases hwl ev hev2 with h | h
        · simp only [List.cons_append, List.mem_cons, List.mem_append, List.mem_singleton,
            List.not_mem_nil, or_false] at h
          rcases h with h | h | h
          · exact Or.inl h
          · have := hgt ev (by rw [getGitRootPath] at hG; rw [hG]; exact h)
            rcases this with h2 | h2
            · simp at h2
            · exact Or.inr (Or.inl h2)
          · exact Or.inr (Or.inr ⟨k, root, rfl, by rw [hG], Or.inl h⟩)
        · exact Or.inr (Or.inr ⟨k, root, rfl, by rw [hG], Or.inr h⟩)

theorem selects_empty (root k path : Str) (b : directoryBase) :
    selects root k path (b, ⟨[]⟩) = false := by
  match hp : b.parsePath root k path with
  | .error e => simp [selects, baseVerdict, hp]
  | .ok mp => simp [selects, baseVerdict, PatternMatcher.Matches, matchesFrom, hp]

theorem mem_baseEvents_run (root k path p : Str) (bm : directoryBase × PatternMatcher)
    (h : Event.run p ∈ baseEvents root k path bm) : selects root k path bm = true := by
  have hd := dispatched_baseEvents root k path bm
  have hp : p ∈ dispatched (baseEvents root k path bm) := (mem_dispatched p _).mpr h
  rw [hd] at hp
  by_cases hs : selects root k path bm = true
  · exact hs
  · simp [hs] at hp

/-- A run in which no base ever selects a path hands nothing to the build and
returns no manifest. -/
theorem runKustomizations_nothing_selected (W : World) (m : MatcherMap)
    (h : ∀ i, ∀ bm ∈ W.rangeOrder i m, ∀ root k path, selects root k path bm = false) :
    dispatched (runKustomizations W m).1 = [] ∧
      ∀ ms, (runKustomizations W m).2 = .ok ms → ms = [] := by
  constructor
  · apply List.eq_nil_iff_forall_not_mem.mpr
    intro p hp
    rw [mem_dispatched] at hp
    rcases runKustomizations_trace W m _ hp with h1 | ⟨q, h1⟩ | ⟨k, root, _, _, h1 | h1⟩
    · cases h1
    · cases h1
    · cases h1
    · obtain ⟨entry, _, _, i, bm, hbm, hev⟩ := h1
      have := mem_baseEvents_run root k entry.path p bm hev
      rw [h i bm hbm root k entry.path] at this
      cases this
  · intro ms hok
    simp only [runKustomizations] at hok
    match hE : W.LookupEnv kustomizePluginConfigRootEnv with
    | none => simp [hE] at hok
    | some k =>
      simp only [hE] at hok
      match hG : getGitRootPath W k with
      | (tr, .error e) => simp [hG] at hok
      | (tr, .ok root) =>
        simp only [hG] at hok
        have hm := walkLoop_manifests W m root k (fun i bm hbm path => h i bm hbm root k path)
          (W.Walk root) 0 ⟨[], .lookupEnv kustomizePluginConfigRootEnv :: tr ++ [.walk root]⟩
        match hw : walkLoop W m root k 0 (W.Walk root)
            ⟨[], .lookupEnv kustomizePluginConfigRootEnv :: tr ++ [.walk root]⟩ with
        | (st, some e) => rw [hw] at hok; cases hok
        | (st, none) =>
          rw [hw] at hok hm
          simp only [Except.ok.injEq] at hok
          rw [← hok]
          exact hm

theorem makePatternMatcher_no_entry (b : directoryBase) (base : Str) (kb : KustomizeBuild)
    (hb : b.string = .ok base) (hno : ∀ d ∈ kb.Spec.Directories, d.Base ≠ base) :
    makePatternMatcher b kb = .ok ⟨[]⟩ := by
  have hg : globsOf base kb.Spec.Directories = [] := by
    simp only [globsOf, List.flatMap_eq_nil_iff, List.mem_filter, decide_eq_true_eq, and_imp]
    intro d hd hbase
    exact absurd hbase (hno d hd)
  have ht := patternText_ok b base hb kb.Spec.Directories
  rw [hg] at ht
  simp only [makePatternMatcher, ht]
  rfl

/-- Claim C12.  A matcher gives the verdict false for every path that none of
its patterns matches.  A base without entry in the specification gets the empty
pattern list and selects no directory.  With a specification without directory
entries nothing is handed to the build and nothing is written, whatever the
outcome of the run; on the test tree the run returns nil with empty output. -/
theorem no_matching_pattern_gives_false :
    (∀ (globs : List Str) (pm : PatternMatcher) (file : Str), New globs = .ok pm →
      lastMatching file pm.patterns = none → pm.Matches file = .ok false) ∧
    (∀ (b : directoryBase) (base : Str) (kb : KustomizeBuild), b.string = .ok base →
      (∀ d ∈ kb.Spec.Directories, d.Base ≠ base) →
      makePatternMatcher b kb = .ok ⟨[]⟩ ∧
        ∀ root k path, selects root k path (b, ⟨[]⟩) = false) ∧
    (∀ (σ : Type) (W : World) (wr : Writer σ) (data : Str) (out : σ) (kb : KustomizeBuild),
      W.rangeFair → W.Unmarshal data = .ok kb → kb.Spec.Directories = [] →
      dispatched (GenerateManifests W wr data out).1 = [] ∧
        (GenerateManifests W wr data out).2.1 = out) ∧
    (∀ (order : Nat → MatcherMap → MatcherMap), (∀ n m, (order n m).Perm m) → ∀ data : Str,
      (GenerateManifests (treeWorld emptyBuild order) bufferWriter data []).2 = ([], none)) := by
  refine ⟨?_, ?_, ?_, ?_⟩
  · intro globs pm file hnew hnone
    have := matchesFrom_eq file pm.patterns false (New_match_total globs pm hnew file)
    rw [hnone] at this
    exact this
  · intro b base kb hb hno
    exact ⟨makePatternMatcher_no_entry b base kb hb hno, fun root k path =>
      selects_empty root k path b⟩
  · intro σ W wr data out kb hfair hU hdirs
    have hg := makePatternMatcher_no_entry git "git".toList kb rfl (by simp [hdirs])
    have hp := makePatternMatcher_no_entry pwd "pwd".toList kb rfl (by simp [hdirs])
    have hM : makePatternMatchers kb = .ok [(git, ⟨[]⟩), (pwd, ⟨[]⟩)] := by
      simp only [makePatternMatchers, hg, hp]
    have hsel : ∀ i, ∀ bm ∈ W.rangeOrder i [(git, (⟨[]⟩ : PatternMatcher)), (pwd, ⟨[]⟩)],
        ∀ root k path, selects root k path bm = false := by
      intro i bm hbm root k path
      have hmem := (hfair i _).mem_iff.mp hbm
      simp only [List.mem_cons, List.mem_singleton, List.not_mem_nil, or_false] at hmem
      rcases hmem with rfl | rfl <;> exact selects_empty root k path _
    obtain ⟨hd, hms⟩ := runKustomizations_nothing_selected W _ hsel
    simp only [GenerateManifests, hU, makeManifests, hM]
    match hr : runKustomizations W [(git, (⟨[]⟩ : PatternMatcher)), (pwd, ⟨[]⟩)] with
    | (tr, .error e) =>
      rw [hr] at hd
      exact ⟨hd, rfl⟩
    | (tr, .ok ms) =>
      rw [hr] at hd hms
      have := hms ms rfl
      subst this
      exact ⟨hd, rfl⟩
  · intro order hfair data
    rw [(tree_generate emptyBuild order hfair data [] (by decide) (by decide)).2]
    decide

theorem no_matching_pattern_gives_false_witness :
    appMatcher.Matches "b".toList = .ok false ∧
      dispatched (GenerateManifests (treeWorld emptyBuild reversed) bufferWriter [] []).1 = [] ∧
      (GenerateManifests (treeWorld emptyBuild reversed) bufferWriter [] []).2 = ([], none) :=
  ⟨no_matching_pattern_gives_false.1 ["a/**".toList, "!a/app".toList] appMatcher "b".toList
      (by decide) (by decide),
    (no_matching_pattern_gives_false.2.2.1 Str (treeWorld emptyBuild reversed) bufferWriter [] []
      emptyBuild (fun _ m => List.reverse_perm m) rfl rfl).1,
    no_matching_pattern_gives_false.2.2.2 reversed (fun _ m => List.reverse_perm m) []⟩

/-- Claim C13.  When the environment does not hold `KUSTOMIZE_PLUGIN_CONFIG_ROOT`,
`GenerateManifests` returns an error and leaves the writer untouched; the run
has looked up the environment at most, with no probe for the repository root, no
walk and no work on any directory.  When the document decodes and its matchers
are built, the error is that of the missing setting. -/
theorem missing_environment_aborts {σ : Type} (W : World) (wr : Writer σ) (data : Str) (out : σ)
    (hE : W.LookupEnv kustomizePluginConfigRootEnv = none) :
    (∃ e, (GenerateManifests W wr data out).2 = (out, some e)) ∧
      (∀ ev ∈ (GenerateManifests W wr data out).1,
        ev = .lookupEnv kustomizePluginConfigRootEnv) ∧
      (∀ kb m, W.Unmarshal data = .ok kb → makePatternMatchers kb = .ok m →
        GenerateManifests W wr data out =
          ([.lookupEnv kustomizePluginConfigRootEnv], out,
            some (.error (kustomizePluginConfigRootEnv ++ " is empty".toList)))) := by
  have hrun : ∀ m, runKustomizations W m =
      ([.lookupEnv kustomizePluginConfigRootEnv],
        .error (.error (kustomizePluginConfigRootEnv ++ " is empty".toList))) := by
    intro m
    simp only [runKustomizations, hE]
  refine ⟨?_, ?_, ?_⟩
  · simp only [GenerateManifests]
    match hU : W.Unmarshal data with
    | .error e => exact ⟨e, rfl⟩
    | .ok kb =>
      simp only [makeManifests]
      match hM : makePatternMatchers kb with
      | .error e => exact ⟨e, rfl⟩
      | .ok m => simp only [hrun]; exact ⟨_, rfl⟩
  · intro ev hev
    simp only [GenerateManifests] at hev
    match hU : W.Unmarshal data with
    | .error e => simp [hU] at hev
    | .ok kb =>
      simp only [hU, makeManifests] at hev
      match hM : makePatternMatchers kb with
      | .error e => simp [hM] at hev
      | .ok m =>
        simp only [hM, hrun, List.mem_singleton] at hev
        exact hev
  · intro kb m hU hM
    simp only [GenerateManifests, hU, makeManifests, hM, hrun]

theorem missing_environment_aborts_witness :
    GenerateManifests noEnvWorld recordingWriter [] [] =
      ([.lookupEnv kustomizePluginConfigRootEnv], [],
        some (.error "KUSTOMIZE_PLUGIN_CONFIG_ROOT is empty".toList)) :=
  (missing_environment_aborts noEnvWorld recordingWriter [] [] rfl).2.2 gitBaseBuild
    (matchersOf gitBaseBuild) rfl (by decide)

/-! ## Malformed patterns -/

theorem compilePatterns_cons (acc : List Pattern) (q : Str) (rest : List Str) :
    compilePatterns acc (q :: rest) =
      match compilePattern q with
      | .error e => .error e
      | .ok none => compilePatterns acc rest
      | .ok (some pat) => compilePatterns (acc ++ [pat]) rest := by
  simp only [compilePatterns, compilePattern]
  split
  · rfl
  · split
    · rfl
    · split <;> rfl

theorem New_singleton_error (p : Str) (e : Fault) (h : New [p] = .error e) :
    compilePattern p = .error e := by
  rw [New, compilePatterns_cons] at h
  match hc : compilePattern p with
  | .error e2 => rw [hc] at h; simp only [Except.error.injEq] at h; rw [h]
  | .ok none => rw [hc] at h; simp [compilePatterns] at h
  | .ok (some pat) => rw [hc] at h; simp [compilePatterns] at h

theorem compilePatterns_error :
    ∀ (ps : List Str) (acc : List Pattern) (p : Str) (e : Fault),
      p ∈ ps → compilePattern p = .error e → ∃ e2, compilePatterns acc ps = .error e2 := by
  intro ps
  induction ps with
  | nil => intro _ p _ hp; simp at hp
  | cons q rest ih =>
    intro acc p e hp hbad
    rw [compilePatterns_cons]
    match hc : compilePattern q with
    | .error e2 => exact ⟨e2, rfl⟩
    | .ok none =>
      rcases List.mem_cons.mp hp with rfl | hmem
      · rw [hbad] at hc; cases hc
      · exact ih acc p e hmem hbad
    | .ok (some pat) =>
      rcases List.mem_cons.mp hp with rfl | hmem
      · rw [hbad] at hc; cases hc
      · exact ih _ p e hmem hbad

/-- Claim C14, at an input where it fails.  The glob `[` is malformed, but in an
entry whose base is neither `git` nor `pwd` it reaches no matcher: both
matchers are built (empty), and the run looks up the environment, walks the
tree and returns nil. -/
theorem invalid_glob_of_unknown_base_accepted :
    New ["[".toList] = .error (.error "syntax error in pattern".toList) ∧
      makePatternMatchers strayBaseBuild = .ok [(git, ⟨[]⟩), (pwd, ⟨[]⟩)] ∧
      (GenerateManifests (treeWorld strayBaseBuild inOrder) bufferWriter [] []).2 =
        ([], none) ∧
      Event.walk "/R".toList ∈
        (GenerateManifests (treeWorld strayBaseBuild inOrder) bufferWriter [] []).1 := by
  decide

/-- Claim C14, amended.  If a pattern read from the globs of the entries of the
git base or of the pwd base is malformed, the construction of that matcher
fails, no matcher map is built, and `GenerateManifests` returns the error of the
construction with the writer untouched and nothing done: no lookup of the
environment, no probe for the repository root, no walk and no test of any
path. -/
theorem invalid_pattern_fails_before_walk {σ : Type} (W : World) (wr : Writer σ) (data : Str)
    (out : σ) (kb : KustomizeBuild) (b : directoryBase) (ps : List Str) (p : Str)
    (hU : W.Unmarshal data = .ok kb) (hb : b = git ∨ b = pwd)
    (hps : patternList b kb = .ok ps) (hp : p ∈ ps) (hbad : ∃ e, New [p] = .error e) :
    (∃ e, makePatternMatcher b kb = .error e) ∧
      ∃ e, makePatternMatchers kb = .error e ∧
        GenerateManifests W wr data out = ([], out, some e) := by
  obtain ⟨e0, he0⟩ := hbad
  have hb1 : ∃ e, makePatternMatcher b kb = .error e := by
    simp only [patternList] at hps
    simp only [makePatternMatcher]
    match ht : patternText b kb.Spec.Directories with
    | .error e => rw [ht] at hps; cases hps
    | .ok text =>
      rw [ht] at hps
      simp only at hps ⊢
      rw [hps]
      exact compilePatterns_error ps [] p e0 hp (New_singleton_error p e0 he0)
  have hM : ∃ e, makePatternMatchers kb = .error e := by
    obtain ⟨e, he⟩ := hb1
    simp only [makePatternMatchers]
    rcases hb with rfl | rfl
    · rw [he]; exact ⟨e, rfl⟩
    · match hg : makePatternMatcher git kb with
      | .error e2 => exact ⟨e2, rfl⟩
      | .ok g => simp only; rw [he]; exact ⟨e, rfl⟩
  refine ⟨hb1, ?_⟩
  obtain ⟨e, he⟩ := hM
  exact ⟨e, he, by simp only [GenerateManifests, hU, makeManifests, he]⟩

theorem invalid_pattern_fails_before_walk_witness :
    ∃ e, GenerateManifests (treeWorld badGlobBuild inOrder) recordingWriter [] [] =
      ([], [], some e) := by
  obtain ⟨_, e, _, h⟩ := invalid_pattern_fails_before_walk (treeWorld badGlobBuild inOrder)
    recordingWriter [] [] badGlobBuild git ["a/api".toList, "[".toList] "[".toList rfl
    (Or.inl rfl) (by decide) (by decide)
    ⟨.error "syntax error in pattern".toList, by decide⟩
  exact ⟨e, h⟩

/-! ## Two runs that differ in the order of the `range` only -/

theorem gitRootLoop_congr (W W2 : World) (k : Str) (hI : W2.IsDir = W.IsDir) :
    ∀ (fuel : Nat) (path : Str) (trace : List Event),
      gitRootLoop W2 k fuel path trace = gitRootLoop W k fuel path trace := by
  intro fuel
  induction fuel with
  | zero => intro path trace; rfl
  | succ fuel ih =>
    intro path trace
    simp only [gitRootLoop, hI, ih]

theorem entryClean_congr (W W2 : World) (hR : W2.Run = W.Run) (m : MatcherMap) (root k : Str)
    (entry : WalkEntry) : entryClean W2 m root k entry = entryClean W m root k entry := by
  simp only [entryClean, baseFault, buildYaml, hR]

theorem entryDocs_congr (W W2 : World) (hR : W2.Run = W.Run) (m : MatcherMap) (root k : Str)
    (entry : WalkEntry) : entryDocs W2 m root k entry = entryDocs W m root k entry := by
  simp only [entryDocs, built, buildYaml, hR]

/-- A run that returns manifests returns the same manifests under any other
order of the `range`. -/
theorem runKustomizations_order (W W2 : World) (m : MatcherMap)
    (hL : W2.LookupEnv = W.LookupEnv) (hI : W2.IsDir = W.IsDir) (hWk : W2.Walk = W.Walk)
    (hR : W2.Run = W.Run) (hfair : W.rangeFair) (hfair2 : W2.rangeFair) (ms : List Str)
    (hok : (runKustomizations W m).2 = .ok ms) : (runKustomizations W2 m).2 = .ok ms := by
  have hgit : ∀ k, getGitRootPath W2 k = getGitRootPath W k := fun k =>
    gitRootLoop_congr W W2 k hI _ _ _
  match hE : W.LookupEnv kustomizePluginConfigRootEnv with
  | none => simp [runKustomizations, hE] at hok
  | some k =>
    match hG : getGitRootPath W k with
    | (tr, .error e) => simp [runKustomizations, hE, hG] at hok
    | (tr, .ok root) =>
      have hG1 : (getGitRootPath W k).2 = .ok root := by rw [hG]
      have hG2 : (getGitRootPath W2 k).2 = .ok root := by rw [hgit, hG]
      have hE2 : W2.LookupEnv kustomizePluginConfigRootEnv = some k := by rw [hL, hE]
      have hclean : ∀ entry ∈ W.Walk root, entryClean W m root k entry = true := by
        simp only [runKustomizations, hE, hG] at hok
        match hw : walkLoop W m root k 0 (W.Walk root)
            ⟨[], .lookupEnv kustomizePluginConfigRootEnv :: tr ++ [.walk root]⟩ with
        | (st, some e) => rw [hw] at hok; cases hok
        | (st, none) => exact walkLoop_none W m root k hfair _ 0 _ st hw
      have hclean2 : ∀ entry ∈ W2.Walk root, entryClean W2 m root k entry = true := by
        intro entry he
        rw [entryClean_congr W W2 hR]
        exact hclean entry (by rw [← hWk]; exact he)
      have h1 := runKustomizations_clean W m k root hE hG1 hfair hclean
      have h2 := runKustomizations_clean W2 m k root hE2 hG2 hfair2 hclean2
      rw [h1] at hok
      rw [h2]
      simp only [Except.ok.injEq] at hok ⊢
      rw [← hok, hWk]
      exact List.flatMap_congr (fun entry _ => entryDocs_congr W W2 hR m root k entry)

/-- Claim C15.  Two runs of the generation on the same input document, the same
environment, the same file system (markers and walk) and the same build
function, each with its own order of the `range` over the matcher map at every
directory, leave the same bytes in the writer, in the same order, and either
both return nil or both return an error. -/
theorem output_independent_of_map_order {σ : Type} (W W2 : World) (wr : Writer σ) (data : Str)
    (out : σ) (hU : W2.Unmarshal = W.Unmarshal) (hL : W2.LookupEnv = W.LookupEnv)
    (hI : W2.IsDir = W.IsDir) (hWk : W2.Walk = W.Walk) (hR : W2.Run = W.Run)
    (hfair : W.rangeFair) (hfair2 : W2.rangeFair) :
    (GenerateManifests W2 wr data out).2.1 = (GenerateManifests W wr data out).2.1 ∧
      ((GenerateManifests W2 wr data out).2.2 = none ↔
        (GenerateManifests W wr data out).2.2 = none) := by
  simp only [GenerateManifests, hU]
  match hd : W.Unmarshal data with
  | .error e => simp
  | .ok kb =>
    simp only [makeManifests]
    match hM : makePatternMatchers kb with
    | .error e => simp
    | .ok m =>
      simp only
      have h12 := runKustomizations_order W W2 m hL hI hWk hR hfair hfair2
      have h21 := runKustomizations_order W2 W m hL.symm hI.symm hWk.symm hR.symm hfair2 hfair
      match hr : runKustomizations W m, hr2 : runKustomizations W2 m with
      | (t1, .ok ms), (t2, r2) =>
        have := h12 ms (by rw [hr])
        rw [hr2] at this
        simp only at this
        subst this
        simp
      | (t1, .error e), (t2, .ok ms) =>
        have := h21 ms (by rw [hr2])
        rw [hr] at this
        cases this
      | (t1, .error e), (t2, .error e2) => simp

theorem output_independent_of_map_order_witness :
    (GenerateManifests (treeWorld overlapBuild reversed) bufferWriter [] []).2.1 =
      (GenerateManifests (treeWorld overlapBuild inOrder) bufferWriter [] []).2.1 :=
  (output_independent_of_map_order (treeWorld overlapBuild inOrder)
    (treeWorld overlapBuild reversed) bufferWriter [] [] rfl rfl rfl rfl rfl
    (fun _ _ => List.Perm.refl _) (fun _ m => List.reverse_perm m)).1

/-- Claim C16.  The walk function leaves the state as it is on an entry that is
not a directory and goes on: in every run, whatever its outcome, a path is
translated or handed to the build only as the path of a directory entry of the
walk, and a path is tested only as the translation of such a path; so a regular
file is never translated, matched or dispatched and adds no manifest, whatever
the patterns.  In a walk that meets no failure every directory entry is
translated and tested for every base. -/
theorem files_are_skipped (W : World) (m : MatcherMap) (k root : Str)
    (hE : W.LookupEnv kustomizePluginConfigRootEnv = some k)
    (hG : (getGitRootPath W k).2 = .ok root) :
    (∀ (n : Nat) (entry : WalkEntry) (st : WalkState), entry.isDir = false →
      entry.err = none → walkFn W m root k n entry st = (st, none)) ∧
    (∀ ev ∈ (runKustomizations W m).1, ∀ path,
      (ev = .run path ∨ ∃ b, ev = .translate b path) →
      ∃ entry ∈ W.Walk root, entry.isDir = true ∧ entry.path = path) ∧
    (∀ b matchPath, Event.test b matchPath ∈ (runKustomizations W m).1 →
      ∃ entry ∈ W.Walk root, entry.isDir = true ∧
        b.parsePath root k entry.path = .ok matchPath) ∧
    (W.rangeFair → (∀ entry ∈ W.Walk root, entryClean W m root k entry = true) →
      ∀ entry ∈ W.Walk root, entry.isDir = true → ∀ bm ∈ m,
        Event.translate bm.1 entry.path ∈ (runKustomizations W m).1 ∧
        ∃ matchPath, bm.1.parsePath root k entry.path = .ok matchPath ∧
          Event.test bm.1 matchPath ∈ (runKustomizations W m).1) := by
  have hwork : ∀ ev ∈ (runKustomizations W m).1,
      (∀ name, ev ≠ .lookupEnv name) → (∀ p, ev ≠ .isDir p) → (∀ p, ev ≠ .walk p) →
      ∃ entry ∈ W.Walk root, handled entry = true ∧
        ∃ bm : directoryBase × PatternMatcher, ev ∈ baseEvents root k entry.path bm := by
    intro ev hev h1 h2 h3
    rcases runKustomizations_trace W m ev hev with h | ⟨p, h⟩ | ⟨k2, root2, hE2, hG2, h | h⟩
    · exact absurd h (h1 _)
    · exact absurd h (h2 _)
    · exact absurd h (h3 _)
    · rw [hE] at hE2
      cases hE2
      rw [hG] at hG2
      cases hG2
      obtain ⟨entry, he, hh, _, bm, _, hmem⟩ := h
      exact ⟨entry, he, hh, bm, hmem⟩
  refine ⟨?_, ?_, ?_, ?_⟩
  · intro n entry st hd herr
    simp [walkFn, herr, hd]
  · intro ev hev path hkind
    obtain ⟨entry, he, hh, bm, hmem⟩ := hwork ev hev
      (by rintro name rfl; rcases hkind with h | ⟨_, h⟩ <;> cases h)
      (by rintro p rfl; rcases hkind with h | ⟨_, h⟩ <;> cases h)
      (by rintro p rfl; rcases hkind with h | ⟨_, h⟩ <;> cases h)
    refine ⟨entry, he, ((handled_iff entry).mp hh).2, ?_⟩
    simp only [baseEvents, List.mem_cons] at hmem
    rcases hkind with rfl | ⟨b, rfl⟩
    · rcases hmem with h | h
      · cases h
      · match hp : bm.1.parsePath root k entry.path with
        | .error e => simp [hp] at h
        | .ok mp =>
          simp only [hp, List.mem_cons] at h
          rcases h with h | h
          · cases h
          · match hm : bm.2.Matches mp with
            | .ok true => simp [hm] at h; exact h.symm
            | .ok false => simp [hm] at h
            | .error e => simp [hm] at h
    · rcases hmem with h | h
      · simp only [Event.translate.injEq] at h
        exact h.2.symm
      · match hp : bm.1.parsePath root k entry.path with
        | .error e => simp [hp] at h
        | .ok mp =>
          simp only [hp, List.mem_cons] at h
          rcases h with h | h
          · cases h
          · match hm : bm.2.Matches mp with
            | .ok true => simp [hm] at h
            | .ok false => simp [hm] at h
            | .error e => simp [hm] at h
  · intro b matchPath hev
    obtain ⟨entry, he, hh, bm, hmem⟩ := hwork _ hev
      (by intro name h; cases h) (by intro p h; cases h) (by intro p h; cases h)
    refine ⟨entry, he, ((handled_iff entry).mp hh).2, ?_⟩
    simp only [baseEvents, List.mem_cons] at hmem
    rcases hmem with h | h
    · cases h
    · match hp : bm.1.parsePath root k entry.path with
      | .error e => simp [hp] at h
      | .ok mp =>
        simp only [hp, List.mem_cons] at h
        rcases h with h | h
        · simp only [Event.test.injEq] at h
          rw [h.1, h.2, hp]
        · match hm : bm.2.Matches mp with
          | .ok true => simp [hm] at h
          | .ok false => simp [hm] at h
          | .error e => simp [hm] at h
  · intro hfair hclean entry he hd bm hbm
    have hh : handled entry = true := by
      have hc := hclean entry he
      simp only [entryClean, Bool.and_eq_true, Option.isNone_iff_eq_none] at hc
      simp [handled, hc.1, hd]
    have hrun := runKustomizations_clean W m k root hE hG hfair hclean
    have hnf := entryClean_fault W m root k entry (hclean entry he) hh m (List.Perm.refl m) bm hbm
    have htr : ∀ ev ∈ baseEvents root k entry.path bm, ev ∈ (runKustomizations W m).1 := by
      intro ev hev
      rw [hrun]
      exact List.mem_append_right _
        (mem_walkTrace W m root k hfair _ 0 entry he hh bm hbm ev hev)
    refine ⟨htr _ (by simp [baseEvents]), ?_⟩
    match hp : bm.1.parsePath root k entry.path with
    | .error e => simp [baseFault, baseVerdict, hp] at hnf
    | .ok mp => exact ⟨mp, rfl, htr _ (by simp [baseEvents, hp])⟩

theorem files_are_skipped_witness :
    (matchersOf fileGlobBuild).map (fun bm =>
        selects "/R".toList "/R/k8s".toList "/R/a/api/kustomization.yaml".toList bm) =
        [true, false] ∧
      walkFn (treeWorld fileGlobBuild inOrder) (matchersOf fileGlobBuild) "/R".toList
        "/R/k8s".toList 4 ⟨"/R/a/api/kustomization.yaml".toList, false, none⟩ ⟨[], []⟩ =
        (⟨[], []⟩, none) ∧
      dispatched (runKustomizations (treeWorld fileGlobBuild inOrder)
        (matchersOf fileGlobBuild)).1 = [] :=
  ⟨by decide,
    (files_are_skipped (treeWorld fileGlobBuild inOrder) (matchersOf fileGlobBuild)
      "/R/k8s".toList "/R".toList rfl rfl).1 4 _ _ rfl rfl,
    by decide⟩

/-! ## Relative working directories and unknown bases -/

theorem gitRootLoop_dot_hangs (W : World) (kustomizationPath : Str)
    (hgit : W.IsDir ".git".toList = false) :
    ∀ (fuel : Nat) (trace : List Event),
      (gitRootLoop W kustomizationPath fuel ".".toList trace).2 = .error .hang := by
  intro fuel
  induction fuel with
  | zero => intro trace; rfl
  | succ n ih =>
    intro trace
    have h1 : ¬ (".".toList = "/".toList) := by decide
    have h2 : Dir ".".toList = ".".toList := by decide
    have h3 : Join ".".toList ".git".toList = ".git".toList := by decide
    rw [gitRootLoop, if_neg h1]
    simp only [h2, h3, hgit]
    exact ih _

/-- Claim C22, where it fails.  From a working directory whose parent is `.`,
such as the empty path, `.` or a relative name without separator, and without
a directory `.git` under the current directory, the loop of `getGitRootPath`
reaches `.` and stays there: whatever the number of turns allowed, it has not
returned, neither a root nor the not-found error. -/
theorem getGitRootPath_hangs_on_relative_path (W : World) (path : Str)
    (hdir : Dir path = ".".toList) (hgit : W.IsDir ".git".toList = false) :
    (∀ (fuel : Nat) (trace : List Event),
      (gitRootLoop W path fuel path trace).2 = .error .hang) ∧
    (getGitRootPath W path).2 = .error .hang := by
  have hne : ¬ (path = "/".toList) := by
    intro h
    rw [h] at hdir
    exact absurd hdir (by decide)
  have hloop : ∀ (fuel : Nat) (trace : List Event),
      (gitRootLoop W path fuel path trace).2 = .error .hang := by
    intro fuel trace
    cases fuel with
    | zero => rfl
    | succ n =>
      have h3 : Join ".".toList ".git".toList = ".git".toList := by decide
      rw [gitRootLoop, if_neg hne]
      simp only [hdir, h3, hgit]
      exact gitRootLoop_dot_hangs W path hgit n _
  exact ⟨hloop, hloop _ _⟩

theorem getGitRootPath_hangs_on_relative_path_witness :
    (∀ (fuel : Nat) (trace : List Event),
      (gitRootLoop relativeWorld [] fuel [] trace).2 = .error .hang) ∧
    (getGitRootPath relativeWorld "k8s".toList).2 = .error .hang ∧
    (GenerateManifests relativeWorld bufferWriter [] []).2 = ([], some .hang) :=
  ⟨(getGitRootPath_hangs_on_relative_path relativeWorld [] (by decide) (by decide)).1,
    (getGitRootPath_hangs_on_relative_path relativeWorld "k8s".toList (by decide)
      (by decide)).2, by decide⟩

theorem globsOf_knownBases (base : Str) (h : base = "git".toList ∨ base = "pwd".toList)
    (dirs : List Directory) :
    globsOf base (dirs.filter (fun dir => dir.Base = "git".toList ∨ dir.Base = "pwd".toList)) =
      globsOf base dirs := by
  simp only [globsOf, List.filter_filter]
  congr 1
  apply List.filter_congr
  intro d _
  by_cases hb : d.Base = base
  · subst hb
    simp only [decide_eq_true h, Bool.and_true]
  · simp only [hb, decide_False, Bool.false_and]

theorem makePatternMatcher_knownBases (b : directoryBase) (h : b = git ∨ b = pwd)
    (kb : KustomizeBuild) :
    patternText b kb.Spec.Directories = patternText b (knownBases kb).Spec.Directories ∧
      makePatternMatcher b kb = makePatternMatcher b (knownBases kb) := by
  have hp : patternText b kb.Spec.Directories =
      patternText b (knownBases kb).Spec.Directories := by
    rcases h with rfl | rfl
    · rw [patternText_ok git "git".toList rfl, patternText_ok git "git".toList rfl]
      simp only [knownBases]
      rw [globsOf_knownBases _ (Or.inl rfl)]
    · rw [patternText_ok pwd "pwd".toList rfl, patternText_ok pwd "pwd".toList rfl]
      simp only [knownBases]
      rw [globsOf_knownBases _ (Or.inr rfl)]
  exact ⟨hp, by simp only [makePatternMatcher, hp]⟩

/-- Claim C25.  The entries whose base string is neither `git` nor `pwd`
contribute no pattern to either matcher and raise no error: the pattern text of
each base, the two matchers and the whole run are those of the specification
without these entries.  A specification that has only such entries is accepted
with two empty matchers, which select no directory, so that nothing is handed to
the build. -/
theorem unknown_base_contributes_nothing (kb : KustomizeBuild) :
    (∀ b : directoryBase, b = git ∨ b = pwd →
      patternText b kb.Spec.Directories = patternText b (knownBases kb).Spec.Directories ∧
        makePatternMatcher b kb = makePatternMatcher b (knownBases kb)) ∧
    makePatternMatchers kb = makePatternMatchers (knownBases kb) ∧
    (∀ W : World, makeManifests W kb = makeManifests W (knownBases kb)) ∧
    ((∀ d ∈ kb.Spec.Directories, d.Base ≠ "git".toList ∧ d.Base ≠ "pwd".toList) →
      makePatternMatchers kb = .ok [(git, ⟨[]⟩), (pwd, ⟨[]⟩)] ∧
        (∀ (b : directoryBase) (root k path : Str), selects root k path (b, ⟨[]⟩) = false) ∧
        ∀ W : World, W.rangeFair → dispatched (makeManifests W kb).1 = [] ∧
          ∀ ms, (makeManifests W kb).2 = .ok ms → ms = []) := by
  have hM : makePatternMatchers kb = makePatternMatchers (knownBases kb) := by
    simp only [makePatternMatchers, (makePatternMatcher_knownBases git (Or.inl rfl) kb).2,
      (makePatternMatcher_knownBases pwd (Or.inr rfl) kb).2]
  refine ⟨fun b hb => makePatternMatcher_knownBases b hb kb, hM, ?_, ?_⟩
  · intro W
    simp only [makeManifests, hM]
  · intro hstray
    have hg := makePatternMatcher_no_entry git "git".toList kb rfl (fun d hd => (hstray d hd).1)
    have hp := makePatternMatcher_no_entry pwd "pwd".toList kb rfl (fun d hd => (hstray d hd).2)
    have hM2 : makePatternMatchers kb = .ok [(git, ⟨[]⟩), (pwd, ⟨[]⟩)] := by
      simp only [makePatternMatchers, hg, hp]
    refine ⟨hM2, fun b root k path => selects_empty root k path b, ?_⟩
    intro W hfair
    have hsel : ∀ i, ∀ bm ∈ W.rangeOrder i [(git, (⟨[]⟩ : PatternMatcher)), (pwd, ⟨[]⟩)],
        ∀ root k path, selects root k path bm = false := by
      intro i bm hbm root k path
      have hmem := (hfair i _).mem_iff.mp hbm
      simp only [List.mem_cons, List.mem_singleton, List.not_mem_nil, or_false] at hmem
      rcases hmem with rfl | rfl <;> exact selects_empty root k path _
    simp only [makeManifests, hM2]
    exact runKustomizations_nothing_selected W _ hsel

theorem unknown_base_contributes_nothing_witness :
    makePatternMatchers strayBasesBuild = .ok [(git, ⟨[]⟩), (pwd, ⟨[]⟩)] ∧
      (GenerateManifests (treeWorld strayBasesBuild inOrder) bufferWriter [] []).2 =
        ([], none) ∧
      dispatched (makeManifests (treeWorld strayBasesBuild inOrder) strayBasesBuild).1 = [] :=
  ⟨((unknown_base_contributes_nothing strayBasesBuild).2.2.2 (by decide)).1, by decide,
    (((unknown_base_contributes_nothing strayBasesBuild).2.2.2 (by decide)).2.2
      (treeWorld strayBasesBuild inOrder) (fun _ m => List.Perm.refl m)).1⟩

end kustomizebuild

namespace argocdproject

open kustomizebuild (Str Fault)

/-! ## The applications -/

theorem makeApplicationsLoop_forall2 (E : Env) (p : ArgoCDProject) :
    ∀ (apps : List Application) (acc ms : List Str),
      makeApplicationsLoop E p apps acc = .ok ms →
      ∃ made, ms = acc ++ made ∧
        List.Forall₂ (fun app manifest => ∃ prepared, prepareApplication p app = .ok prepared ∧
          marshalYAMLWithoutStatusField E (.application prepared) = .ok manifest) apps made := by
  intro apps
  induction apps with
  | nil =>
    intro acc ms h
    simp only [makeApplicationsLoop, Except.ok.injEq] at h
    exact ⟨[], by simp [h], List.Forall₂.nil⟩
  | cons app rest ih =>
    intro acc ms h
    simp only [makeApplicationsLoop] at h
    match hp : prepareApplication p app with
    | .error e => rw [hp] at h; cases h
    | .ok prepared =>
      rw [hp] at h
      simp only at h
      match hm : marshalYAMLWithoutStatusField E (.application prepared) with
      | .error e => rw [hm] at h; cases h
      | .ok b =>
        rw [hm] at h
        simp only at h
        obtain ⟨made, hms, hall⟩ := ih _ ms h
        exact ⟨b :: made, by simp [hms], List.Forall₂.cons ⟨prepared, hp, hm⟩ hall⟩

/-- Claim C17, at the input where the code departs from it.  With the
environment `staging` and a template that brings its own path, the generated
application keeps that path (`namespaces/example`) instead of getting
`./k8s/overlays/staging`, which the claim and the test suite expect whenever the
environment is set; only its target revision becomes `env-staging`. -/
theorem template_path_is_kept :
    (prepareApplication (checkerProject "staging".toList [customPathApp]) customPathApp).map
        (fun app => app.Spec.Source) =
      .ok (some ⟨"https://github.com/inloco/github-checker.git".toList,
        "namespaces/example".toList, "env-staging".toList⟩) ∧
    makeApplications plainEnv (checkerProject "staging".toList [customPathApp]) =
      .ok ["kind: Application\nmetadata: github-checker-app\npath: namespaces/example\n".toList] := by
  decide

/-- What the loop of `makeApplications` does to the source block of a template.
With a non-empty environment e the generated application has target revision
`env-`e and, as source path, `./k8s/overlays/`e when the path of the template
is empty and the path of the template otherwise; the repository is unchanged.
With an empty environment the source block of any template, present or not, is
emitted unchanged.  Every manifest that `makeApplications` returns is the
encoding of the application so generated from its template, in the order of the
templates. -/
theorem application_source_rewritten (p : ArgoCDProject) :
    (∀ (app : Application) (source : ApplicationSource), app.Spec.Source = some source →
      p.Spec.Environment ≠ [] →
      ∃ generated, prepareApplication p app = .ok generated ∧
        generated.Spec.Source = some
          { RepoURL := source.RepoURL
            Path := if source.Path = [] then "./k8s/overlays/".toList ++ p.Spec.Environment
              else source.Path
            TargetRevision := "env-".toList ++ p.Spec.Environment }) ∧
    (∀ app : Application, p.Spec.Environment = [] →
      ∃ generated, prepareApplication p app = .ok generated ∧
        generated.Spec.Source = app.Spec.Source) ∧
    (∀ (E : Env) (ms : List Str), makeApplications E p = .ok ms →
      List.Forall₂ (fun app manifest => ∃ generated, prepareApplication p app = .ok generated ∧
        marshalYAMLWithoutStatusField E (.application generated) = .ok manifest)
        p.Spec.ApplicationTemplates ms) := by
  refine ⟨?_, ?_, ?_⟩
  · intro app source hsrc henv
    simp only [prepareApplication, hsrc, henv, ne_eq, not_false_eq_true, if_true]
    refine ⟨_, rfl, ?_⟩
    by_cases hp : source.Path = [] <;> simp [hp]
  · intro app henv
    simp only [prepareApplication, henv, ne_eq, not_true_eq_false, if_false]
    exact ⟨_, rfl, rfl⟩
  · intro E ms h
    obtain ⟨made, hms, hall⟩ := makeApplicationsLoop_forall2 E p _ [] ms h
    simp only [List.nil_append] at hms
    rw [hms]
    exact hall

theorem application_source_rewritten_witness :
    ∃ generated, prepareApplication (checkerProject "staging".toList [plainApp]) plainApp =
        .ok generated ∧
      generated.Spec.Source = some ⟨"https://github.com/inloco/github-checker.git".toList,
        "./k8s/overlays/staging".toList, "env-staging".toList⟩ := by
  obtain ⟨generated, h1, h2⟩ :=
    (application_source_rewritten (checkerProject "staging".toList [plainApp])).1 plainApp
      ⟨"https://github.com/inloco/github-checker.git".toList, [], []⟩ rfl (by decide)
  exact ⟨generated, h1, h2⟩

/-! ## The destinations of the app project -/

theorem mem_mapSet {V : Type} (key : Str) (value : V) :
    ∀ (m : List (Str × V)) (e : Str × V), e ∈ mapSet m key value → e ∈ m ∨ e = (key, value) := by
  intro m
  induction m with
  | nil => intro e h; right; simpa [mapSet] using h
  | cons head rest ih =>
    intro e h
    obtain ⟨k, v⟩ := head
    simp only [mapSet] at h
    by_cases hk : k = key
    · simp only [hk, if_true, List.mem_cons] at h
      rcases h with h | h
      · exact Or.inr h
      · exact Or.inl (List.mem_cons_of_mem _ h)
    · simp only [hk, if_false, List.mem_cons] at h
      rcases h with h | h
      · exact Or.inl (by rw [h]; exact List.mem_cons_self _ _)
      · rcases ih e h with h2 | h2
        · exact Or.inl (List.mem_cons_of_mem _ h2)
        · exact Or.inr h2

theorem mem_mapSet_self {V : Type} (key : Str) (value : V) :
    ∀ (m : List (Str × V)), (key, value) ∈ mapSet m key value := by
  intro m
  induction m with
  | nil => simp [mapSet]
  | cons head rest ih =>
    obtain ⟨k, v⟩ := head
    simp only [mapSet]
    by_cases hk : k = key
    · simp [hk]
    · simp only [hk, if_false]
      exact List.mem_cons_of_mem _ ih

theorem mem_mapSet_of_mem {V : Type} (key : Str) (value : V) :
    ∀ (m : List (Str × V)) (e : Str × V), e ∈ m → (e.1 = key → e.2 = value) →
      e ∈ mapSet m key value := by
  intro m
  induction m with
  | nil => intro e h; simp at h
  | cons head rest ih =>
    intro e h hkey
    obtain ⟨k, v⟩ := head
    simp only [mapSet]
    by_cases hk : k = key
    · simp only [hk, if_true]
      rcases List.mem_cons.mp h with h2 | h2
      · subst h2
        have : v = value := hkey hk
        subst this
        rw [← hk]
        exact List.mem_cons_self _ _
      · exact List.mem_cons_of_mem _ h2
    · simp only [hk, if_false]
      rcases List.mem_cons.mp h with h2 | h2
      · rw [h2]; exact List.mem_cons_self _ _
      · exact List.mem_cons_of_mem _ (ih e h2 hkey)

theorem keys_mapSet {V : Type} (key : Str) (value : V) :
    ∀ (m : List (Str × V)),
      (mapSet m key value).map (fun e => e.1) =
        if key ∈ m.map (fun e => e.1) then m.map (fun e => e.1)
        else m.map (fun e => e.1) ++ [key] := by
  intro m
  induction m with
  | nil => simp [mapSet]
  | cons head rest ih =>
    obtain ⟨k, v⟩ := head
    simp only [mapSet]
    by_cases hk : k = key
    · subst hk
      simp only [if_true, List.map_cons, List.mem_cons, true_or]
    · have hk2 : ¬ key = k := fun h => hk h.symm
      simp only [hk, if_false, List.map_cons, ih, List.mem_cons, hk2, false_or]
      by_cases hmem : key ∈ rest.map (fun e => e.1)
      · simp only [hmem, if_true]
      · simp only [hmem, if_false, List.cons_append]

theorem keys_mapSet_nodup {V : Type} (key : Str) (value : V) (m : List (Str × V))
    (h : (m.map (fun e => e.1)).Nodup) : ((mapSet m key value).map (fun e => e.1)).Nodup := by
  rw [keys_mapSet]
  by_cases hmem : key ∈ m.map (fun e => e.1)
  · simp only [hmem, if_true]
    exact h
  · simp only [hmem, if_false]
    exact List.Nodup.append h (List.nodup_singleton _) (by
      intro a ha hb
      simp only [List.mem_singleton] at hb
      subst hb
      exact hmem ha)

/-- The map built from the destinations `ds` on top of `m`: its keys are
distinct, every entry is a destination under its own key, and every value comes
from `m` or from `ds`. -/
theorem destinationFold_invariant (S : ApplicationDestination → Str) :
    ∀ (ds : List ApplicationDestination) (m : List (Str × ApplicationDestination)),
      (m.map (fun e => e.1)).Nodup → (∀ e ∈ m, e.1 = S e.2) →
      ((ds.foldl (fun m d => mapSet m (S d) d) m).map (fun e => e.1)).Nodup ∧
        (∀ e ∈ ds.foldl (fun m d => mapSet m (S d) d) m, e.1 = S e.2) ∧
        (∀ e ∈ ds.foldl (fun m d => mapSet m (S d) d) m, e ∈ m ∨ e.2 ∈ ds) := by
  intro ds
  induction ds with
  | nil => intro m h1 h2; exact ⟨h1, h2, fun e he => Or.inl he⟩
  | cons d rest ih =>
    intro m h1 h2
    have hk := keys_mapSet_nodup (S d) d m h1
    have he : ∀ e ∈ mapSet m (S d) d, e.1 = S e.2 := by
      intro e hmem
      rcases mem_mapSet (S d) d m e hmem with h | h
      · exact h2 e h
      · rw [h]
    obtain ⟨i1, i2, i3⟩ := ih (mapSet m (S d) d) hk he
    refine ⟨i1, i2, ?_⟩
    intro e hmem
    rcases i3 e hmem with h | h
    · rcases mem_mapSet (S d) d m e h with h3 | h3
      · exact Or.inl h3
      · right
        rw [h3]
        exact List.mem_cons_self _ _
    · exact Or.inr (List.mem_cons_of_mem _ h)

/-- When the keys tell the destinations in `all` apart, an entry of the map
stays while destinations of `all` are added, and every added destination gets
its entry. -/
theorem destinationFold_mem (S : ApplicationDestination → Str)
    (all : List ApplicationDestination)
    (hinj : ∀ a ∈ all, ∀ b ∈ all, S a = S b → a = b) :
    ∀ (ds : List ApplicationDestination) (m : List (Str × ApplicationDestination)),
      (∀ d ∈ ds, d ∈ all) →
      (∀ d ∈ all, (S d, d) ∈ m → (S d, d) ∈ ds.foldl (fun m d => mapSet m (S d) d) m) ∧
        (∀ d ∈ ds, (S d, d) ∈ ds.foldl (fun m d => mapSet m (S d) d) m) := by
  intro ds
  induction ds with
  | nil => intro m _; exact ⟨fun d _ h => h, fun d hd => by simp at hd⟩
  | cons x rest ih =>
    intro m hsub
    have hx : x ∈ all := hsub x (List.mem_cons_self _ _)
    obtain ⟨i1, i2⟩ := ih (mapSet m (S x) x) (fun d hd => hsub d (List.mem_cons_of_mem _ hd))
    constructor
    · intro d hd hmem
      refine i1 d hd (mem_mapSet_of_mem (S x) x m _ hmem ?_)
      intro hkey
      exact hinj d hd x hx hkey
    · intro d hd
      rcases List.mem_cons.mp hd with rfl | hmem
      · exact i1 d hx (mem_mapSet_self (S d) d m)
      · exact i2 d hmem

theorem makeProjectRole_ok (p : ArgoCDProject) (ap : AppProject) :
    (∃ role, makeProjectRole ReadOnly p ap = .ok role) ∧
      (∃ role, makeProjectRole ReadSync p ap = .ok role) := by
  constructor
  · simp only [makeProjectRole, accessLevel.String, accessLevel.Policies, if_true]
    exact ⟨_, rfl⟩
  · have h1 : ¬ (ReadSync = ReadOnly) := by decide
    simp only [makeProjectRole, accessLevel.String, accessLevel.Policies, h1, if_false, if_true]
    by_cases hs : p.Spec.Environment = stagingEnvironment
    · simp only [hs, if_true]; exact ⟨_, rfl⟩
    · simp only [hs, if_false]; exact ⟨_, rfl⟩

/-- The app project handed to the encoder always exists; its destinations are
those of the template when it declares some, the values of the destination map
in the order of the `range` otherwise. -/
theorem prepareAppProject_destinations (E : Env) (p : ArgoCDProject) :
    ∃ p2 ap, prepareAppProject E p = .ok (p2, ap) ∧
      ap.Spec.Destinations =
        match p.Spec.AppProject.Spec.Destinations with
        | some ds => some ds
        | none => some ((E.rangeOrder (destinationMap E p.Spec.ApplicationTemplates)).map
            (fun entry => entry.2)) := by
  simp only [prepareAppProject]
  cases hd : p.Spec.AppProject.Spec.Destinations with
  | some ds =>
    simp only
    obtain ⟨r1, h1⟩ := (makeProjectRole_ok _ _).1
    rw [h1]
    simp only
    obtain ⟨r2, h2⟩ := (makeProjectRole_ok _ _).2
    rw [h2]
    exact ⟨_, _, rfl, rfl⟩
  | none =>
    simp only
    obtain ⟨r1, h1⟩ := (makeProjectRole_ok _ _).1
    rw [h1]
    simp only
    obtain ⟨r2, h2⟩ := (makeProjectRole_ok _ _).2
    rw [h2]
    exact ⟨_, _, rfl, rfl⟩

/-- The destination map of a list of templates whose destinations the keys tell
apart: distinct values, and exactly the destinations of the templates. -/
theorem destinationMap_values (E : Env) (apps : List Application)
    (hinj : ∀ a ∈ apps, ∀ b ∈ apps,
      E.destinationString a.Spec.Destination = E.destinationString b.Spec.Destination →
        a.Spec.Destination = b.Spec.Destination) :
    ((destinationMap E apps).map (fun entry => entry.2)).Nodup ∧
      ∀ d, d ∈ (destinationMap E apps).map (fun entry => entry.2) ↔
        ∃ app ∈ apps, app.Spec.Destination = d := by
  have hfold : destinationMap E apps =
      (apps.map (fun app => app.Spec.Destination)).foldl
        (fun m d => mapSet m (E.destinationString d) d) [] := by
    simp only [destinationMap, List.foldl_map]
  have hinj2 : ∀ a ∈ apps.map (fun app => app.Spec.Destination),
      ∀ b ∈ apps.map (fun app => app.Spec.Destination),
        E.destinationString a = E.destinationString b → a = b := by
    intro a ha b hb hab
    obtain ⟨x, hx, rfl⟩ := List.mem_map.mp ha
    obtain ⟨y, hy, rfl⟩ := List.mem_map.mp hb
    exact hinj x hx y hy hab
  obtain ⟨i1, i2, i3⟩ := destinationFold_invariant E.destinationString
    (apps.map (fun app => app.Spec.Destination)) [] List.nodup_nil (fun e he => by simp at he)
  obtain ⟨_, j2⟩ := destinationFold_mem E.destinationString
    (apps.map (fun app => app.Spec.Destination)) hinj2
    (apps.map (fun app => app.Spec.Destination)) [] (fun d hd => hd)
  rw [← hfold] at i1 i2 i3 j2
  constructor
  · have hkeys : (destinationMap E apps).map (fun e => e.1) =
        ((destinationMap E apps).map (fun entry => entry.2)).map E.destinationString := by
      rw [List.map_map]
      exact List.map_congr_left (fun e he => i2 e he)
    rw [hkeys] at i1
    exact List.Nodup.of_map _ i1
  · intro d
    constructor
    · intro hd
      obtain ⟨e, he, rfl⟩ := List.mem_map.mp hd
      rcases i3 e he with h | h
      · simp at h
      · obtain ⟨app, happ, heq⟩ := List.mem_map.mp h
        exact ⟨app, happ, heq⟩
    · rintro ⟨app, happ, rfl⟩
      exact List.mem_map.mpr ⟨_, j2 _ (List.mem_map.mpr ⟨app, happ, rfl⟩), rfl⟩

theorem destinationFold_keys (S : ApplicationDestination → Str) :
    ∀ (ds : List ApplicationDestination) (m : List (Str × ApplicationDestination)),
      (∀ k ∈ m.map (fun e => e.1),
        k ∈ (ds.foldl (fun m d => mapSet m (S d) d) m).map (fun e => e.1)) ∧
      (∀ d ∈ ds, S d ∈ (ds.foldl (fun m d => mapSet m (S d) d) m).map (fun e => e.1)) := by
  intro ds
  induction ds with
  | nil => intro m; exact ⟨fun k hk => hk, fun d hd => by simp at hd⟩
  | cons x rest ih =>
    intro m
    obtain ⟨i1, i2⟩ := ih (mapSet m (S x) x)
    have hkeys : ∀ k, k ∈ m.map (fun e => e.1) ∨ k = S x →
        k ∈ (mapSet m (S x) x).map (fun e => e.1) := by
      intro k hk
      rw [keys_mapSet]
      by_cases hmem : S x ∈ m.map (fun e => e.1)
      · rw [if_pos hmem]
        rcases hk with h | h
        · exact h
        · rw [h]; exact hmem
      · rw [if_neg hmem]
        rcases hk with h | h
        · exact List.mem_append_left _ h
        · rw [h]; exact List.mem_append_right _ (List.mem_singleton_self _)
    constructor
    · intro k hk
      exact i1 k (hkeys k (Or.inl hk))
    · intro d hd
      rcases List.mem_cons.mp hd with rfl | hmem
      · exact i1 _ (hkeys _ (Or.inr rfl))
      · exact i2 d hmem

/-- The destination map of any list of templates: its values are distinct and
have distinct keys, every value is the destination of a template, and the key
of the destination of every template is the key of a value. -/
theorem destinationMap_general (E : Env) (apps : List Application) :
    ((destinationMap E apps).map (fun entry => entry.2)).Nodup ∧
      (((destinationMap E apps).map (fun entry => entry.2)).map E.destinationString).Nodup ∧
      (∀ d ∈ (destinationMap E apps).map (fun entry => entry.2),
        ∃ app ∈ apps, app.Spec.Destination = d) ∧
      (∀ app ∈ apps, ∃ d ∈ (destinationMap E apps).map (fun entry => entry.2),
        E.destinationString d = E.destinationString app.Spec.Destination) := by
  have hfold : destinationMap E apps =
      (apps.map (fun app => app.Spec.Destination)).foldl
        (fun m d => mapSet m (E.destinationString d) d) [] := by
    simp only [destinationMap, List.foldl_map]
  obtain ⟨i1, i2, i3⟩ := destinationFold_invariant E.destinationString
    (apps.map (fun app => app.Spec.Destination)) [] List.nodup_nil (fun e he => by simp at he)
  obtain ⟨_, k2⟩ := destinationFold_keys E.destinationString
    (apps.map (fun app => app.Spec.Destination)) []
  rw [← hfold] at i1 i2 i3 k2
  have hkeys : (destinationMap E apps).map (fun e => e.1) =
      ((destinationMap E apps).map (fun entry => entry.2)).map E.destinationString := by
    rw [List.map_map]
    exact List.map_congr_left (fun e he => i2 e he)
  rw [hkeys] at i1
  refine ⟨List.Nodup.of_map _ i1, i1, ?_, ?_⟩
  · intro d hd
    obtain ⟨e, he, rfl⟩ := List.mem_map.mp hd
    rcases i3 e he with h | h
    · simp at h
    · obtain ⟨app, happ, heq⟩ := List.mem_map.mp h
      exact ⟨app, happ, heq⟩
  · intro app happ
    have hk := k2 _ (List.mem_map.mpr ⟨app, happ, rfl⟩)
    obtain ⟨e, he, hke⟩ := List.mem_map.mp hk
    refine ⟨e.2, List.mem_map.mpr ⟨e, he, rfl⟩, ?_⟩
    rw [← i2 e he]
    exact hke

/-- Claim C18, at an input where it fails.  Two templates have different
destinations to which the generated method `String` gives the same key; the
destination map keeps one entry for the key, that of the later template, and
the destination of the first template does not occur in the app project. -/
theorem colliding_destinations_emit_one :
    labelledApp.Spec.Destination ≠ namedApp.Spec.Destination ∧
      generatedString labelledApp.Spec.Destination =
        generatedString namedApp.Spec.Destination ∧
      (prepareAppProject generatedEnv (checkerProject [] [labelledApp, namedApp])).map
          (fun made => made.2.Spec.Destinations) =
        .ok (some [namedApp.Spec.Destination]) := by
  decide

/-- Claim C18, amended.  `makeAppProject` always builds its app project, whose
encoding is the manifest.  When the project template declares destinations,
they are emitted unchanged.  When it declares none (nil) and the `range` over
the destination map enumerates every entry once, then among the emitted
destinations none occurs twice, no two have the same key under the method
`String`, nothing occurs but destinations of the application templates, and for
every template a destination with the key of its destination occurs: the
destination of the template itself whenever `String` gives different keys to
different destinations of the templates. -/
theorem appProject_destinations (E : Env) (p : ArgoCDProject) :
    ∃ p2 ap, prepareAppProject E p = .ok (p2, ap) ∧
      (makeAppProject E p).map (fun r => r.2) =
        marshalYAMLWithoutStatusField E (.appProject ap) ∧
      (∀ ds, p.Spec.AppProject.Spec.Destinations = some ds → ap.Spec.Destinations = some ds) ∧
      (p.Spec.AppProject.Spec.Destinations = none → E.rangeFair →
        ∃ ds, ap.Spec.Destinations = some ds ∧ ds.Nodup ∧
          (ds.map E.destinationString).Nodup ∧
          (∀ d ∈ ds, ∃ app ∈ p.Spec.ApplicationTemplates, app.Spec.Destination = d) ∧
          (∀ app ∈ p.Spec.ApplicationTemplates, ∃ d ∈ ds,
            E.destinationString d = E.destinationString app.Spec.Destination) ∧
          ((∀ a ∈ p.Spec.ApplicationTemplates, ∀ b ∈ p.Spec.ApplicationTemplates,
              E.destinationString a.Spec.Destination =
                E.destinationString b.Spec.Destination →
              a.Spec.Destination = b.Spec.Destination) →
            ∀ d, d ∈ ds ↔ ∃ app ∈ p.Spec.ApplicationTemplates, app.Spec.Destination = d)) := by
  obtain ⟨p2, ap, hok, hds⟩ := prepareAppProject_destinations E p
  refine ⟨p2, ap, hok, ?_, ?_, ?_⟩
  · simp only [makeAppProject, hok]
    cases marshalYAMLWithoutStatusField E (.appProject ap) <;> rfl
  · intro ds hsome
    rw [hds, hsome]
  · intro hnone hfair
    rw [hnone] at hds
    have hperm := (hfair (destinationMap E p.Spec.ApplicationTemplates)).map
      (fun entry => entry.2)
    obtain ⟨g1, g2, g3, g4⟩ := destinationMap_general E p.Spec.ApplicationTemplates
    refine ⟨_, hds, hperm.nodup_iff.mpr g1, (hperm.map E.destinationString).nodup_iff.mpr g2,
      ?_, ?_, ?_⟩
    · intro d hd
      exact g3 d (hperm.mem_iff.mp hd)
    · intro app happ
      obtain ⟨d, hd, hkey⟩ := g4 app happ
      exact ⟨d, hperm.mem_iff.mpr hd, hkey⟩
    · intro hinj d
      rw [hperm.mem_iff]
      exact (destinationMap_values E _ hinj).2 d

theorem appProject_destinations_witness :
    ∃ p2 ap, prepareAppProject plainEnv
        (checkerProject "staging".toList [plainApp, anotherApp, customPathApp]) = .ok (p2, ap) ∧
      ∃ ds, ap.Spec.Destinations = some ds ∧ ds.Nodup ∧
        ∀ d, d ∈ ds ↔ ∃ app ∈ [plainApp, anotherApp, customPathApp], app.Spec.Destination = d := by
  obtain ⟨p2, ap, h1, _, _, h4⟩ :=
    appProject_destinations plainEnv
      (checkerProject "staging".toList [plainApp, anotherApp, customPathApp])
  obtain ⟨ds, hds, hnodup, _, _, _, hiff⟩ := h4 rfl (fun m => List.Perm.refl m)
  exact ⟨p2, ap, h1, ds, hds, hnodup, hiff (by decide)⟩

/-! ## The status key, the nil source and the policies -/

theorem overridePolicy_not_default (name : Str) : overridePolicy name ∉ defaultSyncPolicies name := by
  intro h
  simp only [defaultSyncPolicies, overridePolicy, policyLine, List.mem_cons, List.mem_singleton,
    List.not_mem_nil, or_false, List.append_assoc, String.toList, List.append_cancel_left_eq] at h
  simp at h

theorem mem_mapDelete {V : Type} (m : List (Str × V)) (key : Str) (entry : Str × V) :
    entry ∈ mapDelete m key ↔ entry ∈ m ∧ entry.1 ≠ key := by
  simp [mapDelete]

theorem marshal_of_ok (E : Env) (v : Manifest) (manifest : Str)
    (h : marshalYAMLWithoutStatusField E v = .ok manifest) :
    ∃ vm, (match v with
        | .appProject p => E.jsonAppProject p
        | .application a => E.jsonApplication a) = .ok vm ∧
      E.yamlMarshal (mapDelete vm yamlStatusField) = .ok manifest := by
  simp only [marshalYAMLWithoutStatusField] at h
  cases v with
  | appProject p =>
    simp only at h ⊢
    match hj : E.jsonAppProject p with
    | .error e => rw [hj] at h; cases h
    | .ok vm => rw [hj] at h; exact ⟨vm, rfl, h⟩
  | application a =>
    simp only at h ⊢
    match hj : E.jsonApplication a with
    | .error e => rw [hj] at h; cases h
    | .ok vm => rw [hj] at h; exact ⟨vm, rfl, h⟩

theorem makeApplicationsLoop_marshalled (E : Env) (p : ArgoCDProject) :
    ∀ (apps : List Application) (acc ms : List Str),
      makeApplicationsLoop E p apps acc = .ok ms →
      (∀ m ∈ acc, ∃ v, marshalYAMLWithoutStatusField E v = .ok m) →
      ∀ m ∈ ms, ∃ v, marshalYAMLWithoutStatusField E v = .ok m := by
  intro apps
  induction apps with
  | nil =>
    intro acc ms h hacc
    simp only [makeApplicationsLoop, Except.ok.injEq] at h
    rw [← h]
    exact hacc
  | cons app rest ih =>
    intro acc ms h hacc
    simp only [makeApplicationsLoop] at h
    match hp : prepareApplication p app with
    | .error e => rw [hp] at h; cases h
    | .ok prepared =>
      rw [hp] at h
      simp only at h
      match hm : marshalYAMLWithoutStatusField E (.application prepared) with
      | .error e => rw [hm] at h; cases h
      | .ok b =>
        rw [hm] at h
        simp only at h
        refine ih _ ms h ?_
        intro m hmem
        rcases List.mem_append.mp hmem with h1 | h1
        · exact hacc m h1
        · simp only [List.mem_singleton] at h1
          exact ⟨_, h1 ▸ hm⟩

/-- Claim C21.  The map that `marshalYAMLWithoutStatusField` hands to the YAML
encoder has no key `status`, and its other entries are those of the decoded
object, unchanged and in their order; the manifest is the encoding of that map.
Every manifest that `makeManifests` returns, the app project and each
application, is made this way, whatever the templates of the input carry. -/
theorem status_key_is_removed (E : Env) :
    (∀ vm : JSONMap,
      (∀ entry ∈ mapDelete vm yamlStatusField, entry.1 ≠ yamlStatusField) ∧
      (∀ entry : Str × Str, entry.1 ≠ yamlStatusField →
        (entry ∈ mapDelete vm yamlStatusField ↔ entry ∈ vm)) ∧
      (mapDelete vm yamlStatusField).Sublist vm) ∧
    (∀ (v : Manifest) (manifest : Str), marshalYAMLWithoutStatusField E v = .ok manifest →
      ∃ vm, (match v with
          | .appProject p => E.jsonAppProject p
          | .application a => E.jsonApplication a) = .ok vm ∧
        E.yamlMarshal (mapDelete vm yamlStatusField) = .ok manifest) ∧
    (∀ (p : ArgoCDProject) (manifests : List Str), makeManifests E p = .ok manifests →
      ∀ manifest ∈ manifests, ∃ v, marshalYAMLWithoutStatusField E v = .ok manifest) := by
  refine ⟨?_, ?_, ?_⟩
  · intro vm
    refine ⟨?_, ?_, ?_⟩
    · intro entry h
      exact ((mem_mapDelete vm _ entry).mp h).2
    · intro entry hne
      rw [mem_mapDelete]
      exact ⟨fun h => h.1, fun h => ⟨h, hne⟩⟩
    · exact List.filter_sublist _
  · intro v manifest h
    exact marshal_of_ok E v manifest h
  · intro p manifests h manifest hmem
    simp only [makeManifests, makeAppProject] at h
    match hp : prepareAppProject E p with
    | .error e => rw [hp] at h; cases h
    | .ok (p2, ap) =>
      rw [hp] at h
      simp only at h
      match hm : marshalYAMLWithoutStatusField E (.appProject ap) with
      | .error e => rw [hm] at h; cases h
      | .ok b =>
        rw [hm] at h
        simp only at h
        match ha : makeApplications E p2 with
        | .error e => rw [ha] at h; cases h
        | .ok bs =>
          rw [ha] at h
          simp only [Except.ok.injEq] at h
          rw [← h] at hmem
          rcases List.mem_append.mp hmem with h1 | h1
          · simp only [List.mem_singleton] at h1
            exact ⟨_, h1 ▸ hm⟩
          · exact makeApplicationsLoop_marshalled E p2 _ [] bs ha
              (fun m hm2 => by simp at hm2) manifest h1

theorem status_key_is_removed_witness :
    makeManifests plainEnv (checkerProject "".toList [syncedApp]) =
      .ok ["kind: AppProject\nmetadata: github-checker\n".toList,
        "kind: Application\nmetadata: github-checker-app\npath: \n".toList] ∧
    ∀ manifest ∈ ["kind: AppProject\nmetadata: github-checker\n".toList,
        "kind: Application\nmetadata: github-checker-app\npath: \n".toList],
      ∃ v, marshalYAMLWithoutStatusField plainEnv v = .ok manifest :=
  ⟨by decide, (status_key_is_removed plainEnv).2.2 (checkerProject "".toList [syncedApp]) _
    (by decide)⟩

/-- Claim C23, at the input where it fails.  With the environment `staging`, a
template without a source block stops `makeApplications` with a nil
dereference: no manifest is returned, and `GenerateManifests` writes nothing.
With an empty environment the same template gives its manifest. -/
theorem makeApplications_nil_source_panics :
    prepareApplication (checkerProject "staging".toList [sourcelessApp]) sourcelessApp =
      .error (.panic "invalid memory address or nil pointer dereference".toList) ∧
    makeApplications plainEnv (checkerProject "staging".toList [sourcelessApp]) =
      .error (.panic "invalid memory address or nil pointer dereference".toList) ∧
    makeManifests plainEnv (checkerProject "staging".toList [plainApp, sourcelessApp]) =
      .error (.panic "invalid memory address or nil pointer dereference".toList) ∧
    makeApplications plainEnv (checkerProject "".toList [sourcelessApp]) =
      .ok ["kind: Application\nmetadata: github-checker-app\npath: \n".toList] := by
  decide

/-- Claim C26.  For every project name and environment, `ReadOnly` has exactly
one policy, `get` on everything of the project, and `ReadSync` has the eight
default policies followed by the `override` policy when the environment is
`staging` and by nothing otherwise: the `override` policy is among the policies
if and only if the environment is `staging`, and there are nine policies in
`staging` and eight elsewhere. -/
theorem Policies_override_only_in_staging (name environment : Str) :
    ReadOnly.Policies name environment =
      .ok ["p, proj:".toList ++ name ++ ":read-only, *, get, ".toList ++ name ++
        "/*, allow".toList] ∧
    ReadSync.Policies name environment =
      .ok (defaultSyncPolicies name ++
        if environment = stagingEnvironment then [overridePolicy name] else []) ∧
    (defaultSyncPolicies name).length = 8 ∧
    overridePolicy name = "p, proj:".toList ++ name ++
      ":read-sync, applications, override, ".toList ++ name ++ "/*, allow".toList ∧
    (∀ policies, ReadSync.Policies name environment = .ok policies →
      (overridePolicy name ∈ policies ↔ environment = stagingEnvironment) ∧
      policies.length = if environment = stagingEnvironment then 9 else 8) := by
  have hsync : ReadSync.Policies name environment =
      .ok (defaultSyncPolicies name ++
        if environment = stagingEnvironment then [overridePolicy name] else []) := by
    have h1 : ¬ (ReadSync = ReadOnly) := by decide
    simp only [accessLevel.Policies, h1, if_false, if_true, defaultSyncPolicies, overridePolicy]
    by_cases hs : environment = stagingEnvironment
    · simp only [hs, if_true]
    · simp only [hs, if_false, List.append_nil]
  refine ⟨?_, hsync, rfl, ?_, ?_⟩
  · simp [accessLevel.Policies, policyLine]
  · simp [overridePolicy, policyLine]
  · intro policies h
    rw [hsync] at h
    simp only [Except.ok.injEq] at h
    rw [← h]
    by_cases hs : environment = stagingEnvironment
    · simp only [hs, if_true]
      exact ⟨⟨fun _ => trivial, fun _ => by simp⟩, by simp [defaultSyncPolicies]⟩
    · simp only [hs, if_false, List.append_nil, iff_false]
      exact ⟨overridePolicy_not_default name, rfl⟩

theorem Policies_override_only_in_staging_witness :
    overridePolicy "github-checker".toList ∈
        defaultSyncPolicies "github-checker".toList ++ [overridePolicy "github-checker".toList] ∧
      (defaultSyncPolicies "github-checker".toList ++
        [overridePolicy "github-checker".toList]).length = 9 := by
  have h := (Policies_override_only_in_staging "github-checker".toList "staging".toList).2.2.2.2
    (defaultSyncPolicies "github-checker".toList ++ [overridePolicy "github-checker".toList])
    (by decide)
  exact ⟨h.1.mpr rfl, h.2⟩

end argocdproject

namespace namespacegen

open kustomizebuild (Str Fault)
open k8s (Subject RoleBinding)

theorem makeSubjects_acc (acc : List Subject) :
    ∀ (names : List Str),
      names.foldl (fun subjects name => some (subjects.getD [] ++ [groupSubject name]))
        (some acc) = some (acc ++ names.map groupSubject) := by
  intro names
  induction names generalizing acc with
  | nil => simp
  | cons name rest ih =>
    rw [List.foldl_cons]
    simp only [Option.getD_some]
    rw [ih]
    simp

/-- The subjects are nil for no name and one group subject per name, in order,
otherwise. -/
theorem makeSubjects_names (names : List Str) :
    makeSubjects names = if names = [] then none else some (names.map groupSubject) := by
  cases names with
  | nil => rfl
  | cons name rest =>
    simp only [makeSubjects, List.foldl_cons, Option.getD_none, List.nil_append]
    rw [makeSubjects_acc]
    simp

/-- Claim C19.  For every input and each of the two access levels, the role
binding that `makeRoleBinding` encodes has the long name of the level
(`namespaced-ro` or `namespaced-rw`) as its name and as the name of its role
reference, the name of the input as its own namespace and a reference to a
`ClusterRole` of the group `rbac.authorization.k8s.io`.  Its subjects are, for
each access-control name of the level in order and then for the name made of
the name of the input, a colon and the short name of the level (`ro` or `rw`),
the subject of kind `Group` of the group `rbac.authorization.k8s.io` with that
name: one more subject than access-control names. -/
theorem makeRoleBinding_contents (E : Env) (ns : Namespace) (level : AccessLevel)
    (names : List Str)
    (h : (level = ReadOnly ∧ names = ns.AccessControl.ReadOnly) ∨
      (level = ReadWrite ∧ names = ns.AccessControl.ReadWrite)) :
    ∃ (rb : RoleBinding) (longName shortName : Str),
      level.LongName = .ok longName ∧ level.ShortName = .ok shortName ∧
      (longName, shortName) =
        (if level = ReadOnly then ("namespaced-ro".toList, "ro".toList)
          else ("namespaced-rw".toList, "rw".toList)) ∧
      roleBindingOf level ns = .ok rb ∧
      makeRoleBinding E level ns = E.marshalRoleBinding rb ∧
      rb.ObjectMeta.Name = longName ∧ rb.RoleRef.Name = longName ∧
      rb.ObjectMeta.Namespace = ns.ObjectMeta.Name ∧
      rb.RoleRef.Kind = "ClusterRole".toList ∧
      rb.RoleRef.APIGroup = "rbac.authorization.k8s.io".toList ∧
      rb.Subjects = some ((names ++ [ns.ObjectMeta.Name ++ ":".toList ++ shortName]).map
        (fun name =>
          { Kind := "Group".toList, APIGroup := "rbac.authorization.k8s.io".toList,
            Name := name, Namespace := [] })) ∧
      (∀ subjects, rb.Subjects = some subjects →
        subjects.length = names.length + 1 ∧
        subjects.map (fun subject => subject.Name) =
          names ++ [ns.ObjectMeta.Name ++ ":".toList ++ shortName] ∧
        ∀ subject ∈ subjects, subject.Kind = "Group".toList ∧
          subject.APIGroup = "rbac.authorization.k8s.io".toList ∧ subject.Namespace = []) := by
  have hsub : ∀ shortName : Str,
      makeSubjects (names ++ [ns.ObjectMeta.Name ++ ":".toList ++ shortName]) =
        some ((names ++ [ns.ObjectMeta.Name ++ ":".toList ++ shortName]).map
          (fun name =>
            ({ Kind := "Group".toList, APIGroup := "rbac.authorization.k8s.io".toList,
               Name := name, Namespace := [] } : Subject))) := by
    intro shortName
    rw [makeSubjects_names]
    have hne : ¬ (names ++ [ns.ObjectMeta.Name ++ ":".toList ++ shortName] = []) := by simp
    rw [if_neg hne]
    rfl
  have hall : ∀ (shortName : Str) (subjects : List Subject),
      some ((names ++ [ns.ObjectMeta.Name ++ ":".toList ++ shortName]).map
          (fun name =>
            ({ Kind := "Group".toList, APIGroup := "rbac.authorization.k8s.io".toList,
               Name := name, Namespace := [] } : Subject))) = some subjects →
      subjects.length = names.length + 1 ∧
        subjects.map (fun subject => subject.Name) =
          names ++ [ns.ObjectMeta.Name ++ ":".toList ++ shortName] ∧
        ∀ subject ∈ subjects, subject.Kind = "Group".toList ∧
          subject.APIGroup = "rbac.authorization.k8s.io".toList ∧ subject.Namespace = [] := by
    intro shortName subjects hs
    simp only [Option.some.injEq] at hs
    rw [← hs]
    refine ⟨by simp, ?_, ?_⟩
    · rw [List.map_map]
      exact List.map_id' _
    · intro subject hmem
      obtain ⟨name, _, rfl⟩ := List.mem_map.mp hmem
      exact ⟨rfl, rfl, rfl⟩
  rcases h with ⟨rfl, rfl⟩ | ⟨rfl, rfl⟩
  · have hrb : roleBindingOf ReadOnly ns = .ok
        { TypeMeta := ⟨"RoleBinding".toList, k8s.rbacGroupVersion⟩
          ObjectMeta := { k8s.ObjectMeta.empty with
            Namespace := ns.ObjectMeta.Name, Name := "namespaced-ro".toList }
          RoleRef := ⟨k8s.rbacGroupName, "ClusterRole".toList, "namespaced-ro".toList⟩
          Subjects := makeSubjects
            (ns.AccessControl.ReadOnly ++ [ns.ObjectMeta.Name ++ ":".toList ++ "ro".toList]) } :=
      rfl
    refine ⟨_, "namespaced-ro".toList, "ro".toList, rfl, rfl, rfl, hrb, ?_, rfl, rfl, rfl, rfl,
      rfl, hsub _, ?_⟩
    · simp only [makeRoleBinding, hrb]
    · intro subjects hs
      exact hall "ro".toList subjects ((hsub _).symm.trans hs)
  · have hrb : roleBindingOf ReadWrite ns = .ok
        { TypeMeta := ⟨"RoleBinding".toList, k8s.rbacGroupVersion⟩
          ObjectMeta := { k8s.ObjectMeta.empty with
            Namespace := ns.ObjectMeta.Name, Name := "namespaced-rw".toList }
          RoleRef := ⟨k8s.rbacGroupName, "ClusterRole".toList, "namespaced-rw".toList⟩
          Subjects := makeSubjects
            (ns.AccessControl.ReadWrite ++ [ns.ObjectMeta.Name ++ ":".toList ++ "rw".toList]) } :=
      rfl
    refine ⟨_, "namespaced-rw".toList, "rw".toList, rfl, rfl, rfl, hrb, ?_, rfl, rfl, rfl, rfl,
      rfl, hsub _, ?_⟩
    · simp only [makeRoleBinding, hrb]
    · intro subjects hs
      exact hall "rw".toList subjects ((hsub _).symm.trans hs)

theorem makeRoleBinding_contents_witness :
    ∃ rb : RoleBinding, roleBindingOf ReadWrite exampleNamespace = .ok rb ∧
      rb.Subjects = some
        [⟨"Group".toList, "rbac.authorization.k8s.io".toList, "sre:eng-0".toList, []⟩,
          ⟨"Group".toList, "rbac.authorization.k8s.io".toList, "sre:eng-1".toList, []⟩,
          ⟨"Group".toList, "rbac.authorization.k8s.io".toList, "example:rw".toList, []⟩] := by
  obtain ⟨rb, longName, shortName, _, hs, _, hrb, _, _, _, _, _, _, hsub, _⟩ :=
    makeRoleBinding_contents ⟨fun _ => .ok exampleNamespace, fun _ => .ok [], fun _ => .ok []⟩
      exampleNamespace ReadWrite ["sre:eng-0".toList, "sre:eng-1".toList]
      (Or.inr ⟨rfl, rfl⟩)
  have hshort : shortName = "rw".toList := by
    have : ReadWrite.ShortName = .ok "rw".toList := rfl
    rw [this] at hs
    exact (Except.ok.inj hs).symm
  subst hshort
  exact ⟨rb, hrb, hsub⟩

end namespacegen

namespace unnamespaced

open kustomizebuild (Str Fault)
open k8s (Subject ClusterRoleBinding)

theorem makeSubjects_some (acc : List Subject) :
    ∀ (names : List Str),
      names.foldl (fun subjects name => some (subjects.getD [] ++ [groupSubject name]))
        (some acc) = some (acc ++ names.map groupSubject) := by
  intro names
  induction names generalizing acc with
  | nil => simp
  | cons name rest ih =>
    rw [List.foldl_cons]
    simp only [Option.getD_some]
    rw [ih]
    simp

/-- The subjects are nil for no name and one group subject per name, in order,
otherwise. -/
theorem makeSubjects_eq (names : List Str) :
    makeSubjects names = if names = [] then none else some (names.map groupSubject) := by
  cases names with
  | nil => rfl
  | cons name rest =>
    simp only [makeSubjects, List.foldl_cons, Option.getD_none, List.nil_append]
    rw [makeSubjects_some]
    simp

/-- Claim C20.  For every input, the two cluster role bindings handed to the
encoder are the read-only one and the read-write one: each has the long name of
its level (`unnamespaced-ro`, `unnamespaced-rw`) as name and as name of its role
reference, a reference to a `ClusterRole` of the group
`rbac.authorization.k8s.io`, the metadata of the input otherwise, and as
subjects, for each access-control name of its level in order, the subject of
kind `Group` of the group `rbac.authorization.k8s.io` with that name, nil when
that list is empty.  `makeManifests` returns their two encodings, read-only
first, or the first error of the encoder. -/
theorem makeManifests_two_bindings (E : Env) (u : Unnamespaced) :
    ∃ ro rw : ClusterRoleBinding,
      clusterRoleBindingOf ReadOnly u = .ok ro ∧ clusterRoleBindingOf ReadWrite u = .ok rw ∧
      ReadOnly.LongName = .ok ro.ObjectMeta.Name ∧ ReadOnly.LongName = .ok ro.RoleRef.Name ∧
      ReadWrite.LongName = .ok rw.ObjectMeta.Name ∧ ReadWrite.LongName = .ok rw.RoleRef.Name ∧
      ro.ObjectMeta = { u.ObjectMeta with Name := "unnamespaced-ro".toList } ∧
      rw.ObjectMeta = { u.ObjectMeta with Name := "unnamespaced-rw".toList } ∧
      ro.RoleRef =
        ⟨"rbac.authorization.k8s.io".toList, "ClusterRole".toList, "unnamespaced-ro".toList⟩ ∧
      rw.RoleRef =
        ⟨"rbac.authorization.k8s.io".toList, "ClusterRole".toList, "unnamespaced-rw".toList⟩ ∧
      ro.Subjects = (if u.AccessControl.ReadOnly = [] then none
        else some (u.AccessControl.ReadOnly.map (fun name =>
          { Kind := "Group".toList, APIGroup := "rbac.authorization.k8s.io".toList,
            Name := name, Namespace := [] }))) ∧
      rw.Subjects = (if u.AccessControl.ReadWrite = [] then none
        else some (u.AccessControl.ReadWrite.map (fun name =>
          { Kind := "Group".toList, APIGroup := "rbac.authorization.k8s.io".toList,
            Name := name, Namespace := [] }))) ∧
      (∀ subjects, ro.Subjects = some subjects →
        subjects.map (fun subject => subject.Name) = u.AccessControl.ReadOnly ∧
          ∀ subject ∈ subjects, subject.Kind = "Group".toList ∧
            subject.APIGroup = "rbac.authorization.k8s.io".toList) ∧
      (∀ subjects, rw.Subjects = some subjects →
        subjects.map (fun subject => subject.Name) = u.AccessControl.ReadWrite ∧
          ∀ subject ∈ subjects, subject.Kind = "Group".toList ∧
            subject.APIGroup = "rbac.authorization.k8s.io".toList) ∧
      (makeManifests E u =
        match E.marshalClusterRoleBinding ro with
        | .error e => .error e
        | .ok a =>
          match E.marshalClusterRoleBinding rw with
          | .error e => .error e
          | .ok b => .ok [a, b]) ∧
      (∀ a b, E.marshalClusterRoleBinding ro = .ok a → E.marshalClusterRoleBinding rw = .ok b →
        makeManifests E u = .ok [a, b]) := by
  have hro : clusterRoleBindingOf ReadOnly u = .ok
      { TypeMeta := ⟨"ClusterRoleBinding".toList, k8s.rbacGroupVersion⟩
        ObjectMeta := { u.ObjectMeta with Name := "unnamespaced-ro".toList }
        RoleRef := ⟨k8s.rbacGroupName, "ClusterRole".toList, "unnamespaced-ro".toList⟩
        Subjects := makeSubjects u.AccessControl.ReadOnly } := rfl
  have hrw : clusterRoleBindingOf ReadWrite u = .ok
      { TypeMeta := ⟨"ClusterRoleBinding".toList, k8s.rbacGroupVersion⟩
        ObjectMeta := { u.ObjectMeta with Name := "unnamespaced-rw".toList }
        RoleRef := ⟨k8s.rbacGroupName, "ClusterRole".toList, "unnamespaced-rw".toList⟩
        Subjects := makeSubjects u.AccessControl.ReadWrite } := rfl
  have hsub : ∀ names : List Str, makeSubjects names =
      (if names = [] then none
        else some (names.map (fun name =>
          ({ Kind := "Group".toList, APIGroup := "rbac.authorization.k8s.io".toList,
             Name := name, Namespace := [] } : Subject)))) := by
    intro names
    rw [makeSubjects_eq]
    rfl
  have hall : ∀ (names : List Str) (subjects : List Subject),
      makeSubjects names = some subjects →
      subjects.map (fun subject => subject.Name) = names ∧
        ∀ subject ∈ subjects, subject.Kind = "Group".toList ∧
          subject.APIGroup = "rbac.authorization.k8s.io".toList := by
    intro names subjects hs
    rw [hsub] at hs
    by_cases hn : names = []
    · rw [if_pos hn] at hs
      cases hs
    · rw [if_neg hn] at hs
      simp only [Option.some.injEq] at hs
      rw [← hs]
      refine ⟨?_, ?_⟩
      · rw [List.map_map]
        exact List.map_id' _
      · intro subject hmem
        obtain ⟨name, _, rfl⟩ := List.mem_map.mp hmem
        exact ⟨rfl, rfl⟩
  refine ⟨_, _, hro, hrw, rfl, rfl, rfl, rfl, rfl, rfl, rfl, rfl,
    hsub _, hsub _, hall _, hall _, ?_, ?_⟩
  · simp only [makeManifests, makeClusterRoleBinding, hro, hrw]
  · intro a b ha hb
    simp only [makeManifests, makeClusterRoleBinding, hro, hrw, ha, hb]

theorem makeManifests_two_bindings_witness :
    ∃ readOnly readWrite : ClusterRoleBinding,
      clusterRoleBindingOf ReadOnly partialUnnamespaced = .ok readOnly ∧
      clusterRoleBindingOf ReadWrite partialUnnamespaced = .ok readWrite ∧
      readOnly.Subjects = none ∧
      readWrite.Subjects =
        some [⟨"Group".toList, "rbac.authorization.k8s.io".toList, "sre:eng-0".toList, []⟩,
          ⟨"Group".toList, "rbac.authorization.k8s.io".toList, "sre:eng-1".toList, []⟩] ∧
      makeManifests nameEncoder partialUnnamespaced =
        .ok [readOnly.ObjectMeta.Name ++ (readOnly.Subjects.getD []).flatMap
            (fun subject => ' ' :: subject.Name) ++ ['\n'],
          readWrite.ObjectMeta.Name ++ (readWrite.Subjects.getD []).flatMap
            (fun subject => ' ' :: subject.Name) ++ ['\n']] := by
  obtain ⟨readOnly, readWrite, h1, h2, _, _, _, _, _, _, _, _, h11, h12, _, _, _, h14⟩ :=
    makeManifests_two_bindings nameEncoder partialUnnamespaced
  exact ⟨readOnly, readWrite, h1, h2, h11, h12, h14 _ _ rfl rfl⟩

end unnamespaced

namespace clusterroles

open kustomizebuild (Str Fault)
open k8s (TypeMeta ObjectMeta)

/-! ## The order of strings and the sorts -/

theorem char_eq_of_toNat (a b : Char) (h : a.toNat = b.toNat) : a = b := by
  rw [← Char.ofNat_toNat a, ← Char.ofNat_toNat b, h]

theorem strLess_irrefl : ∀ a : Str, strLess a a = false := by
  intro a
  induction a with
  | nil => rfl
  | cons c cs ih => simp [strLess, ih]

theorem strLess_trichotomy : ∀ a b : Str, strLess a b = false → strLess b a = false → a = b := by
  intro a
  induction a with
  | nil =>
    intro b h1 _
    cases b with
    | nil => rfl
    | cons d ds => simp [strLess] at h1
  | cons c cs ih =>
    intro b h1 h2
    cases b with
    | nil => simp [strLess] at h2
    | cons d ds =>
      simp only [strLess] at h1 h2
      by_cases hcd : c.toNat < d.toNat
      · simp [hcd] at h1
      · by_cases hdc : d.toNat < c.toNat
        · simp [hdc] at h2
        · have heq : c = d := char_eq_of_toNat c d (by omega)
          subst heq
          simp only [hcd, if_false, if_true] at h1 h2
          rw [ih ds h1 h2]

theorem strLess_asymm : ∀ a b : Str, strLess a b = true → strLess b a = false := by
  intro a
  induction a with
  | nil =>
    intro b _
    cases b <;> rfl
  | cons c cs ih =>
    intro b h
    cases b with
    | nil => simp [strLess] at h
    | cons d ds =>
      simp only [strLess] at h ⊢
      by_cases hcd : c.toNat < d.toNat
      · have hdc : ¬ d.toNat < c.toNat := by omega
        have hne : ¬ d = c := by
          intro he
          rw [he] at hcd
          omega
        simp [hdc, hne]
      · simp only [hcd, if_false] at h
        by_cases heq : c = d
        · subst heq
          simp only [if_true] at h
          simp only [hcd, if_false, if_true]
          exact ih ds h
        · simp [heq] at h

theorem strLess_trans : ∀ a b c : Str, strLess a b = true → strLess b c = true →
    strLess a c = true := by
  intro a
  induction a with
  | nil =>
    intro b c h1 h2
    cases b with
    | nil => simp [strLess] at h1
    | cons d ds =>
      cases c with
      | nil => simp [strLess] at h2
      | cons e es => rfl
  | cons x xs ih =>
    intro b c h1 h2
    cases b with
    | nil => simp [strLess] at h1
    | cons d ds =>
      cases c with
      | nil => simp [strLess] at h2
      | cons e es =>
        simp only [strLess] at h1 h2 ⊢
        by_cases hxd : x.toNat < d.toNat
        · by_cases hde : d.toNat < e.toNat
          · have : x.toNat < e.toNat := by omega
            simp [this]
          · simp only [hde, if_false] at h2
            by_cases hdeq : d = e
            · subst hdeq
              simp [hxd]
            · simp [hdeq] at h2
        · simp only [hxd, if_false] at h1
          by_cases hxeq : x = d
          · subst hxeq
            simp only [if_true] at h1
            by_cases hde : x.toNat < e.toNat
            · simp [hde]
            · simp only [hde, if_false] at h2 ⊢
              by_cases hdeq : x = e
              · subst hdeq
                simp only [if_true] at h2 ⊢
                exact ih ds es h1 h2
              · simp [hdeq] at h2
          · simp [hxeq] at h1

/-- The order `not greater` of strings is transitive. -/
theorem strLess_le_trans (a b c : Str) (h1 : strLess b a = false) (h2 : strLess c b = false) :
    strLess c a = false := by
  by_contra hca
  have hca2 : strLess c a = true := by simpa using hca
  by_cases hab : strLess a b = true
  · have := strLess_trans c a b hca2 hab
    rw [h2] at this
    cases this
  · have hab2 : strLess a b = false := by simpa using hab
    have heq := strLess_trichotomy a b hab2 h1
    subst heq
    rw [h2] at hca2
    cases hca2

/-- Two lists with the same elements, both in an order that is antisymmetric on
these elements, are equal. -/
theorem sorted_perm_eq {α : Type} (le : α → α → Prop) :
    ∀ (l₁ l₂ : List α), l₁.Perm l₂ → l₁.Pairwise le → l₂.Pairwise le →
      (∀ a ∈ l₁, ∀ b ∈ l₁, le a b → le b a → a = b) → l₁ = l₂ := by
  intro l₁
  induction l₁ with
  | nil =>
    intro l₂ hp _ _ _
    exact hp.nil_eq
  | cons a l ih =>
    intro l₂ hp h₁ h₂ hanti
    cases l₂ with
    | nil => exact absurd hp.symm.nil_eq (by simp)
    | cons b l₂ =>
      have hab : a = b := by
        by_cases hne : a = b
        · exact hne
        · have ha : a ∈ b :: l₂ := hp.subset (List.mem_cons_self _ _)
          have hb : b ∈ a :: l := hp.symm.subset (List.mem_cons_self _ _)
          have ha2 : a ∈ l₂ := by
            rcases List.mem_cons.mp ha with h | h
            · exact absurd h hne
            · exact h
          have hb2 : b ∈ l := by
            rcases List.mem_cons.mp hb with h | h
            · exact absurd h.symm hne
            · exact h
          have hba : le b a := (List.pairwise_cons.mp h₂).1 a ha2
          have hab : le a b := (List.pairwise_cons.mp h₁).1 b hb2
          exact hanti a (List.mem_cons_self _ _) b hb hab hba
      subst hab
      have hp2 : l.Perm l₂ := hp.cons_inv
      rw [ih l₂ hp2 (List.pairwise_cons.mp h₁).2 (List.pairwise_cons.mp h₂).2
        (fun x hx y hy => hanti x (List.mem_cons_of_mem _ hx) y (List.mem_cons_of_mem _ hy))]

theorem sink_perm {α : Type} (less : α → α → Bool) (x : α) :
    ∀ l : List α, (sink less x l).Perm (x :: l) := by
  intro l
  induction l with
  | nil => exact List.Perm.refl _
  | cons y ys ih =>
    simp only [sink]
    by_cases h : less x y = true
    · simp only [h, if_true]
      exact (List.Perm.cons y ih).trans (List.Perm.swap x y ys)
    · simp only [h, if_false]
      exact List.Perm.refl _

theorem sink_sorted {α : Type} (key : α → Str) (x : α) :
    ∀ l : List α, l.Pairwise (fun a b => strLess (key a) (key b) = false) →
      (sink (fun a b => strLess (key a) (key b)) x l).Pairwise
        (fun a b => strLess (key a) (key b) = false) := by
  intro l
  induction l with
  | nil => intro _; simp [sink]
  | cons y ys ih =>
    intro h
    obtain ⟨hy, hys⟩ := List.pairwise_cons.mp h
    simp only [sink]
    by_cases hxy : strLess (key x) (key y) = true
    · simp only [hxy, if_true]
      refine List.pairwise_cons.mpr ⟨?_, ih hys⟩
      intro z hz
      rcases List.mem_cons.mp ((sink_perm _ x ys).subset hz) with rfl | hz2
      · exact strLess_asymm _ _ hxy
      · exact hy z hz2
    · simp only [hxy, if_false]
      have hxy2 : strLess (key x) (key y) = false := by simpa using hxy
      refine List.pairwise_cons.mpr ⟨?_, h⟩
      intro z hz
      rcases List.mem_cons.mp hz with rfl | hz2
      · exact hxy2
      · exact strLess_le_trans (key z) (key y) (key x) (hy z hz2) hxy2

theorem foldl_sink {α : Type} (key : α → Str) :
    ∀ (l sorted : List α), sorted.Pairwise (fun a b => strLess (key a) (key b) = false) →
      (l.foldl (fun sorted x => sink (fun a b => strLess (key a) (key b)) x sorted) sorted).Perm
          (l.reverse ++ sorted) ∧
        (l.foldl (fun sorted x => sink (fun a b => strLess (key a) (key b)) x sorted)
          sorted).Pairwise (fun a b => strLess (key a) (key b) = false) := by
  intro l
  induction l with
  | nil => intro sorted h; exact ⟨by simp, h⟩
  | cons x xs ih =>
    intro sorted h
    simp only [List.foldl_cons]
    obtain ⟨hp, hs⟩ := ih _ (sink_sorted key x sorted h)
    refine ⟨hp.trans ?_, hs⟩
    simp only [List.reverse_cons, List.append_assoc, List.singleton_append]
    exact List.Perm.append_left _ (sink_perm _ x sorted)

/-- The insertion sort keeps the promise of `sort.Slice`. -/
theorem insertionSort_sortsByKey : SortSlice.sortsByKey insertionSort := by
  intro α key l
  obtain ⟨hp, hs⟩ := foldl_sink key l [] List.Pairwise.nil
  constructor
  · simp only [insertionSort]
    refine (List.reverse_perm _).trans (hp.trans ?_)
    simp only [List.append_nil]
    exact List.reverse_perm _
  · simp only [insertionSort]
    exact List.pairwise_reverse.mpr hs

/-- Under the promise of `sort.Slice`, sorting two slices with the same elements
by a key that tells these elements apart gives the same slice. -/
theorem sort_congr_of_perm (sortSlice : SortSlice) (hsort : sortSlice.sortsByKey) {α : Type}
    (key : α → Str) (l₁ l₂ : List α) (hp : l₁.Perm l₂)
    (hkey : ∀ a ∈ l₁, ∀ b ∈ l₁, key a = key b → a = b) :
    sortSlice α (fun a b => strLess (key a) (key b)) l₁ =
      sortSlice α (fun a b => strLess (key a) (key b)) l₂ := by
  obtain ⟨p1, s1⟩ := hsort α key l₁
  obtain ⟨p2, s2⟩ := hsort α key l₂
  refine sorted_perm_eq _ _ _ (p1.trans (hp.trans p2.symm)) s1 s2 ?_
  intro a ha b hb hab hba
  exact hkey a (p1.subset ha) b (p1.subset hb) (strLess_trichotomy _ _ hba hab)

/-- Sorting strings: the same elements give the same slice. -/
theorem sort_strings_congr (sortSlice : SortSlice) (hsort : sortSlice.sortsByKey)
    (l₁ l₂ : List Str) (hp : l₁.Perm l₂) :
    sortSlice Str strLess l₁ = sortSlice Str strLess l₂ :=
  sort_congr_of_perm sortSlice hsort (fun s => s) l₁ l₂ hp (fun _ _ _ _ h => h)

/-! ## The loops of the generator -/

theorem coreResourcesLoop_eq : ∀ (l : List (Str × Namespaced)) (gathered : List Str),
    coreResourcesLoop l gathered = gathered ++ coreResourcesOf l := by
  intro l
  induction l with
  | nil => intro gathered; simp [coreResourcesLoop, coreResourcesOf]
  | cons e rest ih =>
    intro gathered
    obtain ⟨resource, namespaced⟩ := e
    simp only [coreResourcesLoop]
    by_cases h : resource ≠ secretResourceName ∧ namespaced = true
    · rw [if_pos h, ih]
      simp [coreResourcesOf, List.filter_cons, h]
    · rw [if_neg h, ih]
      simp [coreResourcesOf, List.filter_cons, h]

theorem unnamespacedResourcesLoop_eq : ∀ (l : List (Str × Namespaced)) (gathered : List Str),
    unnamespacedResourcesLoop l gathered = gathered ++ unnamespacedResourcesOf l := by
  intro l
  induction l with
  | nil => intro gathered; simp [unnamespacedResourcesLoop, unnamespacedResourcesOf]
  | cons e rest ih =>
    intro gathered
    obtain ⟨resource, namespaced⟩ := e
    simp only [unnamespacedResourcesLoop]
    by_cases h : namespaced = false
    · rw [if_pos h, ih]
      simp [unnamespacedResourcesOf, List.filter_cons, h]
    · rw [if_neg h, ih]
      simp [unnamespacedResourcesOf, List.filter_cons, h]

theorem namespacedLoop_eq (R : Ranges) : ∀ (l : List (Str × ResourceIndex))
    (coreRule othersRule : PolicyRule),
    namespacedLoop R l (coreRule, othersRule) =
      ({ coreRule with
          Resources := coreRule.Resources ++
            (l.filter (fun entry => entry.1 = coreGroupName)).flatMap
              (fun entry => coreResourcesOf (R.namespacedResources entry.1 entry.2)) },
        { othersRule with
          APIGroups := othersRule.APIGroups ++
            (l.filter (fun entry => entry.1 ≠ coreGroupName)).map (fun entry => entry.1) }) := by
  intro l
  induction l with
  | nil => intro coreRule othersRule; simp [namespacedLoop]
  | cons e rest ih =>
    intro coreRule othersRule
    obtain ⟨group, resources⟩ := e
    simp only [namespacedLoop]
    by_cases h : group ≠ coreGroupName
    · rw [if_pos h, ih]
      have h2 : ¬ group = coreGroupName := h
      simp [List.filter_cons, h2]
    · rw [if_neg h, ih]
      have h2 : group = coreGroupName := by simpa using h
      simp [List.filter_cons, h2, coreResourcesLoop_eq]

theorem unnamespacedLoop_eq (R : Ranges) : ∀ (l : List (Str × ResourceIndex))
    (readOnlyRules readWriteRules : List PolicyRule),
    unnamespacedLoop R l (readOnlyRules, readWriteRules) =
      (readOnlyRules ++ l.filterMap (unnamespacedRule R readOnlyVerbs),
        readWriteRules ++ l.filterMap (unnamespacedRule R readWriteVerbs)) := by
  intro l
  induction l with
  | nil => intro readOnlyRules readWriteRules; simp [unnamespacedLoop]
  | cons e rest ih =>
    intro readOnlyRules readWriteRules
    obtain ⟨group, resources⟩ := e
    simp only [unnamespacedLoop, unnamespacedResourcesLoop_eq, List.nil_append]
    by_cases h : (unnamespacedResourcesOf (R.unnamespacedResources group resources)).length = 0
    · rw [if_pos h, ih]
      simp [List.filterMap_cons, unnamespacedRule, h]
    · rw [if_neg h, ih]
      simp [List.filterMap_cons, unnamespacedRule, h]

/-- The four roles of `makeClusterRoles`, which never fails. -/
theorem makeClusterRoles_eq (R : Ranges) (index : GroupIndex) :
    makeNamespacedClusterRoles R index =
      .ok [roleOf namespacedReadOnlyRoleName [coreRuleOf R index, othersRuleOf R index],
        roleOf namespacedReadWriteRoleName
          [{ APIGroups := [APIGroupAll], Resources := [ResourceAll], Verbs := readWriteVerbs }]] ∧
    makeUnnamespacedClusterRoles R index =
      .ok [roleOf unnamespacedReadOnlyRoleName
          ((R.unnamespacedGroups index).filterMap (unnamespacedRule R readOnlyVerbs)),
        roleOf unnamespacedReadWriteRoleName
          ((R.unnamespacedGroups index).filterMap (unnamespacedRule R readWriteVerbs))] ∧
    makeClusterRoles R index =
      .ok [roleOf namespacedReadOnlyRoleName [coreRuleOf R index, othersRuleOf R index],
        roleOf namespacedReadWriteRoleName
          [{ APIGroups := [APIGroupAll], Resources := [ResourceAll], Verbs := readWriteVerbs }],
        roleOf unnamespacedReadOnlyRoleName
          ((R.unnamespacedGroups index).filterMap (unnamespacedRule R readOnlyVerbs)),
        roleOf unnamespacedReadWriteRoleName
          ((R.unnamespacedGroups index).filterMap (unnamespacedRule R readWriteVerbs))] := by
  have h1 : makeNamespacedClusterRoles R index =
      .ok [roleOf namespacedReadOnlyRoleName [coreRuleOf R index, othersRuleOf R index],
        roleOf namespacedReadWriteRoleName
          [{ APIGroups := [APIGroupAll], Resources := [ResourceAll],
             Verbs := readWriteVerbs }]] := by
    simp only [makeNamespacedClusterRoles, namespacedLoop_eq, List.nil_append, roleOf,
      coreRuleOf, othersRuleOf]
  have h2 : makeUnnamespacedClusterRoles R index =
      .ok [roleOf unnamespacedReadOnlyRoleName
          ((R.unnamespacedGroups index).filterMap (unnamespacedRule R readOnlyVerbs)),
        roleOf unnamespacedReadWriteRoleName
          ((R.unnamespacedGroups index).filterMap (unnamespacedRule R readWriteVerbs))] := by
    simp only [makeUnnamespacedClusterRoles, unnamespacedLoop_eq, List.nil_append, roleOf]
  refine ⟨h1, h2, ?_⟩
  simp only [makeClusterRoles, h1, h2]
  rfl

/-! ## The role `namespaced-ro` and the secrets -/

theorem mem_coreResourcesOf (l : List (Str × Namespaced)) (resource : Str) :
    resource ∈ coreResourcesOf l ↔ resource ≠ secretResourceName ∧ (resource, true) ∈ l := by
  simp only [coreResourcesOf, List.mem_map, List.mem_filter, decide_eq_true_eq]
  constructor
  · rintro ⟨⟨r, n⟩, ⟨hmem, hne, hn⟩, rfl⟩
    simp only at hn hne ⊢
    subst hn
    exact ⟨hne, hmem⟩
  · rintro ⟨hne, hmem⟩
    exact ⟨(resource, true), ⟨hmem, hne, rfl⟩, rfl⟩

theorem mem_coreRuleOf (R : Ranges) (hfair : R.fair) (index : GroupIndex) (resource : Str) :
    resource ∈ (coreRuleOf R index).Resources ↔
      resource ≠ secretResourceName ∧
        ∃ entry ∈ index, entry.1 = coreGroupName ∧ (resource, true) ∈ entry.2 := by
  simp only [coreRuleOf, List.mem_flatMap, List.mem_filter, decide_eq_true_eq,
    mem_coreResourcesOf]
  constructor
  · rintro ⟨entry, ⟨hmem, hcore⟩, hne, hres⟩
    exact ⟨hne, entry, (hfair.1 index).mem_iff.mp hmem, hcore,
      (hfair.2.1 entry.1 entry.2).mem_iff.mp hres⟩
  · rintro ⟨hne, entry, hmem, hcore, hres⟩
    exact ⟨entry, ⟨(hfair.1 index).mem_iff.mpr hmem, hcore⟩, hne,
      (hfair.2.1 entry.1 entry.2).mem_iff.mpr hres⟩

theorem mem_othersRuleOf (R : Ranges) (hfair : R.fair) (index : GroupIndex) (group : Str) :
    group ∈ (othersRuleOf R index).APIGroups ↔
      group ≠ coreGroupName ∧ ∃ entry ∈ index, entry.1 = group := by
  simp only [othersRuleOf, List.mem_map, List.mem_filter, decide_eq_true_eq]
  constructor
  · rintro ⟨entry, ⟨hmem, hne⟩, rfl⟩
    exact ⟨hne, entry, (hfair.1 index).mem_iff.mp hmem, rfl⟩
  · rintro ⟨hne, entry, hmem, rfl⟩
    exact ⟨entry, ⟨(hfair.1 index).mem_iff.mpr hmem, hne⟩, rfl⟩

/-- Claim C24, at two inputs where it fails.  A group of the index named `*` is
listed among the API groups of the second rule of `namespaced-ro`, next to the
resources `*`: the rule then applies to the secrets of the core group.  A
namespaced core resource named `*` is listed by the core rule, which then
applies to the secrets as well. -/
theorem wildcard_names_reach_core_secrets :
    makeNamespacedClusterRoles entryOrder wildcardGroupIndex =
      .ok [roleOf namespacedReadOnlyRoleName
          [⟨readOnlyVerbs, [coreGroupName], ["pods".toList]⟩,
            ⟨readOnlyVerbs, ["*".toList], ["*".toList]⟩],
        roleOf namespacedReadWriteRoleName [⟨readWriteVerbs, ["*".toList], ["*".toList]⟩]] ∧
    covers ⟨readOnlyVerbs, ["*".toList], ["*".toList]⟩ coreGroupName secretResourceName = true ∧
    makeNamespacedClusterRoles entryOrder wildcardResourceIndex =
      .ok [roleOf namespacedReadOnlyRoleName
          [⟨readOnlyVerbs, [coreGroupName], ["*".toList]⟩, ⟨readOnlyVerbs, [], ["*".toList]⟩],
        roleOf namespacedReadWriteRoleName [⟨readWriteVerbs, ["*".toList], ["*".toList]⟩]] ∧
    covers ⟨readOnlyVerbs, [coreGroupName], ["*".toList]⟩ coreGroupName secretResourceName =
      true := by
  decide

/-- Claim C24, amended.  For every index and every fair order of enumeration,
the role `namespaced-ro` has two rules.  The core rule names the core group and
lists exactly the namespaced resources of the core group other than `secrets`;
the other rule lists the resources `*` and names exactly the groups of the
index other than the core group.  When no group of the index and no namespaced
resource of the core group is named `*`, neither rule applies to the resource
`secrets` of the core group. -/
theorem namespaced_read_only_excludes_core_secrets (R : Ranges) (hfair : R.fair)
    (index : GroupIndex) :
    ∃ coreRule othersRule readWrite,
      makeNamespacedClusterRoles R index =
        .ok [roleOf namespacedReadOnlyRoleName [coreRule, othersRule], readWrite] ∧
      coreRule.APIGroups = [coreGroupName] ∧
      (∀ resource, resource ∈ coreRule.Resources ↔
        resource ≠ secretResourceName ∧
          ∃ entry ∈ index, entry.1 = coreGroupName ∧ (resource, true) ∈ entry.2) ∧
      othersRule.Resources = [ResourceAll] ∧
      (∀ group, group ∈ othersRule.APIGroups ↔
        group ≠ coreGroupName ∧ ∃ entry ∈ index, entry.1 = group) ∧
      coreRule.Verbs = readOnlyVerbs ∧ othersRule.Verbs = readOnlyVerbs ∧
      ((∀ entry ∈ index, entry.1 ≠ APIGroupAll) →
        (∀ entry ∈ index, entry.1 = coreGroupName →
          ∀ resource ∈ entry.2, resource.2 = true → resource.1 ≠ ResourceAll) →
        ∀ rule ∈ [coreRule, othersRule],
          covers rule coreGroupName secretResourceName = false) := by
  refine ⟨coreRuleOf R index, othersRuleOf R index, _, (makeClusterRoles_eq R index).1, rfl,
    mem_coreRuleOf R hfair index, rfl, mem_othersRuleOf R hfair index, rfl, rfl, ?_⟩
  intro hgroups hresources
  have hcore : covers (coreRuleOf R index) coreGroupName secretResourceName = false := by
    have h1 : secretResourceName ∉ (coreRuleOf R index).Resources := by
      intro h
      exact ((mem_coreRuleOf R hfair index _).mp h).1 rfl
    have h2 : ResourceAll ∉ (coreRuleOf R index).Resources := by
      intro h
      obtain ⟨_, entry, hmem, hc, hres⟩ := (mem_coreRuleOf R hfair index _).mp h
      exact hresources entry hmem hc _ hres rfl rfl
    simp only [covers, h1, h2, decide_False, Bool.or_false, Bool.and_false]
  have hothers : covers (othersRuleOf R index) coreGroupName secretResourceName = false := by
    have h1 : coreGroupName ∉ (othersRuleOf R index).APIGroups := by
      intro h
      exact ((mem_othersRuleOf R hfair index _).mp h).1 rfl
    have h2 : APIGroupAll ∉ (othersRuleOf R index).APIGroups := by
      intro h
      obtain ⟨_, entry, hmem, hg⟩ := (mem_othersRuleOf R hfair index _).mp h
      exact hgroups entry hmem hg
    simp only [covers, h1, h2, decide_False, Bool.or_false, Bool.false_and]
  intro rule hrule
  simp only [List.mem_cons, List.mem_singleton, List.not_mem_nil, or_false] at hrule
  rcases hrule with rfl | rfl
  · exact hcore
  · exact hothers

theorem entryOrder_fair : entryOrder.fair :=
  ⟨fun m => List.Perm.refl m, fun _ m => List.Perm.refl m, fun m => List.Perm.refl m,
    fun _ m => List.Perm.refl m⟩

theorem reverseOrder_fair : reverseOrder.fair :=
  ⟨fun m => List.reverse_perm m, fun _ m => List.reverse_perm m, fun m => List.reverse_perm m,
    fun _ m => List.reverse_perm m⟩

theorem namespaced_read_only_excludes_core_secrets_witness :
    ∃ coreRule othersRule readWrite,
      makeNamespacedClusterRoles reverseOrder sampleIndex =
        .ok [roleOf namespacedReadOnlyRoleName [coreRule, othersRule], readWrite] ∧
      ∀ rule ∈ [coreRule, othersRule], covers rule coreGroupName secretResourceName = false := by
  obtain ⟨coreRule, othersRule, readWrite, h1, _, _, _, _, _, _, h8⟩ :=
    namespaced_read_only_excludes_core_secrets reverseOrder reverseOrder_fair sampleIndex
  exact ⟨coreRule, othersRule, readWrite, h1, h8 (by decide) (by decide)⟩

/-! ## The canonical roles and the order of enumeration -/

theorem canonicalizeRule_congr (sortSlice : SortSlice) (hsort : sortSlice.sortsByKey)
    (a b : PolicyRule) (hg : a.APIGroups.Perm b.APIGroups) (hr : a.Resources.Perm b.Resources)
    (hv : a.Verbs.Perm b.Verbs) : canonicalizeRule sortSlice a = canonicalizeRule sortSlice b := by
  simp only [canonicalizeRule, sort_strings_congr sortSlice hsort _ _ hg,
    sort_strings_congr sortSlice hsort _ _ hr, sort_strings_congr sortSlice hsort _ _ hv]

theorem unnamespacedResourcesOf_perm (R₁ R₂ : Ranges) (h₁ : R₁.fair) (h₂ : R₂.fair)
    (entry : Str × ResourceIndex) :
    (unnamespacedResourcesOf (R₁.unnamespacedResources entry.1 entry.2)).Perm
      (unnamespacedResourcesOf (R₂.unnamespacedResources entry.1 entry.2)) := by
  have hp : (R₁.unnamespacedResources entry.1 entry.2).Perm
      (R₂.unnamespacedResources entry.1 entry.2) :=
    (h₁.2.2.2 entry.1 entry.2).trans (h₂.2.2.2 entry.1 entry.2).symm
  exact (hp.filter _).map _

theorem unnamespacedRule_congr (sortSlice : SortSlice) (hsort : sortSlice.sortsByKey)
    (R₁ R₂ : Ranges) (h₁ : R₁.fair) (h₂ : R₂.fair) (verbs : List Str)
    (entry : Str × ResourceIndex) :
    (unnamespacedRule R₁ verbs entry).map (canonicalizeRule sortSlice) =
      (unnamespacedRule R₂ verbs entry).map (canonicalizeRule sortSlice) := by
  have hp := unnamespacedResourcesOf_perm R₁ R₂ h₁ h₂ entry
  have hlen := hp.length_eq
  simp only [unnamespacedRule]
  by_cases h0 : (unnamespacedResourcesOf (R₁.unnamespacedResources entry.1 entry.2)).length = 0
  · have h0b : (unnamespacedResourcesOf (R₂.unnamespacedResources entry.1 entry.2)).length = 0 := by
      rw [← hlen]; exact h0
    rw [if_pos h0, if_pos h0b]
  · have h0b : ¬ (unnamespacedResourcesOf (R₂.unnamespacedResources entry.1 entry.2)).length = 0 := by
      rw [← hlen]; exact h0
    rw [if_neg h0, if_neg h0b]
    simp only [Option.map_some', Option.some.injEq]
    exact canonicalizeRule_congr sortSlice hsort _ _ (List.Perm.refl _) hp (List.Perm.refl _)

theorem unnamespacedRules_perm (sortSlice : SortSlice) (hsort : sortSlice.sortsByKey)
    (R₁ R₂ : Ranges) (h₁ : R₁.fair) (h₂ : R₂.fair) (verbs : List Str) (index : GroupIndex) :
    (((R₁.unnamespacedGroups index).filterMap (unnamespacedRule R₁ verbs)).map
        (canonicalizeRule sortSlice)).Perm
      (((R₂.unnamespacedGroups index).filterMap (unnamespacedRule R₂ verbs)).map
        (canonicalizeRule sortSlice)) := by
  rw [List.map_filterMap, List.map_filterMap]
  have hfun : (fun entry => (unnamespacedRule R₁ verbs entry).map (canonicalizeRule sortSlice)) =
      (fun entry => (unnamespacedRule R₂ verbs entry).map (canonicalizeRule sortSlice)) :=
    funext (fun entry => unnamespacedRule_congr sortSlice hsort R₁ R₂ h₁ h₂ verbs entry)
  rw [hfun]
  exact ((h₁.2.2.1 index).trans (h₂.2.2.1 index).symm).filterMap _

theorem coreRuleOf_perm (R₁ R₂ : Ranges) (h₁ : R₁.fair) (h₂ : R₂.fair) (index : GroupIndex) :
    (coreRuleOf R₁ index).Resources.Perm (coreRuleOf R₂ index).Resources := by
  simp only [coreRuleOf]
  have hp : ((R₁.namespacedGroups index).filter (fun entry => entry.1 = coreGroupName)).Perm
      ((R₂.namespacedGroups index).filter (fun entry => entry.1 = coreGroupName)) :=
    ((h₁.1 index).trans (h₂.1 index).symm).filter _
  refine (List.Perm.flatMap_left _ ?_).trans (hp.flatMap_right _)
  intro entry _
  simp only [coreResourcesOf]
  exact (((h₁.2.1 entry.1 entry.2).trans (h₂.2.1 entry.1 entry.2).symm).filter _).map _

theorem othersRuleOf_perm (R₁ R₂ : Ranges) (h₁ : R₁.fair) (h₂ : R₂.fair) (index : GroupIndex) :
    (othersRuleOf R₁ index).APIGroups.Perm (othersRuleOf R₂ index).APIGroups := by
  simp only [othersRuleOf]
  exact (((h₁.1 index).trans (h₂.1 index).symm).filter _).map _

theorem canonicalizeClusterRole_unnamespaced (sortSlice : SortSlice)
    (hsort : sortSlice.sortsByKey) (R₁ R₂ : Ranges) (h₁ : R₁.fair) (h₂ : R₂.fair)
    (name : Str) (verbs : List Str) (index : GroupIndex)
    (hforms : ∀ a ∈ (R₁.unnamespacedGroups index).filterMap (unnamespacedRule R₁ verbs),
      ∀ b ∈ (R₁.unnamespacedGroups index).filterMap (unnamespacedRule R₁ verbs),
        ruleString (canonicalizeRule sortSlice a) = ruleString (canonicalizeRule sortSlice b) →
          canonicalizeRule sortSlice a = canonicalizeRule sortSlice b) :
    canonicalizeClusterRole sortSlice
        (roleOf name ((R₁.unnamespacedGroups index).filterMap (unnamespacedRule R₁ verbs))) =
      canonicalizeClusterRole sortSlice
        (roleOf name ((R₂.unnamespacedGroups index).filterMap (unnamespacedRule R₂ verbs))) := by
  simp only [canonicalizeClusterRole, roleOf]
  rw [sort_congr_of_perm sortSlice hsort ruleString _ _
    (unnamespacedRules_perm sortSlice hsort R₁ R₂ h₁ h₂ verbs index)]
  intro a ha b hb hab
  obtain ⟨a0, ha0, rfl⟩ := List.mem_map.mp ha
  obtain ⟨b0, hb0, rfl⟩ := List.mem_map.mp hb
  exact hforms a0 ha0 b0 hb0 hab

theorem canonicalizeClusterRole_namespaced (sortSlice : SortSlice)
    (hsort : sortSlice.sortsByKey) (R₁ R₂ : Ranges) (h₁ : R₁.fair) (h₂ : R₂.fair)
    (index : GroupIndex) :
    canonicalizeClusterRole sortSlice
        (roleOf namespacedReadOnlyRoleName [coreRuleOf R₁ index, othersRuleOf R₁ index]) =
      canonicalizeClusterRole sortSlice
        (roleOf namespacedReadOnlyRoleName [coreRuleOf R₂ index, othersRuleOf R₂ index]) := by
  have hc : canonicalizeRule sortSlice (coreRuleOf R₁ index) =
      canonicalizeRule sortSlice (coreRuleOf R₂ index) :=
    canonicalizeRule_congr sortSlice hsort _ _ (List.Perm.refl _)
      (coreRuleOf_perm R₁ R₂ h₁ h₂ index) (List.Perm.refl _)
  have ho : canonicalizeRule sortSlice (othersRuleOf R₁ index) =
      canonicalizeRule sortSlice (othersRuleOf R₂ index) :=
    canonicalizeRule_congr sortSlice hsort _ _ (othersRuleOf_perm R₁ R₂ h₁ h₂ index)
      (List.Perm.refl _) (List.Perm.refl _)
  simp only [canonicalizeClusterRole, roleOf, List.map_cons, List.map_nil, hc, ho]

theorem canonicalizeRule_sorted (sortSlice : SortSlice) (hsort : sortSlice.sortsByKey)
    (rule : PolicyRule) :
    (canonicalizeRule sortSlice rule).APIGroups.Pairwise (fun a b => strLess b a = false) ∧
      (canonicalizeRule sortSlice rule).Resources.Pairwise (fun a b => strLess b a = false) ∧
      (canonicalizeRule sortSlice rule).Verbs.Pairwise (fun a b => strLess b a = false) :=
  ⟨(hsort Str (fun s => s) rule.APIGroups).2, (hsort Str (fun s => s) rule.Resources).2,
    (hsort Str (fun s => s) rule.Verbs).2⟩

theorem canonicalizeClusterRole_sorted (sortSlice : SortSlice) (hsort : sortSlice.sortsByKey)
    (role : ClusterRole) :
    roleName (canonicalizeClusterRole sortSlice role) = roleName role ∧
      (canonicalizeClusterRole sortSlice role).Rules.Pairwise
        (fun a b => strLess (ruleString b) (ruleString a) = false) ∧
      ∀ rule ∈ (canonicalizeClusterRole sortSlice role).Rules,
        rule.APIGroups.Pairwise (fun a b => strLess b a = false) ∧
          rule.Resources.Pairwise (fun a b => strLess b a = false) ∧
          rule.Verbs.Pairwise (fun a b => strLess b a = false) := by
  obtain ⟨hp, hs⟩ := hsort PolicyRule ruleString (role.Rules.map (canonicalizeRule sortSlice))
  refine ⟨rfl, hs, ?_⟩
  intro rule hrule
  obtain ⟨rule0, _, rfl⟩ := List.mem_map.mp (hp.subset hrule)
  exact canonicalizeRule_sorted sortSlice hsort rule0

/-- The canonical roles come in the order of their four names. -/
theorem canonicalizeClusterRoles_names (sortSlice : SortSlice) (hsort : sortSlice.sortsByKey)
    (roles : List ClusterRole)
    (hnames : roles.map roleName = [namespacedReadOnlyRoleName, namespacedReadWriteRoleName,
      unnamespacedReadOnlyRoleName, unnamespacedReadWriteRoleName]) :
    (canonicalizeClusterRoles sortSlice roles).map roleName =
      [namespacedReadOnlyRoleName, namespacedReadWriteRoleName, unnamespacedReadOnlyRoleName,
        unnamespacedReadWriteRoleName] := by
  obtain ⟨hp, hs⟩ := hsort ClusterRole roleName (roles.map (canonicalizeClusterRole sortSlice))
  have hmap : (roles.map (canonicalizeClusterRole sortSlice)).map roleName =
      roles.map roleName := by
    rw [List.map_map]
    exact List.map_congr_left (fun role _ => rfl)
  have hp2 : ((canonicalizeClusterRoles sortSlice roles).map roleName).Perm
      [namespacedReadOnlyRoleName, namespacedReadWriteRoleName, unnamespacedReadOnlyRoleName,
        unnamespacedReadWriteRoleName] := by
    rw [← hnames, ← hmap]
    exact hp.map roleName
  have hs2 : ((canonicalizeClusterRoles sortSlice roles).map roleName).Pairwise
      (fun a b => strLess b a = false) := by
    rw [List.pairwise_map]
    exact hs
  exact sorted_perm_eq _ _ _ hp2 hs2 (by decide)
    (fun a _ b _ hab hba => strLess_trichotomy a b hba hab)

theorem canonicalClusterRoles_eq (sortSlice : SortSlice) (R : Ranges) (index : GroupIndex) :
    canonicalClusterRoles sortSlice R index =
      .ok (canonicalizeClusterRoles sortSlice
        [roleOf namespacedReadOnlyRoleName [coreRuleOf R index, othersRuleOf R index],
          roleOf namespacedReadWriteRoleName
            [{ APIGroups := [APIGroupAll], Resources := [ResourceAll], Verbs := readWriteVerbs }],
          roleOf unnamespacedReadOnlyRoleName
            ((R.unnamespacedGroups index).filterMap (unnamespacedRule R readOnlyVerbs)),
          roleOf unnamespacedReadWriteRoleName
            ((R.unnamespacedGroups index).filterMap (unnamespacedRule R readWriteVerbs))]) := by
  simp only [canonicalClusterRoles, (makeClusterRoles_eq R index).2.2]

/-- Claim C27, at an input where it fails.  The groups `a` and `a][b` give two
rules that differ and are compared by the same string; the insertion sort that
`sort.Slice` runs on two elements leaves them in the order of enumeration, so
the canonical roles of the two orders differ. -/
theorem printed_ties_depend_on_order :
    ruleString (canonicalizeRule insertionSort ⟨readOnlyVerbs, ["a".toList], ["b][c".toList]⟩) =
        "[a][b][c][get list watch]".toList ∧
      ruleString (canonicalizeRule insertionSort ⟨readOnlyVerbs, ["a][b".toList], ["c".toList]⟩) =
        "[a][b][c][get list watch]".toList ∧
      canonicalClusterRoles insertionSort entryOrder bracketIndex ≠
        canonicalClusterRoles insertionSort reverseOrder bracketIndex := by
  decide

/-- Claim C27, amended.  Let `sort.Slice` keep its promise and let different
rules of each role of `makeUnnamespacedClusterRoles` have different comparison
strings.  Then the canonical roles are the same for any two fair orders of
enumeration of the index; they come in the order of their names, the rules of
each role in the order of their comparison strings, and the API groups, the
resources and the verbs of each rule in ascending order. -/
theorem canonical_roles_independent_of_order (sortSlice : SortSlice)
    (hsort : sortSlice.sortsByKey) (R₁ R₂ : Ranges) (h₁ : R₁.fair) (h₂ : R₂.fair)
    (index : GroupIndex)
    (hforms : ∀ roles, makeUnnamespacedClusterRoles R₁ index = .ok roles →
      distinctForms sortSlice roles) :
    canonicalClusterRoles sortSlice R₁ index = canonicalClusterRoles sortSlice R₂ index ∧
    ∃ roles, canonicalClusterRoles sortSlice R₁ index = .ok roles ∧
      roles.map roleName = [namespacedReadOnlyRoleName, namespacedReadWriteRoleName,
        unnamespacedReadOnlyRoleName, unnamespacedReadWriteRoleName] ∧
      roles.Pairwise (fun a b => strLess (roleName b) (roleName a) = false) ∧
      ∀ role ∈ roles,
        role.Rules.Pairwise (fun a b => strLess (ruleString b) (ruleString a) = false) ∧
        ∀ rule ∈ role.Rules,
          rule.APIGroups.Pairwise (fun a b => strLess b a = false) ∧
            rule.Resources.Pairwise (fun a b => strLess b a = false) ∧
            rule.Verbs.Pairwise (fun a b => strLess b a = false) := by
  have hf := hforms _ (makeClusterRoles_eq R₁ index).2.1
  have hro := canonicalizeClusterRole_unnamespaced sortSlice hsort R₁ R₂ h₁ h₂
    unnamespacedReadOnlyRoleName readOnlyVerbs index
    (hf _ (List.mem_cons_self _ _))
  have hrw := canonicalizeClusterRole_unnamespaced sortSlice hsort R₁ R₂ h₁ h₂
    unnamespacedReadWriteRoleName readWriteVerbs index
    (hf _ (List.mem_cons_of_mem _ (List.mem_cons_self _ _)))
  have hns := canonicalizeClusterRole_namespaced sortSlice hsort R₁ R₂ h₁ h₂ index
  constructor
  · simp only [canonicalClusterRoles, (makeClusterRoles_eq R₁ index).2.2,
      (makeClusterRoles_eq R₂ index).2.2, canonicalizeClusterRoles, List.map_cons, List.map_nil,
      hro, hrw, hns]
  · refine ⟨_, canonicalClusterRoles_eq sortSlice R₁ index, ?_, ?_, ?_⟩
    · exact canonicalizeClusterRoles_names sortSlice hsort _ rfl
    · exact (hsort ClusterRole roleName _).2
    · intro role hrole
      obtain ⟨role0, _, rfl⟩ := List.mem_map.mp ((hsort ClusterRole roleName _).1.subset hrole)
      exact (canonicalizeClusterRole_sorted sortSlice hsort role0).2

theorem canonical_roles_independent_of_order_witness :
    canonicalClusterRoles insertionSort entryOrder sampleIndex =
      canonicalClusterRoles insertionSort reverseOrder sampleIndex :=
  (canonical_roles_independent_of_order insertionSort insertionSort_sortsByKey entryOrder
    reverseOrder entryOrder_fair reverseOrder_fair sampleIndex (by
      intro roles h
      cases h
      unfold distinctForms
      decide)).1

/-! ## The names of the roles and the bindings -/

/-- Claim C28.  For every index, `makeClusterRoles` emits four roles, named
`namespaced-ro`, `namespaced-rw`, `unnamespaced-ro` and `unnamespaced-rw`: these
are the long names of the two access levels of the namespace generator and of
the two access levels of the unnamespaced generator, and
`AccessLevelFromLongName` gives back the level of each long name.  Every role
reference of a binding of the two generators is to a `ClusterRole` with one of
these names. -/
theorem bindings_name_generated_roles :
    (∀ (R : Ranges) (index : GroupIndex),
      (makeClusterRoles R index).map (fun roles => roles.map roleName) =
        .ok [namespacedReadOnlyRoleName, namespacedReadWriteRoleName,
          unnamespacedReadOnlyRoleName, unnamespacedReadWriteRoleName]) ∧
    namespacegen.AccessLevel.LongName namespacegen.ReadOnly = .ok namespacedReadOnlyRoleName ∧
    namespacegen.AccessLevel.LongName namespacegen.ReadWrite = .ok namespacedReadWriteRoleName ∧
    unnamespaced.AccessLevel.LongName unnamespaced.ReadOnly = .ok unnamespacedReadOnlyRoleName ∧
    unnamespaced.AccessLevel.LongName unnamespaced.ReadWrite =
      .ok unnamespacedReadWriteRoleName ∧
    (namespacegen.AccessLevel.LongName namespacegen.ReadOnly).bind
      namespacegen.AccessLevelFromLongName = .ok namespacegen.ReadOnly ∧
    (namespacegen.AccessLevel.LongName namespacegen.ReadWrite).bind
      namespacegen.AccessLevelFromLongName = .ok namespacegen.ReadWrite ∧
    (unnamespaced.AccessLevel.LongName unnamespaced.ReadOnly).bind
      unnamespaced.AccessLevelFromLongName = .ok unnamespaced.ReadOnly ∧
    (unnamespaced.AccessLevel.LongName unnamespaced.ReadWrite).bind
      unnamespaced.AccessLevelFromLongName = .ok unnamespaced.ReadWrite ∧
    (∀ (level : namespacegen.AccessLevel) (ns : namespacegen.Namespace) (rb : k8s.RoleBinding),
      namespacegen.roleBindingOf level ns = .ok rb →
        rb.RoleRef.Kind = typeMeta.Kind ∧ rb.RoleRef.APIGroup = k8s.rbacGroupName ∧
          rb.RoleRef.Name ∈ [namespacedReadOnlyRoleName, namespacedReadWriteRoleName]) ∧
    (∀ (level : unnamespaced.AccessLevel) (u : unnamespaced.Unnamespaced)
      (crb : k8s.ClusterRoleBinding),
      unnamespaced.clusterRoleBindingOf level u = .ok crb →
        crb.RoleRef.Kind = typeMeta.Kind ∧ crb.RoleRef.APIGroup = k8s.rbacGroupName ∧
          crb.RoleRef.Name ∈ [unnamespacedReadOnlyRoleName, unnamespacedReadWriteRoleName]) := by
  refine ⟨?_, rfl, rfl, rfl, rfl, by decide, by decide, by decide, by decide, ?_, ?_⟩
  · intro R index
    rw [(makeClusterRoles_eq R index).2.2]
    rfl
  · intro level ns rb h
    simp only [namespacegen.roleBindingOf, namespacegen.AccessLevel.ShortName,
      namespacegen.AccessLevel.LongName] at h
    by_cases h0 : level = namespacegen.ReadOnly
    · simp only [h0, if_true, Except.ok.injEq] at h
      rw [← h]
      exact ⟨rfl, rfl, List.mem_cons_self _ _⟩
    · by_cases h1 : level = namespacegen.ReadWrite
      · have h2 : ¬ (namespacegen.ReadWrite = namespacegen.ReadOnly) := by decide
        simp only [h1, h2, if_false, if_true, Except.ok.injEq] at h
        rw [← h]
        exact ⟨rfl, rfl, List.mem_cons_of_mem _ (List.mem_cons_self _ _)⟩
      · simp only [h0, h1, if_false] at h
        cases h
  · intro level u crb h
    simp only [unnamespaced.clusterRoleBindingOf, unnamespaced.AccessLevel.LongName] at h
    by_cases h0 : level = unnamespaced.ReadOnly
    · simp only [h0, if_true, Except.ok.injEq] at h
      rw [← h]
      exact ⟨rfl, rfl, List.mem_cons_self _ _⟩
    · by_cases h1 : level = unnamespaced.ReadWrite
      · have h2 : ¬ (unnamespaced.ReadWrite = unnamespaced.ReadOnly) := by decide
        simp only [h1, h2, if_false, if_true, Except.ok.injEq] at h
        rw [← h]
        exact ⟨rfl, rfl, List.mem_cons_of_mem _ (List.mem_cons_self _ _)⟩
      · simp only [h0, h1, if_false] at h
        cases h

theorem bindings_name_generated_roles_witness :
    ∃ rb : k8s.RoleBinding,
      namespacegen.roleBindingOf namespacegen.ReadWrite namespacegen.exampleNamespace = .ok rb ∧
        rb.RoleRef.Name ∈ [namespacedReadOnlyRoleName, namespacedReadWriteRoleName] ∧
        (makeClusterRoles entryOrder sampleIndex).map (fun roles => roles.map roleName) =
          .ok [namespacedReadOnlyRoleName, namespacedReadWriteRoleName,
            unnamespacedReadOnlyRoleName, unnamespacedReadWriteRoleName] :=
  ⟨_, rfl, (bindings_name_generated_roles.2.2.2.2.2.2.2.2.2.1 namespacegen.ReadWrite
    namespacegen.exampleNamespace _ rfl).2.2, bindings_name_generated_roles.1 entryOrder sampleIndex⟩

end clusterroles
